import Mathlib

/-!
# svg-to-jsx: a shallow embedding of `svg-to-jsx.go`

Go strings are modelled as lists of Unicode characters (`Str`), that is, the
input is taken to be valid UTF-8.  Every regular expression of the source is
translated by hand into a matcher that is anchored at the head of the
remaining text; the drivers `findFirst`, `findAll` and `replaceAll` walk the
text from left to right exactly as Go's `regexp` package does (leftmost
match, then the search resumes behind the match).  The functions of the Go
standard library the source calls (`strings.Split`, `strings.Join`,
`strings.TrimSpace`, `strings.ReplaceAll`, `bufio.Scanner`) are modelled
after their documentation.

Go ranges over a `map` in an unspecified order.  The two range loops of the
source are therefore parameterised: `convertAttributesInLine` receives the
order in which the body table is visited, and `convertSvgToTsx` receives the
function that picks the visiting order of the parsed attributes.
-/

namespace SvgToJsx

set_option maxRecDepth 100000

/-- Text, as a list of characters. -/
abbrev Str := List Char

/-- A Go `map[string]string`, kept as an association list with unique keys. -/
abbrev Table := List (Str × Str)

/-! ## Character classes -/

/-- The class `\s` of Go's `regexp` (RE2): `[\t\n\f\r ]`. -/
def isReSpace (c : Char) : Bool :=
  c.toNat == 9 || c.toNat == 10 || c.toNat == 12 || c.toNat == 13 || c.toNat == 32

/-- Go's `unicode.IsSpace`, the class trimmed by `strings.TrimSpace`:
`\t \n \v \f \r`, space, U+0085, U+00A0 and the characters of category Z
with property White_Space. -/
def isSpace (c : Char) : Bool :=
  (9 ≤ c.toNat && c.toNat ≤ 13) || c.toNat == 32 || c.toNat == 0x85 || c.toNat == 0xA0
    || c.toNat == 0x1680 || (0x2000 ≤ c.toNat && c.toNat ≤ 0x200A) || c.toNat == 0x2028
    || c.toNat == 0x2029 || c.toNat == 0x202F || c.toNat == 0x205F || c.toNat == 0x3000

/-- The class `[a-z]`. -/
def isLower (c : Char) : Bool := 97 ≤ c.toNat && c.toNat ≤ 122

/-- The class `[a-z0-9-]`. -/
def isKebabTail (c : Char) : Bool :=
  isLower c || (48 ≤ c.toNat && c.toNat ≤ 57) || c.toNat == 45

/-- The class `[a-zA-Z0-9_:-]` of attribute names. -/
def isNameChar (c : Char) : Bool :=
  isLower c || (65 ≤ c.toNat && c.toNat ≤ 90) || (48 ≤ c.toNat && c.toNat ≤ 57)
    || c.toNat == 95 || c.toNat == 58 || c.toNat == 45

/-- The single quote character. -/
def squote : Char := Char.ofNat 39

/-- The double quote character. -/
def dquote : Char := Char.ofNat 34

/-- `strings.ToUpper` on a one-byte string holding an ASCII character: the
letters `a`..`z` move to `A`..`Z`, every other ASCII character stays.  (The
source slices one byte, `parts[i][:1]`; every name that reaches it was
captured by a regular expression over ASCII classes.) -/
def upperByte (c : Char) : Char :=
  if isLower c then Char.ofNat (c.toNat - 32) else c

/-! ## String helpers of the Go standard library -/

/-- `strings.Split(s, sep)` for a one-character separator. -/
def splitOn (sep : Char) : Str → List Str
  | [] => [[]]
  | c :: cs =>
    if c = sep then [] :: splitOn sep cs
    else
      match splitOn sep cs with
      | [] => [[c]]
      | p :: ps => (c :: p) :: ps

/-- `strings.Join(parts, sep)`. -/
def joinWith (sep : Str) : List Str → Str
  | [] => []
  | [p] => p
  | p :: q :: ps => p ++ sep ++ joinWith sep (q :: ps)

/-- `strings.TrimSpace`. -/
def trimSpace (s : Str) : Str :=
  ((s.dropWhile isSpace).reverse.dropWhile isSpace).reverse

/-- The text behind the literal `p` when `l` starts with `p`. -/
def afterLit : Str → Str → Option Str
  | [], l => some l
  | _ :: _, [] => none
  | a :: p, c :: l => if a = c then afterLit p l else none

/-- First occurrence of the literal `p` in the text: the text before it and
the text behind it. -/
def splitAtLit (p : Str) : Str → Option (Str × Str)
  | [] => (afterLit p []).map fun r => ([], r)
  | c :: cs =>
    match afterLit p (c :: cs) with
    | some r => some ([], r)
    | none => (splitAtLit p cs).map fun x => (c :: x.1, x.2)

/-- Whether the literal `p` occurs in the text (`strings.Contains`). -/
def containsLit (p : Str) (l : Str) : Bool := (splitAtLit p l).isSome

/-! ## Regular-expression drivers

A matcher receives whether the position is the beginning of the text (for
`^`) and the remaining text; it answers with the number of characters the
match consumes and a payload.  Every pattern of the source consumes at least
one character. -/

/-- `FindStringSubmatch`: the leftmost position at which the pattern matches. -/
def findFirst {α : Type} (m : Str → Option α) : Str → Option α
  | [] => m []
  | c :: cs =>
    match m (c :: cs) with
    | some a => some a
    | none => findFirst m cs

/-- Worker of `findAll`: `skip` characters of the current match are still to
be passed over. -/
def findAllAux {α : Type} (m : Bool → Str → Option (Nat × α)) : Bool → Nat → Str → List α
  | _, _, [] => []
  | st, 0, c :: cs =>
    match m st (c :: cs) with
    | some (n, a) => a :: findAllAux m false (n - 1) cs
    | none => findAllAux m false 0 cs
  | _, k + 1, _ :: cs => findAllAux m false k cs

/-- `FindAllStringSubmatch(s, -1)`: successive non-overlapping matches. -/
def findAll {α : Type} (m : Bool → Str → Option (Nat × α)) (s : Str) : List α :=
  findAllAux m true 0 s

/-- Worker of `replaceAll`. -/
def replaceAllAux (m : Bool → Str → Option (Nat × Str)) : Bool → Nat → Str → Str
  | _, _, [] => []
  | st, 0, c :: cs =>
    match m st (c :: cs) with
    | some (n, r) => r ++ replaceAllAux m false (n - 1) cs
    | none => c :: replaceAllAux m false 0 cs
  | _, k + 1, _ :: cs => replaceAllAux m false k cs

/-- `ReplaceAllString`: every match is replaced by the text the matcher
expanded from the template; the text between matches is copied. -/
def replaceAll (m : Bool → Str → Option (Nat × Str)) (s : Str) : Str :=
  replaceAllAux m true 0 s

/-- Matcher of a plain literal, for `strings.ReplaceAll(s, old, new)`. -/
def litAt (old new : Str) (_ : Bool) (l : Str) : Option (Nat × Str) :=
  match afterLit old l with
  | some _ => some (old.length, new)
  | none => none

/-- `strings.ReplaceAll(s, old, new)` for a non-empty `old`. -/
def strReplaceAll (old new : Str) (s : Str) : Str := replaceAll (litAt old new) s

/-! ## The patterns of the source -/

/-- The pattern `<svg[^>]*>([\s\S]*?)</svg>` anchored at the head of the
text; the answer is group 1.  `[^>]*` is greedy and can only stop in front of
the first `>`; the lazy `[\s\S]*?` stops at the first `</svg>` behind it. -/
def svgElementAt (l : Str) : Option Str :=
  match afterLit "<svg".toList l with
  | none => none
  | some r =>
    match r.dropWhile (fun c => c != '>') with
    | [] => none
    | _ :: rest => (splitAtLit "</svg>".toList rest).map Prod.fst

/-- The pattern `<svg([^>]*)>` anchored at the head of the text; the answer
is group 1. -/
def svgOpenTagAt (l : Str) : Option Str :=
  match afterLit "<svg".toList l with
  | none => none
  | some r =>
    match r.dropWhile (fun c => c != '>') with
    | [] => none
    | _ :: _ => some (r.takeWhile (fun c => c != '>'))

/-- One alternative of the value pattern: `q[^q]*q` for the quote `q`. -/
def quotedAt (q : Char) : Str → Option Str
  | [] => none
  | c :: r =>
    if c = q then
      match r.dropWhile (fun d => d != q) with
      | [] => none
      | _ :: _ => some (q :: (r.takeWhile (fun d => d != q) ++ [q]))
    else none

/-- The group `("[^"]*"|'[^']*')`. -/
def valueAt (l : Str) : Option Str :=
  match quotedAt dquote l with
  | some v => some v
  | none => quotedAt squote l

/-- The pattern `([a-zA-Z0-9_:-]+)\s*=\s*("[^"]*"|'[^']*')` anchored at the
head of the text; the payload is (group 1, group 2).  The three classes and
`=` are pairwise disjoint, so each greedy run ends exactly where the next
piece has to start and no shorter run can match. -/
def attrAt (_ : Bool) (l : Str) : Option (Nat × (Str × Str)) :=
  let name := l.takeWhile isNameChar
  if name = [] then none
  else
    let r1 := l.dropWhile isNameChar
    let r2 := r1.dropWhile isReSpace
    match r2 with
    | [] => none
    | e :: r3 =>
      if e = '=' then
        let r4 := r3.dropWhile isReSpace
        match valueAt r4 with
        | some v =>
          some (name.length + (r1.takeWhile isReSpace).length + 1
                  + (r3.takeWhile isReSpace).length + v.length, (name, v))
        | none => none
      else none

/-- The second alternative of `(^|\s)k=`: a white-space character, then `k=`.
The template `${1}t=` copies the white-space character. -/
def keyAfterSpace (k t : Str) (l : Str) : Option (Nat × Str) :=
  match l with
  | [] => none
  | c :: r =>
    if isReSpace c then
      match afterLit (k ++ ['=']) r with
      | some _ => some (k.length + 2, c :: (t ++ ['=']))
      | none => none
    else none

/-- The pattern `(^|\s)k=` for a table key `k`, with the expansion of the
template `${1}t=`.  The alternative `^` is tried first. -/
def keyAt (k t : Str) (atStart : Bool) (l : Str) : Option (Nat × Str) :=
  if atStart then
    match afterLit (k ++ ['=']) l with
    | some _ => some (k.length + 1, t ++ ['='])
    | none => keyAfterSpace k t l
  else keyAfterSpace k t l

/-- The pattern `\s([a-z]+-[a-z0-9-]+)=` anchored at the head of the text;
the payload is group 1.  `[a-z]+` has to end in front of a `-` and
`[a-z0-9-]+` in front of `=`, neither of which belongs to the class before
it, so both runs are the maximal ones. -/
def kebabAt (_ : Bool) (l : Str) : Option (Nat × Str) :=
  match l with
  | [] => none
  | c :: r =>
    if isReSpace c then
      let a := r.takeWhile isLower
      if a = [] then none
      else
        match r.dropWhile isLower with
        | [] => none
        | d :: r2 =>
          if d = '-' then
            let b := r2.takeWhile isKebabTail
            if b = [] then none
            else
              match r2.dropWhile isKebabTail with
              | [] => none
              | e :: _ =>
                if e = '=' then some (a.length + b.length + 3, a ++ '-' :: b) else none
          else none
    else none

/-! ## Name mapping -/

/-- The table `svgToReactAttrMap` of `parseAttributes` (27 entries). -/
def rootTable : Table :=
  [ ("class".toList, "className".toList),
    ("clip-path".toList, "clipPath".toList),
    ("clip-rule".toList, "clipRule".toList),
    ("fill-opacity".toList, "fillOpacity".toList),
    ("fill-rule".toList, "fillRule".toList),
    ("stroke-dasharray".toList, "strokeDasharray".toList),
    ("stroke-dashoffset".toList, "strokeDashoffset".toList),
    ("stroke-linecap".toList, "strokeLinecap".toList),
    ("stroke-linejoin".toList, "strokeLinejoin".toList),
    ("stroke-miterlimit".toList, "strokeMiterlimit".toList),
    ("stroke-opacity".toList, "strokeOpacity".toList),
    ("stroke-width".toList, "strokeWidth".toList),
    ("text-anchor".toList, "textAnchor".toList),
    ("font-family".toList, "fontFamily".toList),
    ("font-size".toList, "fontSize".toList),
    ("font-weight".toList, "fontWeight".toList),
    ("xlink:href".toList, "xlinkHref".toList),
    ("xml:space".toList, "xmlSpace".toList),
    ("stop-color".toList, "stopColor".toList),
    ("stop-opacity".toList, "stopOpacity".toList),
    ("color-interpolation".toList, "colorInterpolation".toList),
    ("color-rendering".toList, "colorRendering".toList),
    ("enable-background".toList, "enableBackground".toList),
    ("dominant-baseline".toList, "dominantBaseline".toList),
    ("shape-rendering".toList, "shapeRendering".toList),
    ("text-decoration".toList, "textDecoration".toList),
    ("vector-effect".toList, "vectorEffect".toList) ]

/-- The table `svgToReactAttrMap` of `convertAttributesInLine` (19 entries),
in the order of the source text. -/
def bodyTable : Table :=
  [ ("clip-path".toList, "clipPath".toList),
    ("clip-rule".toList, "clipRule".toList),
    ("fill-opacity".toList, "fillOpacity".toList),
    ("fill-rule".toList, "fillRule".toList),
    ("stroke-dasharray".toList, "strokeDasharray".toList),
    ("stroke-dashoffset".toList, "strokeDashoffset".toList),
    ("stroke-linecap".toList, "strokeLinecap".toList),
    ("stroke-linejoin".toList, "strokeLinejoin".toList),
    ("stroke-miterlimit".toList, "strokeMiterlimit".toList),
    ("stroke-opacity".toList, "strokeOpacity".toList),
    ("stroke-width".toList, "strokeWidth".toList),
    ("text-anchor".toList, "textAnchor".toList),
    ("font-family".toList, "fontFamily".toList),
    ("font-size".toList, "fontSize".toList),
    ("font-weight".toList, "fontWeight".toList),
    ("stop-color".toList, "stopColor".toList),
    ("stop-opacity".toList, "stopOpacity".toList),
    ("enable-background".toList, "enableBackground".toList),
    ("class".toList, "className".toList) ]

/-- The expression `strings.ToUpper(p[:1]) + p[1:]`. -/
def upperFirst : Str → Str
  | [] => []
  | c :: cs => upperByte c :: cs

/-- The loop `for i := 1; i < len(parts); i++` shared, word for word, by
`parseAttributes` and `convertKebabToCamel`: starting from `parts[0]`, every
later non-empty part is appended with its first byte uppercased. -/
def camelLoop : List Str → Str
  | [] => []
  | p0 :: ps => ps.foldl (fun acc p => if p.length > 0 then acc ++ upperFirst p else acc) p0

/-- The function `convertKebabToCamel`. -/
def convertKebabToCamel (kebab : Str) : Str := camelLoop (splitOn '-' kebab)

/-- The name rewriting of `parseAttributes` (source lines 141-151): table
lookup first, otherwise the camel loop for a name that is not `viewBox` and
contains a hyphen, otherwise the name itself. -/
def mapAttributeName (name : Str) : Str :=
  match rootTable.lookup name with
  | some mappedName => mappedName
  | none =>
    if name ≠ "viewBox".toList ∧ containsLit "-".toList name then camelLoop (splitOn '-' name)
    else name

/-- The assignment `attrs[name] = value` on a Go map. -/
def mapSet (k v : Str) : Table → Table
  | [] => [(k, v)]
  | (k0, v0) :: r => if k0 = k then (k, v) :: r else (k0, v0) :: mapSet k v r

/-- The function `parseAttributes`. -/
def parseAttributes (attrsStr : Str) : Table :=
  (findAll attrAt attrsStr).foldl (fun attrs nv => mapSet (mapAttributeName nv.1) nv.2 attrs) []

/-! ## The body transformer -/

/-- The first loop of `convertAttributesInLine`: one `ReplaceAllString` per
table entry, in the order `ord` in which the map is visited. -/
def replaceKnown (ord : Table) (line : Str) : Str :=
  ord.foldl (fun ln kt => replaceAll (keyAt kt.1 kt.2) ln) line

/-- The inner loop computing `alreadyHandled`: whether the name is a key of
the body table (the visiting order plays no part in the answer). -/
def alreadyHandled (kebabAttr : Str) : Bool := bodyTable.any fun kt => kt.1 == kebabAttr

/-- The second loop of `convertAttributesInLine`, over the matches found in
the line as it stood behind the first loop. -/
def replaceGeneric (found : List Str) (line : Str) : Str :=
  found.foldl
    (fun ln kebabAttr =>
      if alreadyHandled kebabAttr then ln
      else strReplaceAll (' ' :: (kebabAttr ++ ['='])) (' ' :: (convertKebabToCamel kebabAttr ++ ['='])) ln)
    line

/-- The function `convertAttributesInLine`; `ord` is the order in which the
range loop visits the body table. -/
def convertAttributesInLine (ord : Table) (line : Str) : Str :=
  let line1 := replaceKnown ord line
  replaceGeneric (findAll kebabAt line1) line1

/-- The loop of `cleanSvgBody` over the lines; `ords i` is the order in which
the call for line number `i` visits the body table. -/
def cleanLines (ords : Nat → Table) : Nat → List Str → List Str
  | _, [] => []
  | i, line :: rest =>
    if trimSpace line ≠ [] then
      convertAttributesInLine (ords i) (trimSpace line) :: cleanLines ords (i + 1) rest
    else cleanLines ords (i + 1) rest

/-- The function `cleanSvgBody`. -/
def cleanSvgBody (ords : Nat → Table) (body : Str) : Str :=
  joinWith ['\n'] (cleanLines ords 0 (splitOn '\n' body))

/-! ## The document composer -/

/-- Go's `bufio.MaxScanTokenSize`. -/
def maxScanTokenSize : Nat := 64 * 1024

/-- Length of the UTF-8 encoding of a text, in bytes. -/
def utf8Len (s : Str) : Nat := (s.map Char.utf8Size).sum

/-- The helper `dropCR` of `bufio.ScanLines`. -/
def dropCR (s : Str) : Str :=
  if s.getLast? = some '\r' then s.dropLast else s

/-- The raw lines `bufio.ScanLines` cuts a text into: the pieces between
newlines, without a final empty piece. -/
def rawLines (s : Str) : List Str :=
  let ps := splitOn '\n' s
  if ps.getLast? = some [] then ps.dropLast else ps

/-- The tokens a `bufio.Scanner` with the default buffer delivers before
`Scan` answers false: the scanner gives up (`ErrTooLong`) at the first line
that does not fit, with its newline, into `maxScanTokenSize` bytes. -/
def scanTokens : List Str → List Str
  | [] => []
  | l :: ls => if utf8Len l < maxScanTokenSize then dropCR l :: scanTokens ls else []

/-- The scanner loop of `convertSvgToTsx`: every delivered line that is not
blank is written behind four spaces. -/
def bodyLines (body : Str) : List Str :=
  ((scanTokens (rawLines body)).filter fun line => trimSpace line ≠ []).map
    fun line => "    ".toList ++ line ++ ['\n']

/-- The text the scanner loop appends to the builder. -/
def emitBody (body : Str) : Str := (bodyLines body).flatten

/-- One line of the attribute loop: `fmt.Sprintf("    %s=%s\n", key, value)`. -/
def attrLine (kv : Str × Str) : Str := "    ".toList ++ kv.1 ++ ['='] ++ kv.2 ++ ['\n']

/-- The lines the attribute loop writes when it visits the map in the order
`es`: one per entry whose key is not `xmlns`. -/
def rootLines (es : Table) : List Str :=
  (es.filter fun kv => kv.1 ≠ "xmlns".toList).map attrLine

/-- The text the attribute loop appends to the builder. -/
def emitAttrs (es : Table) : Str := (rootLines es).flatten

/-- The text `svgBody`: group 1 of the first match of the element pattern,
empty without a match. -/
def svgBodyOf (svgContent : Str) : Str := (findFirst svgElementAt svgContent).getD []

/-- The text `svgAttrs`: group 1 of the first match of the open-tag pattern,
empty without a match. -/
def svgAttrsOf (svgContent : Str) : Str := (findFirst svgOpenTagAt svgContent).getD []

/-- Everything written before the attribute loop. -/
def header (componentName : Str) : Str :=
  "import * as React from \"react\";\n\n".toList
    ++ ("const ".toList ++ componentName
        ++ ": React.FC<React.SVGProps<SVGElement>> = (props) => (\n".toList)
    ++ "  <svg\n".toList
    ++ "    xmlns=\"http://www.w3.org/2000/svg\"\n".toList

/-- The two lines written between the attribute loop and the body. -/
def propsLines : Str := "    \x7b...props\x7d\n".toList ++ "  >\n".toList

/-- Everything written behind the body. -/
def footer (componentName : Str) : Str :=
  "  </svg>\n".toList ++ ");\n\n".toList
    ++ ("export default React.memo(".toList ++ componentName ++ ");\n".toList)

/-- The function `convertSvgToTsx`.  `iter` gives the order in which the
range loop visits the parsed attributes, `ords` the orders in which the calls
of `convertAttributesInLine` visit the body table. -/
def convertSvgToTsx (iter : Table → Table) (ords : Nat → Table)
    (svgContent componentName : Str) : Str :=
  header componentName
    ++ emitAttrs (iter (parseAttributes (svgAttrsOf svgContent)))
    ++ propsLines
    ++ emitBody (cleanSvgBody ords (svgBodyOf svgContent))
    ++ footer componentName


/-! ## Auxiliary notions for the proofs -/

/-- A character that is neither pattern white space nor `=`. -/
def isPlainChar (c : Char) : Bool := !isReSpace c && c != '='

/-- One `ReplaceAllString` of the first loop of `convertAttributesInLine`,
resumed at a position that is (`st = true`) or is not the beginning of the
line. -/
def replaceKeyFrom (k t : Str) (st : Bool) (l : Str) : Str :=
  replaceAllAux (keyAt k t) st 0 l

/-- Two table entries that cannot be confused by the first loop: keys and
targets are free of white space and `=`, the keys differ and no target is the
key of the other entry. -/
def Apart (a b : Str × Str) : Prop :=
  a.1.all isPlainChar = true ∧ a.2.all isPlainChar = true ∧
  b.1.all isPlainChar = true ∧ b.2.all isPlainChar = true ∧
  a.1 ≠ b.1 ∧ a.2 ≠ b.1 ∧ b.2 ≠ a.1


/-- Decision procedure for `Apart`. -/
instance instDecidableApart (a b : Str × Str) : Decidable (Apart a b) := by
  unfold Apart
  infer_instance

/-- The input of the scenario with the component name `Icon`. -/
def iconInput : Str :=
  "<svg viewBox=\"0 0 24 24\"><path stroke-width=\"2\" fill-rule=\"evenodd\"/></svg>".toList

/-- The text the scenario with the component name `Icon` is expected to give. -/
def iconOutput : Str :=
  ("import * as React from \"react\";\n"
    ++ "\n"
    ++ "const Icon: React.FC<React.SVGProps<SVGElement>> = (props) => (\n"
    ++ "  <svg\n"
    ++ "    xmlns=\"http://www.w3.org/2000/svg\"\n"
    ++ "    viewBox=\"0 0 24 24\"\n"
    ++ "    \x7b...props\x7d\n"
    ++ "  >\n"
    ++ "    <path strokeWidth=\"2\" fillRule=\"evenodd\"/>\n"
    ++ "  </svg>\n"
    ++ ");\n"
    ++ "\n"
    ++ "export default React.memo(Icon);\n").toList


/-- An attribute name: a non-empty token of the class `[a-zA-Z0-9_:-]`. -/
def IsName (n : Str) : Prop := n ≠ [] ∧ ∀ c ∈ n, isNameChar c = true

/-- A quoted value literal: a double or single quote, a body without that
quote, and the same quote again. -/
def IsQuoted (v : Str) : Prop :=
  ∃ q body, (q = dquote ∨ q = squote) ∧ (∀ c ∈ body, c ≠ q) ∧ v = q :: (body ++ [q])

/-- A segment with its first character uppercased and its rest unchanged. -/
def capitalize : Str → Str
  | [] => []
  | c :: cs => c.toUpper :: cs

/-- The generic conversion in the words of the specification: the name is
split on `-`, the first segment is kept as it is, every later non-empty
segment gets its first character uppercased, empty segments are dropped, and
the pieces are concatenated without separator. -/
def kebabToCamelSpec (name : Str) : Str :=
  match splitOn '-' name with
  | [] => []
  | first :: later => first ++ ((later.filter fun s => s ≠ []).map capitalize).flatten


/-- A body line of 100000 letters `a`, longer than `maxScanTokenSize`. -/
def longLine : Str := List.replicate 100000 'a'

/-- A document whose body is the single line `longLine`. -/
def longInput : Str := "<svg>".toList ++ (longLine ++ "</svg>".toList)


/-- Number of lines of a text, the empty text counted as zero lines. -/
def lineCount (s : Str) : Nat := if s = [] then 0 else (splitOn '\n' s).length


/-- An attribute as it stands in a tag: the text in front of it (white space
in a well-formed tag), its name and its quoted value. -/
structure Attr where
  /-- The text between the previous attribute and the name. -/
  sep : Str
  /-- The attribute name. -/
  name : Str
  /-- The value with its quotes. -/
  value : Str

/-- A well-formed attribute: the text in front holds no name character, the
name is a name token and the value is a quoted literal. -/
def Attr.Valid (a : Attr) : Prop :=
  (∀ c ∈ a.sep, isNameChar c = false) ∧ IsName a.name ∧ IsQuoted a.value

/-- The text of one attribute: separator, name, `=`, value. -/
def attrText (a : Attr) : Str := a.sep ++ (a.name ++ '=' :: a.value)

/-- The attribute text of a tag that carries the attributes `l`. -/
def attrsText (l : List Attr) : Str := (l.map attrText).flatten

/-- One step of the loop of `parseAttributes` over the matches. -/
def parseStep (attrs : Table) (nv : Str × Str) : Table :=
  mapSet (mapAttributeName nv.1) nv.2 attrs


/-- A name of the shape `[a-z]+-[a-z0-9-]+`. -/
def KebabShape (z : Str) : Prop :=
  ∃ a b, z = a ++ '-' :: b ∧ a ≠ [] ∧ (∀ c ∈ a, isLower c = true)
    ∧ b ≠ [] ∧ (∀ c ∈ b, isKebabTail c = true)


/-- Whether `k=` stands in the text at a position that is either the first
one, provided the flag says that the text starts at a word boundary, or
immediately behind a character of the class `\s`. -/
def keyOccurs (k : Str) : Bool → Str → Bool
  | _, [] => false
  | b, c :: cs =>
    (b && (afterLit (k ++ ['=']) (c :: cs)).isSome) || keyOccurs k (isReSpace c) cs

/-- The name `k`, immediately followed by `=`, occurs in the line at the
start of the line or immediately behind a white-space character (of the
class `\s`, which holds every white-space character of XML). -/
def BoundaryOcc (k : Str) (line : Str) : Prop :=
  ∃ pre suf, line = pre ++ (k ++ ['=']) ++ suf
    ∧ (pre = [] ∨ ∃ p c, pre = p ++ [c] ∧ isReSpace c = true)

/-- On this line the generic branch finds no token whose conversion is the
name `class` (such a token is `class--`, `class---`, and so on). -/
def NoClassToken (ord : Table) (line : Str) : Prop :=
  ∀ x ∈ findAll kebabAt (replaceKnown ord line), convertKebabToCamel x ≠ "class".toList

/-- The text ` name=` the generic branch searches and writes. -/
def spaced (name : Str) : Str := ' ' :: (name ++ ['='])

/-- One step of the second loop of `convertAttributesInLine`. -/
def genericStep (ln kebabAttr : Str) : Str :=
  if alreadyHandled kebabAttr then ln
  else strReplaceAll (' ' :: (kebabAttr ++ ['='])) (' ' :: (convertKebabToCamel kebabAttr ++ ['='])) ln

/-- The call `strings.ReplaceAll(line, " "+u+"=", " "+v+"=")`, resumed at a
position that is or is not the beginning of the line. -/
def replaceSpacedFrom (u v : Str) (st : Bool) (l : Str) : Str :=
  replaceAllAux (litAt (spaced u) (spaced v)) st 0 l

/-- Decision procedure for `NoClassToken`. -/
instance instDecidableNoClassToken (ord : Table) (line : Str) :
    Decidable (NoClassToken ord line) := by
  unfold NoClassToken
  infer_instance

/-- The first character of a text satisfies `Q` (true for the empty text). -/
def headSat (Q : Char → Bool) : Str → Bool
  | [] => true
  | c :: _ => Q c

/-- The last character of a text satisfies `Q` (true for the empty text). -/
def lastSat (Q : Char → Bool) : Str → Bool
  | [] => true
  | [c] => Q c
  | _ :: c :: cs => lastSat Q (c :: cs)

/-- A character that `strings.TrimSpace` does not remove. -/
def notSpace (c : Char) : Bool := !isSpace c


/-! ## Lemmas on literals and on the drivers -/

theorem afterLit_eq_some {p l r : Str} : afterLit p l = some r ↔ l = p ++ r := by
  induction p generalizing l with
  | nil => simp [afterLit, eq_comm]
  | cons a p ih =>
    cases l with
    | nil => simp [afterLit]
    | cons c l =>
      by_cases h : a = c
      · subst h; simp [afterLit, ih]
      · simp [afterLit, h]
        intro hca; exact absurd hca.symm h

theorem afterLit_append (p r : Str) : afterLit p (p ++ r) = some r :=
  afterLit_eq_some.2 rfl

theorem afterLit_eq_none {p l : Str} : afterLit p l = none ↔ ¬ p <+: l := by
  constructor
  · intro h ⟨r, hr⟩
    rw [afterLit_eq_some.2 hr.symm] at h
    cases h
  · intro h
    cases hq : afterLit p l with
    | none => rfl
    | some r => exact absurd ⟨r, (afterLit_eq_some.1 hq).symm⟩ h

theorem replaceAllAux_nil (m : Bool → Str → Option (Nat × Str)) (st : Bool) (n : Nat) :
    replaceAllAux m st n [] = [] := by
  cases n <;> rfl

theorem replaceAllAux_skip (m : Bool → Str → Option (Nat × Str)) (n : Nat) (l : Str) :
    replaceAllAux m false n l = replaceAllAux m false 0 (l.drop n) := by
  induction n generalizing l with
  | zero => rfl
  | succ n ih =>
    cases l with
    | nil => simp [replaceAllAux_nil]
    | cons c cs => simp [replaceAllAux, ih]

theorem replaceAllAux_miss {m : Bool → Str → Option (Nat × Str)} {st : Bool} {c : Char}
    {cs : Str} (h : m st (c :: cs) = none) :
    replaceAllAux m st 0 (c :: cs) = c :: replaceAllAux m false 0 cs := by
  simp [replaceAllAux, h]

theorem replaceAllAux_hit {m : Bool → Str → Option (Nat × Str)} {st : Bool} {c : Char}
    {cs : Str} {n : Nat} {r : Str} (h : m st (c :: cs) = some (n, r)) :
    replaceAllAux m st 0 (c :: cs) = r ++ replaceAllAux m false 0 (cs.drop (n - 1)) := by
  simp [replaceAllAux, h, replaceAllAux_skip m (n - 1)]

theorem findAllAux_nil {α : Type} (m : Bool → Str → Option (Nat × α)) (st : Bool) (n : Nat) :
    findAllAux m st n [] = [] := by
  cases n <;> rfl

theorem findAllAux_skip {α : Type} (m : Bool → Str → Option (Nat × α)) (n : Nat) (l : Str) :
    findAllAux m false n l = findAllAux m false 0 (l.drop n) := by
  induction n generalizing l with
  | zero => rfl
  | succ n ih =>
    cases l with
    | nil => simp [findAllAux_nil]
    | cons c cs => simp [findAllAux, ih]

theorem findAllAux_miss {α : Type} {m : Bool → Str → Option (Nat × α)} {st : Bool} {c : Char}
    {cs : Str} (h : m st (c :: cs) = none) :
    findAllAux m st 0 (c :: cs) = findAllAux m false 0 cs := by
  simp [findAllAux, h]

theorem findAllAux_hit {α : Type} {m : Bool → Str → Option (Nat × α)} {st : Bool} {c : Char}
    {cs : Str} {n : Nat} {a : α} (h : m st (c :: cs) = some (n, a)) :
    findAllAux m st 0 (c :: cs) = a :: findAllAux m false 0 (cs.drop (n - 1)) := by
  simp [findAllAux, h, findAllAux_skip m (n - 1)]

/-- Every character the replacement writes satisfies `P` as soon as the text
and the expansions do. -/
theorem replaceAllAux_forall {m : Bool → Str → Option (Nat × Str)} {P : Char → Prop}
    (hm : ∀ st l n r, (∀ c ∈ l, P c) → m st l = some (n, r) → ∀ c ∈ r, P c)
    (st : Bool) (n : Nat) (l : Str) (hl : ∀ c ∈ l, P c) :
    ∀ c ∈ replaceAllAux m st n l, P c := by
  induction l generalizing st n with
  | nil => simp [replaceAllAux_nil]
  | cons d ds ih =>
    have hds : ∀ c ∈ ds, P c := fun c hc => hl c (List.mem_cons_of_mem _ hc)
    cases n with
    | succ k => exact ih false k hds
    | zero =>
      cases hq : m st (d :: ds) with
      | none =>
        rw [replaceAllAux_miss hq]
        intro c hc
        rcases List.mem_cons.1 hc with rfl | hc
        · exact hl _ (List.mem_cons_self _ _)
        · exact ih false 0 hds c hc
      | some x =>
        obtain ⟨k, r⟩ := x
        have : replaceAllAux m st 0 (d :: ds) = r ++ replaceAllAux m false (k - 1) ds := by
          simp [replaceAllAux, hq]
        rw [this]
        intro c hc
        rcases List.mem_append.1 hc with hc | hc
        · exact hm st (d :: ds) k r hl hq c hc
        · exact ih false (k - 1) hds c hc

/-- A replacement with non-empty expansions keeps a non-empty text non-empty. -/
theorem replaceAllAux_ne_nil {m : Bool → Str → Option (Nat × Str)}
    (hm : ∀ st l n r, m st l = some (n, r) → r ≠ [])
    (st : Bool) {l : Str} (hl : l ≠ []) : replaceAllAux m st 0 l ≠ [] := by
  cases l with
  | nil => exact absurd rfl hl
  | cons d ds =>
    cases hq : m st (d :: ds) with
    | none => rw [replaceAllAux_miss hq]; simp
    | some x =>
      obtain ⟨k, r⟩ := x
      rw [replaceAllAux_hit hq]
      have := hm st _ k r hq
      simp [this]

/-- Every payload found satisfies `Q` as soon as every match does. -/
theorem findAllAux_forall {α : Type} {m : Bool → Str → Option (Nat × α)} {Q : α → Prop}
    (hm : ∀ st l n a, m st l = some (n, a) → Q a)
    (st : Bool) (n : Nat) (l : Str) : ∀ a ∈ findAllAux m st n l, Q a := by
  induction l generalizing st n with
  | nil => simp [findAllAux_nil]
  | cons d ds ih =>
    cases n with
    | succ k => exact ih false k
    | zero =>
      cases hq : m st (d :: ds) with
      | none => rw [findAllAux_miss hq]; exact ih false 0
      | some x =>
        obtain ⟨k, a⟩ := x
        have : findAllAux m st 0 (d :: ds) = a :: findAllAux m false (k - 1) ds := by
          simp [findAllAux, hq]
        rw [this]
        intro b hb
        rcases List.mem_cons.1 hb with rfl | hb
        · exact hm st _ k _ hq
        · exact ih false (k - 1) b hb


/-! ## The first loop does not depend on the order of the table -/

theorem replaceAllAux_hit_append {m : Bool → Str → Option (Nat × Str)} {st : Bool}
    {p rest : Str} {r : Str} (hp : p ≠ []) (h : m st (p ++ rest) = some (p.length, r)) :
    replaceAllAux m st 0 (p ++ rest) = r ++ replaceAllAux m false 0 rest := by
  cases p with
  | nil => exact absurd rfl hp
  | cons c p =>
    rw [List.cons_append] at h ⊢
    rw [replaceAllAux_hit h]
    simp

theorem findAllAux_hit_append {α : Type} {m : Bool → Str → Option (Nat × α)} {st : Bool}
    {p rest : Str} {a : α} (hp : p ≠ []) (h : m st (p ++ rest) = some (p.length, a)) :
    findAllAux m st 0 (p ++ rest) = a :: findAllAux m false 0 rest := by
  cases p with
  | nil => exact absurd rfl hp
  | cons c p =>
    rw [List.cons_append] at h ⊢
    rw [findAllAux_hit h]
    simp

theorem isPlainChar_space {c : Char} (h : isPlainChar c = true) : isReSpace c = false := by
  simp [isPlainChar] at h; exact h.1

theorem isPlainChar_ne_eq {c : Char} (h : isPlainChar c = true) : c ≠ '=' := by
  simp [isPlainChar] at h; exact h.2

theorem plain_space {w : Str} (h : w.all isPlainChar = true) : ∀ c ∈ w, isReSpace c = false :=
  fun c hc => isPlainChar_space (List.all_eq_true.1 h c hc)

theorem plain_ne_eq {w : Str} (h : w.all isPlainChar = true) : ∀ c ∈ w, c ≠ '=' :=
  fun c hc => isPlainChar_ne_eq (List.all_eq_true.1 h c hc)

theorem isReSpace_eqSign : isReSpace '=' = false := by decide

theorem keyText_space {k : Str} (h : ∀ c ∈ k, isReSpace c = false) :
    ∀ c ∈ k ++ ['='], isReSpace c = false := by
  intro c hc
  rcases List.mem_append.1 hc with hc | hc
  · exact h c hc
  · simp at hc; subst hc; exact isReSpace_eqSign

/-- The text in front of the first `=` determines the key. -/
theorem key_unique {k1 k2 r1 r2 : Str} (h1 : ∀ c ∈ k1, c ≠ '=') (h2 : ∀ c ∈ k2, c ≠ '=')
    (h : (k1 ++ ['=']) ++ r1 = (k2 ++ ['=']) ++ r2) : k1 = k2 := by
  induction k1 generalizing k2 with
  | nil =>
    cases k2 with
    | nil => rfl
    | cons d k2 =>
      simp at h
      exact absurd h.1.symm (h2 d (List.mem_cons_self _ _))
  | cons c k1 ih =>
    cases k2 with
    | nil =>
      simp at h
      exact absurd h.1 (h1 c (List.mem_cons_self _ _))
    | cons d k2 =>
      simp only [List.cons_append, List.cons.injEq] at h
      obtain ⟨rfl, h⟩ := h
      rw [ih (fun c hc => h1 c (List.mem_cons_of_mem _ hc))
        (fun c hc => h2 c (List.mem_cons_of_mem _ hc)) h]

theorem key_prefix_unique {k1 k2 l : Str} (h1 : ∀ c ∈ k1, c ≠ '=') (h2 : ∀ c ∈ k2, c ≠ '=')
    (p1 : (k1 ++ ['=']) <+: l) (p2 : (k2 ++ ['=']) <+: l) : k1 = k2 := by
  obtain ⟨r1, hr1⟩ := p1
  obtain ⟨r2, hr2⟩ := p2
  exact key_unique h1 h2 (hr1.trans hr2.symm)

/-- A text that starts with white space does not start with a key. -/
theorem not_key_prefix_of_space {k : Str} {c : Char} {r : Str}
    (hk : ∀ d ∈ k, isReSpace d = false) (hc : isReSpace c = true) :
    ¬ (k ++ ['=']) <+: c :: r := by
  intro h
  cases k with
  | nil =>
    simp at h
    rw [← h, isReSpace_eqSign] at hc
    cases hc
  | cons d k =>
    rw [List.cons_append, List.cons_prefix_cons] at h
    rw [← h.1, hk d (List.mem_cons_self _ _)] at hc
    cases hc

theorem keyAfterSpace_eq_none {k t : Str} {l : Str} :
    keyAfterSpace k t l = none ↔
      ∀ c r, l = c :: r → isReSpace c = true → ¬ (k ++ ['=']) <+: r := by
  cases l with
  | nil => simp [keyAfterSpace]
  | cons c r =>
    by_cases hc : isReSpace c = true
    · cases hq : afterLit (k ++ ['=']) r with
      | none =>
        simp only [keyAfterSpace, hc, hq, if_true, true_iff]
        intro c2 r2 h _
        simp only [List.cons.injEq] at h
        rw [← h.2]
        exact afterLit_eq_none.1 hq
      | some x =>
        simp only [keyAfterSpace, hc, hq, if_true]
        constructor
        · intro h; cases h
        · intro h
          exact absurd ⟨x, (afterLit_eq_some.1 hq).symm⟩ (h c r rfl hc)
    · simp only [keyAfterSpace, hc, Bool.false_eq_true, if_false, true_iff]
      intro c2 r2 h h2
      simp only [List.cons.injEq] at h
      rw [← h.1] at h2
      exact absurd h2 hc

theorem keyAt_eq_none {k t : Str} {st : Bool} {l : Str} :
    keyAt k t st l = none ↔
      (st = true → ¬ (k ++ ['=']) <+: l) ∧
      (∀ c r, l = c :: r → isReSpace c = true → ¬ (k ++ ['=']) <+: r) := by
  cases st with
  | false => simp [keyAt, keyAfterSpace_eq_none]
  | true =>
    cases hq : afterLit (k ++ ['=']) l with
    | none =>
      simp only [keyAt, hq, if_true, keyAfterSpace_eq_none, true_implies]
      constructor
      · intro h; exact ⟨afterLit_eq_none.1 hq, h⟩
      · intro h; exact h.2
    | some x =>
      simp only [keyAt, hq, if_true, true_implies]
      constructor
      · intro h; cases h
      · intro h
        exact absurd ⟨x, (afterLit_eq_some.1 hq).symm⟩ h.1

theorem keyAt_start (k t r : Str) :
    keyAt k t true ((k ++ ['=']) ++ r) = some ((k ++ ['=']).length, t ++ ['=']) := by
  simp only [keyAt, afterLit_append, ↓reduceIte, List.length_append, List.length_singleton]

theorem keyAt_space {k t : Str} {st : Bool} {c : Char} (r : Str)
    (hk : ∀ d ∈ k, isReSpace d = false) (hc : isReSpace c = true) :
    keyAt k t st ([c] ++ (k ++ ['=']) ++ r) = some (([c] ++ (k ++ ['='])).length, c :: (t ++ ['='])) := by
  have h1 : afterLit (k ++ ['=']) (c :: ((k ++ ['=']) ++ r)) = none :=
    afterLit_eq_none.2 (not_key_prefix_of_space hk hc)
  have h2 : keyAfterSpace k t (c :: ((k ++ ['=']) ++ r))
      = some (([c] ++ (k ++ ['='])).length, c :: (t ++ ['='])) := by
    simp only [keyAfterSpace, hc, afterLit_append, ↓reduceIte, List.length_append,
      List.length_singleton]
    rw [Nat.add_comm 1 (k.length + 1)]
  have e : [c] ++ (k ++ ['=']) ++ r = c :: ((k ++ ['=']) ++ r) := rfl
  rw [e]
  cases st with
  | false => simpa only [keyAt, Bool.false_eq_true, ↓reduceIte] using h2
  | true => simpa only [keyAt, h1, ↓reduceIte] using h2

theorem replaceKeyFrom_nil (k t : Str) (st : Bool) : replaceKeyFrom k t st [] = [] := rfl

theorem replaceKeyFrom_start (k t r : Str) :
    replaceKeyFrom k t true ((k ++ ['=']) ++ r) = (t ++ ['=']) ++ replaceKeyFrom k t false r :=
  replaceAllAux_hit_append (by simp) (keyAt_start k t r)

theorem replaceKeyFrom_space {k t : Str} {c : Char} (st : Bool) (r : Str)
    (hk : ∀ d ∈ k, isReSpace d = false) (hc : isReSpace c = true) :
    replaceKeyFrom k t st (c :: ((k ++ ['=']) ++ r))
      = c :: ((t ++ ['=']) ++ replaceKeyFrom k t false r) := by
  have h := @replaceAllAux_hit_append (keyAt k t) st ([c] ++ (k ++ ['='])) r _
    (by simp) (@keyAt_space k t st c r hk hc)
  simpa [replaceKeyFrom] using h

theorem replaceKeyFrom_miss {k t : Str} {st : Bool} {c : Char} {cs : Str}
    (h : keyAt k t st (c :: cs) = none) :
    replaceKeyFrom k t st (c :: cs) = c :: replaceKeyFrom k t false cs :=
  replaceAllAux_miss h

/-- Behind the beginning of the line a run without white space is copied. -/
theorem replaceKeyFrom_pass (k t : Str) {w : Str} (hw : ∀ c ∈ w, isReSpace c = false) (y : Str) :
    replaceKeyFrom k t false (w ++ y) = w ++ replaceKeyFrom k t false y := by
  induction w with
  | nil => rfl
  | cons d w ih =>
    have hd : isReSpace d = false := hw d (List.mem_cons_self _ _)
    have hmiss : keyAt k t false (d :: (w ++ y)) = none := by
      rw [keyAt_eq_none]
      refine ⟨by simp, ?_⟩
      intro c r h hc
      simp only [List.cons.injEq] at h
      rw [← h.1, hd] at hc
      cases hc
    rw [List.cons_append, replaceKeyFrom_miss hmiss, ih (fun c hc => hw c (List.mem_cons_of_mem _ hc))]
    rfl

/-- At the beginning of the line a non-empty run without white space is
copied when the line does not start with the key. -/
theorem replaceKeyFrom_pass_start (k t : Str) {w : Str} (hne : w ≠ [])
    (hw : ∀ c ∈ w, isReSpace c = false) (y : Str) (hk : ¬ (k ++ ['=']) <+: w ++ y)
    (st : Bool) :
    replaceKeyFrom k t st (w ++ y) = w ++ replaceKeyFrom k t false y := by
  cases w with
  | nil => exact absurd rfl hne
  | cons d w =>
    have hd : isReSpace d = false := hw d (List.mem_cons_self _ _)
    have hmiss : keyAt k t st (d :: (w ++ y)) = none := by
      rw [keyAt_eq_none]
      refine ⟨fun _ => hk, ?_⟩
      intro c r h hc
      simp only [List.cons.injEq] at h
      rw [← h.1, hd] at hc
      cases hc
    rw [List.cons_append, replaceKeyFrom_miss hmiss,
      replaceKeyFrom_pass k t (fun c hc => hw c (List.mem_cons_of_mem _ hc))]
    rfl

/-- Behind the beginning of the line the replacement neither creates nor
destroys a leading run without white space. -/
theorem replaceKeyFrom_prefix_iff (k t : Str) {w : Str} (hw : ∀ c ∈ w, isReSpace c = false)
    (y : Str) : w <+: replaceKeyFrom k t false y ↔ w <+: y := by
  induction w generalizing y with
  | nil => simp
  | cons d w ih =>
    have hd : isReSpace d = false := hw d (List.mem_cons_self _ _)
    cases y with
    | nil => simp [replaceKeyFrom_nil]
    | cons e y =>
      by_cases he : isReSpace e = true
      · have hde : d ≠ e := by
          intro h; rw [h, he] at hd; cases hd
        have hhead : ∃ z, replaceKeyFrom k t false (e :: y) = e :: z := by
          cases hq : keyAt k t false (e :: y) with
          | none => exact ⟨_, replaceKeyFrom_miss hq⟩
          | some x =>
            have hq2 : keyAfterSpace k t (e :: y) = some x := by simpa [keyAt] using hq
            simp only [keyAfterSpace, he, if_true] at hq2
            cases hq3 : afterLit (k ++ ['=']) y with
            | none => rw [hq3] at hq2; cases hq2
            | some r =>
              rw [hq3] at hq2
              simp only [Option.some.injEq] at hq2
              refine ⟨(t ++ ['=']) ++ replaceAllAux (keyAt k t) false 0 (y.drop (x.1 - 1)), ?_⟩
              have := @replaceAllAux_hit (keyAt k t) false e y x.1 x.2 (by rw [hq])
              rw [replaceKeyFrom, this, ← hq2]
              simp
        obtain ⟨z, hz⟩ := hhead
        rw [hz, List.cons_prefix_cons, List.cons_prefix_cons]
        constructor
        · intro h; exact absurd h.1 hde
        · intro h; exact absurd h.1 hde
      · have he2 : isReSpace e = false := by simpa using he
        have hmiss : keyAt k t false (e :: y) = none := by
          rw [keyAt_eq_none]
          refine ⟨by simp, ?_⟩
          intro c r h hc
          simp only [List.cons.injEq] at h
          rw [← h.1, he2] at hc
          cases hc
        rw [replaceKeyFrom_miss hmiss, List.cons_prefix_cons, List.cons_prefix_cons,
          ih (fun c hc => hw c (List.mem_cons_of_mem _ hc))]

/-- A miss of one key at a position stays a miss when the text behind the
position has been rewritten for another key. -/
theorem keyAt_none_after (k t k2 t2 : Str) (hk : ∀ c ∈ k, isReSpace c = false) {st : Bool}
    {c : Char} {cs : Str} (h : keyAt k t st (c :: cs) = none) :
    keyAt k t st (c :: replaceKeyFrom k2 t2 false cs) = none := by
  rw [keyAt_eq_none] at h ⊢
  have hK := keyText_space hk
  constructor
  · intro hst hp
    apply h.1 hst
    cases hkk : k ++ ['='] with
    | nil => simp at hkk
    | cons d K =>
      rw [hkk] at hp hK
      rw [List.cons_prefix_cons] at hp ⊢
      exact ⟨hp.1, (replaceKeyFrom_prefix_iff k2 t2
        (fun c hc => hK c (List.mem_cons_of_mem _ hc)) cs).1 hp.2⟩
  · intro c2 r2 heq hc2 hp
    simp only [List.cons.injEq] at heq
    obtain ⟨rfl, rfl⟩ := heq
    exact h.2 c cs rfl hc2 ((replaceKeyFrom_prefix_iff k2 t2 hK cs).1 hp)

/-- Commutation at a position where the second key matches, given the
commutation behind the match. -/
theorem replaceKeyFrom_comm_hit {a b : Str × Str} (hab : Apart a b) {st : Bool} {l : Str}
    (hhit : keyAt b.1 b.2 st l ≠ none)
    (ih : ∀ r : Str, r.length < l.length →
      replaceKeyFrom a.1 a.2 false (replaceKeyFrom b.1 b.2 false r)
        = replaceKeyFrom b.1 b.2 false (replaceKeyFrom a.1 a.2 false r)) :
    replaceKeyFrom a.1 a.2 st (replaceKeyFrom b.1 b.2 st l)
      = replaceKeyFrom b.1 b.2 st (replaceKeyFrom a.1 a.2 st l) := by
  obtain ⟨hk1, ht1, hk2, ht2, hkk, htk, htk2⟩ := hab
  have sk1 := plain_space hk1
  have sk2 := plain_space hk2
  have st2 := plain_space ht2
  have ek1 := plain_ne_eq hk1
  have ek2 := plain_ne_eq hk2
  have et2 := plain_ne_eq ht2
  rw [Ne, keyAt_eq_none, not_and_or] at hhit
  rcases hhit with hhit | hhit
  · -- the alternative `^`
    have hst : st = true := by
      by_contra hne
      exact hhit (fun h => absurd h hne)
    subst hst
    have hp : (b.1 ++ ['=']) <+: l := by
      by_contra hne
      exact hhit (fun _ => hne)
    obtain ⟨r, rfl⟩ := hp
    have hlen : r.length < ((b.1 ++ ['=']) ++ r).length := by simp; omega
    have n1 : ¬ (a.1 ++ ['=']) <+: (b.1 ++ ['=']) ++ r := fun hp =>
      hkk (key_prefix_unique ek1 ek2 hp ⟨r, rfl⟩)
    have n2 : ¬ (a.1 ++ ['=']) <+: (b.2 ++ ['=']) ++ replaceKeyFrom b.1 b.2 false r :=
      fun hp => htk2 (key_prefix_unique ek1 et2 hp ⟨_, rfl⟩).symm
    rw [replaceKeyFrom_start,
      replaceKeyFrom_pass_start a.1 a.2 (by simp) (keyText_space st2) _ n2,
      replaceKeyFrom_pass_start a.1 a.2 (by simp) (keyText_space sk2) _ n1,
      replaceKeyFrom_start, ih r hlen]
  · -- the alternative `\s`
    have hp : ∃ c r, l = c :: r ∧ isReSpace c = true ∧ (b.1 ++ ['=']) <+: r := by
      by_contra hne
      apply hhit
      intro c r h1 h2 h3
      exact hne ⟨c, r, h1, h2, h3⟩
    obtain ⟨c, r0, rfl, hc, ⟨r, rfl⟩⟩ := hp
    have hlen : r.length < (c :: ((b.1 ++ ['=']) ++ r)).length := by simp; omega
    have m1 : keyAt a.1 a.2 st (c :: ((b.1 ++ ['=']) ++ r)) = none := by
      rw [keyAt_eq_none]
      refine ⟨fun _ => not_key_prefix_of_space sk1 hc, ?_⟩
      intro c2 r2 heq _ hp
      simp only [List.cons.injEq] at heq
      rw [← heq.2] at hp
      exact hkk (key_prefix_unique ek1 ek2 hp ⟨r, rfl⟩)
    have m2 : keyAt a.1 a.2 st (c :: ((b.2 ++ ['=']) ++ replaceKeyFrom b.1 b.2 false r)) = none := by
      rw [keyAt_eq_none]
      refine ⟨fun _ => not_key_prefix_of_space sk1 hc, ?_⟩
      intro c2 r2 heq _ hp
      simp only [List.cons.injEq] at heq
      rw [← heq.2] at hp
      exact htk2 (key_prefix_unique ek1 et2 hp ⟨_, rfl⟩).symm
    rw [replaceKeyFrom_space st r sk2 hc, replaceKeyFrom_miss m2,
      replaceKeyFrom_pass a.1 a.2 (keyText_space st2),
      replaceKeyFrom_miss m1, replaceKeyFrom_pass a.1 a.2 (keyText_space sk2),
      replaceKeyFrom_space st _ sk2 hc, ih r hlen]

theorem Apart.symm {a b : Str × Str} (h : Apart a b) : Apart b a := by
  obtain ⟨h1, h2, h3, h4, h5, h6, h7⟩ := h
  exact ⟨h3, h4, h1, h2, fun h => h5 h.symm, h7, h6⟩

/-- Two replacements of the first loop commute on every line. -/
theorem replaceKeyFrom_comm {a b : Str × Str} (hab : Apart a b) (n : Nat) :
    ∀ (st : Bool) (l : Str), l.length ≤ n →
      replaceKeyFrom a.1 a.2 st (replaceKeyFrom b.1 b.2 st l)
        = replaceKeyFrom b.1 b.2 st (replaceKeyFrom a.1 a.2 st l) := by
  induction n with
  | zero =>
    intro st l hl
    have : l = [] := List.length_eq_zero.1 (Nat.le_zero.1 hl)
    subst this
    rfl
  | succ n ih =>
    intro st l hl
    have ihl : ∀ r : Str, r.length < l.length →
        replaceKeyFrom a.1 a.2 false (replaceKeyFrom b.1 b.2 false r)
          = replaceKeyFrom b.1 b.2 false (replaceKeyFrom a.1 a.2 false r) :=
      fun r hr => ih false r (by omega)
    by_cases hb : keyAt b.1 b.2 st l = none
    · by_cases ha : keyAt a.1 a.2 st l = none
      · cases l with
        | nil => rfl
        | cons c cs =>
          have sa := plain_space hab.1
          have sb := plain_space hab.2.2.1
          rw [replaceKeyFrom_miss hb, replaceKeyFrom_miss ha,
            replaceKeyFrom_miss (keyAt_none_after a.1 a.2 b.1 b.2 sa ha),
            replaceKeyFrom_miss (keyAt_none_after b.1 b.2 a.1 a.2 sb hb),
            ih false cs (by simpa using hl)]
      · exact (replaceKeyFrom_comm_hit hab.symm ha (fun r hr => (ihl r hr).symm)).symm
    · exact replaceKeyFrom_comm_hit hab hb ihl


theorem bodyTable_apart : ∀ a ∈ bodyTable, ∀ b ∈ bodyTable, a = b ∨ Apart a b := by
  decide

/-- The first loop gives the same line for every visiting order of the body
table. -/
theorem replaceKnown_perm {ord : Table} (h : ord.Perm bodyTable) (line : Str) :
    replaceKnown ord line = replaceKnown bodyTable line := by
  unfold replaceKnown
  refine List.Perm.foldl_eq' h ?_ line
  intro x hx y hy z
  rcases bodyTable_apart y (h.subset hy) x (h.subset hx) with hxy | hxy
  · rw [hxy]
  · exact replaceKeyFrom_comm hxy z.length true z (Nat.le_refl _)

theorem convertAttributesInLine_perm {ord : Table} (h : ord.Perm bodyTable) (line : Str) :
    convertAttributesInLine ord line = convertAttributesInLine bodyTable line := by
  unfold convertAttributesInLine
  rw [replaceKnown_perm h]

theorem cleanLines_perm {ords : Nat → Table} (h : ∀ i, (ords i).Perm bodyTable) (i j : Nat)
    (ls : List Str) : cleanLines ords i ls = cleanLines (fun _ => bodyTable) j ls := by
  induction ls generalizing i j with
  | nil => rfl
  | cons l ls ih =>
    simp only [cleanLines]
    rw [convertAttributesInLine_perm (h i), ih (i + 1) (j + 1)]

theorem cleanSvgBody_perm {ords : Nat → Table} (h : ∀ i, (ords i).Perm bodyTable) (body : Str) :
    cleanSvgBody ords body = cleanSvgBody (fun _ => bodyTable) body := by
  unfold cleanSvgBody
  rw [cleanLines_perm h 0 0]

theorem iter_singleton {iter : Table → Table} (h : ∀ m, (iter m).Perm m) (e : Str × Str) :
    iter [e] = [e] :=
  List.perm_singleton.1 (h [e])

theorem iter_nil {iter : Table → Table} (h : ∀ m, (iter m).Perm m) : iter [] = [] :=
  List.perm_nil.1 (h [])


/-! ## Parsing one attribute -/

theorem takeWhile_stop {p : Char → Bool} {n : Str} {d : Char} (r : Str)
    (hn : ∀ c ∈ n, p c = true) (hd : p d = false) : (n ++ d :: r).takeWhile p = n := by
  induction n with
  | nil => simp [List.takeWhile, hd]
  | cons c n ih =>
    have hc := hn c (List.mem_cons_self _ _)
    have h := ih (fun c hc => hn c (List.mem_cons_of_mem _ hc))
    simp [List.takeWhile_cons, hc, h]

theorem dropWhile_stop {p : Char → Bool} {n : Str} {d : Char} (r : Str)
    (hn : ∀ c ∈ n, p c = true) (hd : p d = false) : (n ++ d :: r).dropWhile p = d :: r := by
  induction n with
  | nil => simp [List.dropWhile, hd]
  | cons c n ih =>
    have hc := hn c (List.mem_cons_self _ _)
    have h := ih (fun c hc => hn c (List.mem_cons_of_mem _ hc))
    simp [List.dropWhile_cons, hc, h]

theorem quotedAt_literal {q : Char} {body : Str} (rest : Str) (hb : ∀ c ∈ body, c ≠ q) :
    quotedAt q ((q :: (body ++ [q])) ++ rest) = some (q :: (body ++ [q])) := by
  have hp : ∀ c ∈ body, (fun d => d != q) c = true := by
    intro c hc; simpa using hb c hc
  have hq : (fun d => d != q) q = false := by simp
  have e : (q :: (body ++ [q])) ++ rest = q :: (body ++ q :: rest) := by simp
  rw [e]
  simp only [quotedAt, if_true]
  rw [dropWhile_stop rest hp hq, takeWhile_stop rest hp hq]

theorem isQuoted_head {v : Str} (hv : IsQuoted v) :
    ∃ q r, v = q :: r ∧ isReSpace q = false ∧ isNameChar q = false := by
  obtain ⟨q, body, hq, _, rfl⟩ := hv
  refine ⟨q, body ++ [q], rfl, ?_⟩
  rcases hq with rfl | rfl <;> exact ⟨by decide, by decide⟩

theorem valueAt_quoted {v : Str} (hv : IsQuoted v) (rest : Str) : valueAt (v ++ rest) = some v := by
  obtain ⟨q, body, hq, hb, rfl⟩ := hv
  rcases hq with rfl | rfl
  · simp only [valueAt, quotedAt_literal rest hb]
  · have h1 : quotedAt dquote ((squote :: (body ++ [squote])) ++ rest) = none := by
      have : squote ≠ dquote := by decide
      simp [quotedAt, this]
    simp only [valueAt, h1, quotedAt_literal rest hb]

theorem isNameChar_eqSign : isNameChar '=' = false := by decide

/-- The attribute pattern matches a name token, `=` and a quoted value that
stand at the head of the text, and captures exactly them. -/
theorem attrAt_attr {n v : Str} (hn : IsName n) (hv : IsQuoted v) (st : Bool) (rest : Str) :
    attrAt st ((n ++ '=' :: v) ++ rest) = some ((n ++ '=' :: v).length, (n, v)) := by
  obtain ⟨q, r, hvq, hq1, _⟩ := isQuoted_head hv
  have e : (n ++ '=' :: v) ++ rest = n ++ '=' :: (v ++ rest) := by simp
  have hd : (v ++ rest).dropWhile isReSpace = v ++ rest := by
    rw [hvq]; simp [List.dropWhile, hq1]
  have ht : (v ++ rest).takeWhile isReSpace = [] := by
    rw [hvq]; simp [List.takeWhile, hq1]
  rw [e]
  unfold attrAt
  simp only [takeWhile_stop (v ++ rest) hn.2 isNameChar_eqSign,
    dropWhile_stop (v ++ rest) hn.2 isNameChar_eqSign, hn.1, if_false]
  simp only [List.dropWhile, List.takeWhile, isReSpace_eqSign, hd, ht, valueAt_quoted hv,
    if_true, List.length_nil, List.length_append, List.length_cons]
  congr 2
  omega

theorem attrAt_not_name {c : Char} (hc : isNameChar c = false) (st : Bool) (rest : Str) :
    attrAt st (c :: rest) = none := by
  simp [attrAt, List.takeWhile, hc]

theorem findAllAux_attr {n v : Str} (hn : IsName n) (hv : IsQuoted v) (st : Bool) (rest : Str) :
    findAllAux attrAt st 0 ((n ++ '=' :: v) ++ rest) = (n, v) :: findAllAux attrAt false 0 rest :=
  findAllAux_hit_append (by simp) (attrAt_attr hn hv st rest)

theorem findAllAux_attr_sep {sep : Str} (hs : ∀ c ∈ sep, isNameChar c = false) (hne : sep ≠ [])
    (st : Bool) (rest : Str) :
    findAllAux attrAt st 0 (sep ++ rest) = findAllAux attrAt false 0 rest := by
  induction sep generalizing st with
  | nil => exact absurd rfl hne
  | cons c sep ih =>
    rw [List.cons_append, findAllAux_miss (attrAt_not_name (hs c (List.mem_cons_self _ _)) st _)]
    cases sep with
    | nil => rfl
    | cons d sep =>
      exact ih (fun c hc => hs c (List.mem_cons_of_mem _ hc)) (by simp) false

theorem findAll_single {n v : Str} (hn : IsName n) (hv : IsQuoted v) :
    findAll attrAt (n ++ '=' :: v) = [(n, v)] := by
  have h := findAllAux_attr hn hv true []
  rw [List.append_nil] at h
  rw [findAll, h]
  rfl

theorem parseAttributes_single {n v : Str} (hn : IsName n) (hv : IsQuoted v) :
    parseAttributes (n ++ '=' :: v) = [(mapAttributeName n, v)] := by
  rw [parseAttributes, findAll_single hn hv]
  rfl

theorem rootTable_keys : ∀ kt ∈ rootTable,
    rootTable.lookup kt.1 = some kt.2 ∧ kt.1 ≠ [] ∧ kt.1.all isNameChar = true := by
  decide

theorem rootTable_nodup : (rootTable.map Prod.fst).Nodup := by
  decide

theorem mapAttributeName_key {k t : Str} (hk : (k, t) ∈ rootTable) : mapAttributeName k = t := by
  simp only [mapAttributeName, (rootTable_keys (k, t) hk).1]

theorem key_isName {k t : Str} (hk : (k, t) ∈ rootTable) : IsName k :=
  ⟨(rootTable_keys (k, t) hk).2.1, fun c hc =>
    List.all_eq_true.1 (rootTable_keys (k, t) hk).2.2 c hc⟩

theorem isQuoted_example : IsQuoted "\"2\"".toList :=
  ⟨dquote, ['2'], Or.inl rfl, by decide, by decide⟩


theorem lookup_iff_mem_of_nodup {l : Table} (hnd : (l.map Prod.fst).Nodup) (n m : Str) :
    l.lookup n = some m ↔ (n, m) ∈ l := by
  induction l with
  | nil => simp
  | cons p l ih =>
    obtain ⟨a, b⟩ := p
    simp only [List.map_cons, List.nodup_cons] at hnd
    rw [List.lookup_cons]
    by_cases h : n = a
    · subst h
      simp only [beq_self_eq_true, Option.some.injEq, List.mem_cons, Prod.mk.injEq, true_and]
      constructor
      · intro hb; exact Or.inl hb.symm
      · intro hb
        rcases hb with hb | hb
        · exact hb.symm
        · exact absurd (List.mem_map_of_mem Prod.fst hb) hnd.1
    · have hne : (n == a) = false := by simpa using h
      simp only [hne, List.mem_cons, Prod.mk.injEq, h, false_and, false_or]
      exact ih hnd.2

/-! ## The generic conversion -/

theorem upperByte_eq_toUpper (c : Char) : upperByte c = c.toUpper := by
  simp [upperByte, Char.toUpper, isLower]

theorem upperFirst_eq_capitalize (s : Str) : upperFirst s = capitalize s := by
  cases s with
  | nil => rfl
  | cons c cs => simp [upperFirst, capitalize, upperByte_eq_toUpper]

theorem camelLoop_foldl (acc : Str) (ps : List Str) :
    ps.foldl (fun acc p => if p.length > 0 then acc ++ upperFirst p else acc) acc
      = acc ++ ((ps.filter fun s => s ≠ []).map capitalize).flatten := by
  induction ps generalizing acc with
  | nil => simp
  | cons p ps ih =>
    rw [List.foldl_cons, ih]
    cases p with
    | nil => simp
    | cons c cs => simp [upperFirst_eq_capitalize]

/-- The loop of the source computes the conversion the specification words. -/
theorem convertKebabToCamel_eq_spec (name : Str) :
    convertKebabToCamel name = kebabToCamelSpec name := by
  unfold convertKebabToCamel kebabToCamelSpec camelLoop
  cases splitOn '-' name with
  | nil => rfl
  | cons p ps => exact camelLoop_foldl p ps

theorem containsLit_singleton (a : Char) (l : Str) : containsLit [a] l = true ↔ a ∈ l := by
  induction l with
  | nil => simp [containsLit, splitAtLit, afterLit]
  | cons c cs ih =>
    by_cases h : a = c
    · subst h; simp [containsLit, splitAtLit, afterLit]
    · have h2 : ¬ c = a := fun e => h e.symm
      simp only [containsLit, splitAtLit, afterLit, h, if_false, Option.isSome_map',
        List.mem_cons, false_or]
      exact ih

theorem mapAttributeName_generic {name : Str} (hh : '-' ∈ name)
    (hkey : ∀ t, (name, t) ∉ rootTable) : mapAttributeName name = kebabToCamelSpec name := by
  have h1 : rootTable.lookup name = none := by
    cases hq : rootTable.lookup name with
    | none => rfl
    | some t => exact absurd ((lookup_iff_mem_of_nodup rootTable_nodup name t).1 hq) (hkey t)
  have h2 : name ≠ "viewBox".toList := by
    intro h
    rw [h] at hh
    revert hh
    decide
  have h3 : containsLit "-".toList name = true := (containsLit_singleton '-' name).2 hh
  simp only [mapAttributeName, h1]
  rw [if_pos ⟨h2, h3⟩]
  exact convertKebabToCamel_eq_spec name


/-! ## Lines on which the body transformer finds nothing -/

theorem replaceKeyFrom_noSpace (k t : Str) {line : Str} (hl : ∀ c ∈ line, isReSpace c = false)
    (hk : ¬ (k ++ ['=']) <+: line) (st : Bool) : replaceKeyFrom k t st line = line := by
  cases line with
  | nil => rfl
  | cons c cs =>
    have h := replaceKeyFrom_pass_start k t (List.cons_ne_nil c cs) hl []
      (by rw [List.append_nil]; exact hk) st
    rw [List.append_nil] at h
    rw [h, replaceKeyFrom_nil, List.append_nil]

theorem replaceKnown_noSpace {ord : Table} {line : Str} (hl : ∀ c ∈ line, isReSpace c = false)
    (hk : ∀ kt ∈ ord, ¬ (kt.1 ++ ['=']) <+: line) : replaceKnown ord line = line := by
  unfold replaceKnown
  induction ord with
  | nil => rfl
  | cons kt ord ih =>
    rw [List.foldl_cons]
    have h1 : replaceAll (keyAt kt.1 kt.2) line = line :=
      replaceKeyFrom_noSpace kt.1 kt.2 hl (hk kt (List.mem_cons_self _ _)) true
    rw [h1]
    exact ih (fun kt2 h2 => hk kt2 (List.mem_cons_of_mem _ h2))

theorem kebabAt_not_space {c : Char} (hc : isReSpace c = false) (st : Bool) (r : Str) :
    kebabAt st (c :: r) = none := by
  simp [kebabAt, hc]

theorem findAllAux_kebab_noSpace {line : Str} (hl : ∀ c ∈ line, isReSpace c = false)
    (st : Bool) : findAllAux kebabAt st 0 line = [] := by
  induction line generalizing st with
  | nil => rfl
  | cons c cs ih =>
    rw [findAllAux_miss (kebabAt_not_space (hl c (List.mem_cons_self _ _)) st cs)]
    exact ih (fun c hc => hl c (List.mem_cons_of_mem _ hc)) false

/-- A line without white space that does not start with a key followed by `=`
is returned as it is, whatever the table order. -/
theorem convertAttributesInLine_noSpace {ord : Table} {line : Str}
    (hl : ∀ c ∈ line, isReSpace c = false)
    (hk : ∀ kt ∈ ord, ¬ (kt.1 ++ ['=']) <+: line) : convertAttributesInLine ord line = line := by
  unfold convertAttributesInLine findAll
  rw [replaceKnown_noSpace hl hk]
  show replaceGeneric (findAllAux kebabAt true 0 line) line = line
  rw [findAllAux_kebab_noSpace hl]
  rfl

theorem bodyTable_plain : ∀ kt ∈ bodyTable,
    kt.1.all isPlainChar = true ∧ kt.2.all isPlainChar = true := by
  decide

theorem bodyTable_no_suffix : ∀ a ∈ bodyTable, ∀ b ∈ bodyTable,
    a.1.length < b.1.length → b.1.drop (b.1.length - a.1.length) ≠ a.1 := by
  decide

theorem bodyTable_key_ne_target : ∀ a ∈ bodyTable, a.1 ≠ a.2 := by
  decide


/-! ## A body line that exceeds the scanner buffer -/

theorem splitAtLit_replicate (n : Nat) :
    splitAtLit "</svg>".toList (List.replicate n 'a' ++ "</svg>".toList)
      = some (List.replicate n 'a', []) := by
  induction n with
  | zero => decide
  | succ n ih =>
    rw [List.replicate_succ, List.cons_append, splitAtLit]
    have h : afterLit "</svg>".toList ('a' :: (List.replicate n 'a' ++ "</svg>".toList)) = none := by
      have : ¬ ('<' = 'a') := by decide
      simp [afterLit, this]
    rw [h, ih]
    rfl

theorem svgBodyOf_replicate (n : Nat) :
    svgBodyOf ("<svg>".toList ++ (List.replicate n 'a' ++ "</svg>".toList))
      = List.replicate n 'a' := by
  have e : "<svg>".toList ++ (List.replicate n 'a' ++ "</svg>".toList)
      = '<' :: ("svg".toList ++ '>' :: (List.replicate n 'a' ++ "</svg>".toList)) := rfl
  rw [svgBodyOf, e, findFirst]
  have h : svgElementAt ('<' :: ("svg".toList ++ '>' :: (List.replicate n 'a' ++ "</svg>".toList)))
      = some (List.replicate n 'a') := by
    have h1 : afterLit "<svg".toList
        ('<' :: ("svg".toList ++ '>' :: (List.replicate n 'a' ++ "</svg>".toList)))
        = some ('>' :: (List.replicate n 'a' ++ "</svg>".toList)) :=
      afterLit_append "<svg".toList _
    rw [svgElementAt, h1]
    simp only [List.dropWhile, bne_self_eq_false]
    rw [splitAtLit_replicate]
    rfl
  rw [h]
  rfl

theorem svgAttrsOf_replicate (n : Nat) :
    svgAttrsOf ("<svg>".toList ++ (List.replicate n 'a' ++ "</svg>".toList)) = [] := by
  have e : "<svg>".toList ++ (List.replicate n 'a' ++ "</svg>".toList)
      = '<' :: ("svg".toList ++ '>' :: (List.replicate n 'a' ++ "</svg>".toList)) := rfl
  rw [svgAttrsOf, e, findFirst]
  have h : svgOpenTagAt ('<' :: ("svg".toList ++ '>' :: (List.replicate n 'a' ++ "</svg>".toList)))
      = some [] := by
    have h1 : afterLit "<svg".toList
        ('<' :: ("svg".toList ++ '>' :: (List.replicate n 'a' ++ "</svg>".toList)))
        = some ('>' :: (List.replicate n 'a' ++ "</svg>".toList)) :=
      afterLit_append "<svg".toList _
    rw [svgOpenTagAt, h1]
    simp [List.dropWhile, List.takeWhile]
  rw [h]
  rfl

theorem splitOn_no_sep {sep : Char} {s : Str} (h : ∀ c ∈ s, c ≠ sep) : splitOn sep s = [s] := by
  induction s with
  | nil => rfl
  | cons c cs ih =>
    rw [splitOn, if_neg (h c (List.mem_cons_self _ _)),
      ih (fun d hd => h d (List.mem_cons_of_mem _ hd))]

theorem dropWhile_all_false {p : Char → Bool} {s : Str} (h : ∀ c ∈ s, p c = false) :
    s.dropWhile p = s := by
  cases s with
  | nil => rfl
  | cons c cs => simp [List.dropWhile, h c (List.mem_cons_self _ _)]

theorem trimSpace_no_space {s : Str} (h : ∀ c ∈ s, isSpace c = false) : trimSpace s = s := by
  unfold trimSpace
  rw [dropWhile_all_false h, dropWhile_all_false, List.reverse_reverse]
  intro c hc
  exact h c (List.mem_reverse.1 hc)

theorem utf8Len_replicate (n : Nat) : utf8Len (List.replicate n 'a') = n := by
  induction n with
  | zero => rfl
  | succ n ih =>
    rw [utf8Len] at ih ⊢
    rw [List.replicate_succ, List.map_cons, List.sum_cons, ih]
    have : Char.utf8Size 'a' = 1 := by decide
    omega

theorem convertAttributesInLine_replicate (ord : Table) (n : Nat) :
    convertAttributesInLine ord (List.replicate n 'a') = List.replicate n 'a' := by
  apply convertAttributesInLine_noSpace
  · intro c hc
    rw [List.eq_of_mem_replicate hc]
    decide
  · intro kt _ hp
    have h1 : '=' ∈ List.replicate n 'a' := hp.subset (by simp)
    have h2 := List.eq_of_mem_replicate h1
    revert h2
    decide

theorem cleanSvgBody_replicate (ords : Nat → Table) (n : Nat) :
    cleanSvgBody ords (List.replicate (n + 1) 'a') = List.replicate (n + 1) 'a' := by
  have h1 : splitOn '\n' (List.replicate (n + 1) 'a') = [List.replicate (n + 1) 'a'] :=
    splitOn_no_sep (fun c hc => by rw [List.eq_of_mem_replicate hc]; decide)
  have h2 : trimSpace (List.replicate (n + 1) 'a') = List.replicate (n + 1) 'a' :=
    trimSpace_no_space (fun c hc => by rw [List.eq_of_mem_replicate hc]; decide)
  have h3 : List.replicate (n + 1) 'a' ≠ [] := by simp [List.replicate_succ]
  rw [cleanSvgBody, h1]
  simp only [cleanLines, h2, h3, ne_eq, not_false_eq_true, if_true,
    convertAttributesInLine_replicate]
  rfl

theorem bodyLines_replicate (n : Nat) (hn : maxScanTokenSize ≤ n + 1) :
    bodyLines (List.replicate (n + 1) 'a') = [] := by
  have h1 : splitOn '\n' (List.replicate (n + 1) 'a') = [List.replicate (n + 1) 'a'] :=
    splitOn_no_sep (fun c hc => by rw [List.eq_of_mem_replicate hc]; decide)
  have h3 : List.replicate (n + 1) 'a' ≠ [] := by simp [List.replicate_succ]
  have h4 : rawLines (List.replicate (n + 1) 'a') = [List.replicate (n + 1) 'a'] := by
    rw [rawLines, h1]
    simp [List.getLast?, h3]
  have h5 : ¬ utf8Len (List.replicate (n + 1) 'a') < maxScanTokenSize := by
    rw [utf8Len_replicate]; omega
  rw [bodyLines, h4]
  simp only [scanTokens, h5, if_false]
  rfl


/-! ## Characters written by the body transformer -/

theorem upperByte_cases (d : Char) :
    upperByte d = d ∨ (65 ≤ (upperByte d).toNat ∧ (upperByte d).toNat ≤ 90) := by
  unfold upperByte
  by_cases hl : isLower d = true
  · right
    rw [if_pos hl]
    simp only [isLower, Bool.and_eq_true, decide_eq_true_eq] at hl
    obtain ⟨h1, h2⟩ := hl
    generalize d.toNat = n at h1 h2
    interval_cases n <;> decide
  · left
    rw [if_neg hl]

theorem splitOn_mem {sep : Char} {s : Str} :
    ∀ p ∈ splitOn sep s, ∀ c ∈ p, c ∈ s ∧ c ≠ sep := by
  induction s with
  | nil =>
    intro p hp c hc
    simp only [splitOn, List.mem_singleton] at hp
    rw [hp] at hc
    cases hc
  | cons d ds ih =>
    intro p hp c hc
    by_cases hd : d = sep
    · rw [splitOn, if_pos hd] at hp
      rcases List.mem_cons.1 hp with rfl | hp
      · cases hc
      · exact ⟨List.mem_cons_of_mem _ (ih p hp c hc).1, (ih p hp c hc).2⟩
    · rw [splitOn, if_neg hd] at hp
      cases hs : splitOn sep ds with
      | nil =>
        rw [hs] at hp
        simp only [List.mem_singleton] at hp
        rw [hp, List.mem_singleton] at hc
        rw [hc]
        exact ⟨List.mem_cons_self _ _, hd⟩
      | cons q qs =>
        rw [hs] at hp ih
        rcases List.mem_cons.1 hp with rfl | hp
        · rcases List.mem_cons.1 hc with rfl | hc
          · exact ⟨List.mem_cons_self _ _, hd⟩
          · have := ih q (List.mem_cons_self _ _) c hc
            exact ⟨List.mem_cons_of_mem _ this.1, this.2⟩
        · have := ih p (List.mem_cons_of_mem _ hp) c hc
          exact ⟨List.mem_cons_of_mem _ this.1, this.2⟩

theorem upperFirst_mem {p : Str} {c : Char} (h : c ∈ upperFirst p) :
    ∃ d ∈ p, c = d ∨ c = upperByte d := by
  cases p with
  | nil => cases h
  | cons e es =>
    rcases List.mem_cons.1 h with rfl | h
    · exact ⟨e, List.mem_cons_self _ _, Or.inr rfl⟩
    · exact ⟨c, List.mem_cons_of_mem _ h, Or.inl rfl⟩

theorem camelLoop_foldl_mem (ps : List Str) (acc : Str) {c : Char}
    (h : c ∈ ps.foldl (fun acc p => if p.length > 0 then acc ++ upperFirst p else acc) acc) :
    c ∈ acc ∨ ∃ p ∈ ps, ∃ d ∈ p, c = d ∨ c = upperByte d := by
  induction ps generalizing acc with
  | nil => exact Or.inl h
  | cons p ps ih =>
    rw [List.foldl_cons] at h
    rcases ih _ h with h1 | ⟨q, hq, d, hd, hc⟩
    · by_cases hp : p.length > 0
      · rw [if_pos hp] at h1
        rcases List.mem_append.1 h1 with h1 | h1
        · exact Or.inl h1
        · obtain ⟨d, hd, hc⟩ := upperFirst_mem h1
          exact Or.inr ⟨p, List.mem_cons_self _ _, d, hd, hc⟩
      · rw [if_neg hp] at h1
        exact Or.inl h1
    · exact Or.inr ⟨q, List.mem_cons_of_mem _ hq, d, hd, hc⟩

/-- Every character of the conversion is a character of the name or the
uppercase form of one. -/
theorem camelLoop_split_mem {s : Str} {c : Char} (h : c ∈ camelLoop (splitOn '-' s)) :
    ∃ d ∈ s, c = d ∨ c = upperByte d := by
  cases hs : splitOn '-' s with
  | nil => rw [hs] at h; cases h
  | cons p ps =>
    rw [hs, camelLoop] at h
    rcases camelLoop_foldl_mem ps p h with h1 | ⟨q, hq, d, hd, hc⟩
    · exact ⟨c, (splitOn_mem p (by rw [hs]; exact List.mem_cons_self _ _) c h1).1, Or.inl rfl⟩
    · exact ⟨d, (splitOn_mem q (by rw [hs]; exact List.mem_cons_of_mem _ hq) d hd).1, hc⟩

theorem keyAt_some {k t : Str} {st : Bool} {l : Str} {n : Nat} {r : Str}
    (h : keyAt k t st l = some (n, r)) :
    r = t ++ ['='] ∨ ∃ c rest, l = c :: rest ∧ r = c :: (t ++ ['=']) := by
  have hs : ∀ x, keyAfterSpace k t l = some x →
      ∃ c rest, l = c :: rest ∧ x.2 = c :: (t ++ ['=']) := by
    intro x hx
    cases l with
    | nil => simp [keyAfterSpace] at hx
    | cons c rest =>
      by_cases hc : isReSpace c = true
      · cases hq : afterLit (k ++ ['=']) rest with
        | none => simp [keyAfterSpace, hc, hq] at hx
        | some y =>
          simp only [keyAfterSpace, hc, hq, if_true, Option.some.injEq] at hx
          exact ⟨c, rest, rfl, by rw [← hx]⟩
      · simp [keyAfterSpace, hc] at hx
  cases st with
  | false =>
    have h2 : keyAfterSpace k t l = some (n, r) := by simpa [keyAt] using h
    exact Or.inr (hs _ h2)
  | true =>
    cases hq : afterLit (k ++ ['=']) l with
    | none =>
      have h2 : keyAfterSpace k t l = some (n, r) := by simpa [keyAt, hq] using h
      exact Or.inr (hs _ h2)
    | some y =>
      simp only [keyAt, hq, if_true, Option.some.injEq, Prod.mk.injEq] at h
      exact Or.inl h.2.symm

theorem litAt_some {old new : Str} {st : Bool} {l : Str} {n : Nat} {r : Str}
    (h : litAt old new st l = some (n, r)) : r = new := by
  unfold litAt at h
  cases hq : afterLit old l with
  | none => rw [hq] at h; cases h
  | some y =>
    rw [hq] at h
    simp only [Option.some.injEq, Prod.mk.injEq] at h
    exact h.2.symm

theorem kebabAt_some {st : Bool} {l : Str} {n : Nat} {a : Str}
    (h : kebabAt st l = some (n, a)) : ∀ c ∈ a, isKebabTail c = true := by
  cases l with
  | nil => simp [kebabAt] at h
  | cons c r =>
    unfold kebabAt at h
    by_cases hc : isReSpace c = true
    · simp only [hc, if_true] at h
      by_cases ha : r.takeWhile isLower = []
      · simp [ha] at h
      · simp only [ha, if_false] at h
        cases hr : r.dropWhile isLower with
        | nil => simp [hr] at h
        | cons d r2 =>
          simp only [hr] at h
          by_cases hd : d = '-'
          · simp only [hd, if_true] at h
            by_cases hb : r2.takeWhile isKebabTail = []
            · simp [hb] at h
            · simp only [hb, if_false] at h
              cases hr2 : r2.dropWhile isKebabTail with
              | nil => simp [hr2] at h
              | cons e r3 =>
                simp only [hr2] at h
                by_cases he : e = '='
                · simp only [he, if_true, Option.some.injEq, Prod.mk.injEq] at h
                  intro x hx
                  rw [← h.2] at hx
                  rcases List.mem_append.1 hx with hx | hx
                  · have := List.mem_takeWhile_imp hx
                    simp [isKebabTail, this]
                  · rcases List.mem_cons.1 hx with rfl | hx
                    · decide
                    · exact List.mem_takeWhile_imp hx
                · simp [he] at h
          · simp [hd] at h
    · simp [hc] at h

/-- The first loop keeps a non-empty line non-empty. -/
theorem replaceKnown_ne_nil (ord : Table) {line : Str} (h : line ≠ []) :
    replaceKnown ord line ≠ [] := by
  unfold replaceKnown
  induction ord generalizing line with
  | nil => exact h
  | cons kt ord ih =>
    rw [List.foldl_cons]
    apply ih
    apply replaceAllAux_ne_nil _ true h
    intro st l n r hr
    rcases keyAt_some hr with rfl | ⟨c, rest, _, rfl⟩ <;> simp

theorem replaceGeneric_ne_nil (found : List Str) {line : Str} (h : line ≠ []) :
    replaceGeneric found line ≠ [] := by
  unfold replaceGeneric
  induction found generalizing line with
  | nil => exact h
  | cons a found ih =>
    rw [List.foldl_cons]
    apply ih
    by_cases ha : alreadyHandled a = true
    · rw [if_pos ha]; exact h
    · rw [if_neg ha]
      apply replaceAllAux_ne_nil _ true h
      intro st l n r hr
      rw [litAt_some hr]
      simp

theorem convertAttributesInLine_ne_nil (ord : Table) {line : Str} (h : line ≠ []) :
    convertAttributesInLine ord line ≠ [] :=
  replaceGeneric_ne_nil _ (replaceKnown_ne_nil ord h)

/-- The first loop writes only characters of the line, of the targets, and `=`. -/
theorem replaceKnown_forall {P : Char → Prop} (hP : P '=') (ord : Table)
    (hord : ∀ kt ∈ ord, ∀ c ∈ kt.2, P c) {line : Str} (h : ∀ c ∈ line, P c) :
    ∀ c ∈ replaceKnown ord line, P c := by
  unfold replaceKnown
  induction ord generalizing line with
  | nil => exact h
  | cons kt ord ih =>
    rw [List.foldl_cons]
    apply ih (fun kt2 h2 => hord kt2 (List.mem_cons_of_mem _ h2))
    apply replaceAllAux_forall _ true 0 line h
    intro st l n r hl hr c hc
    have ht : ∀ c ∈ kt.2 ++ ['='], P c := by
      intro c hc
      rcases List.mem_append.1 hc with hc | hc
      · exact hord kt (List.mem_cons_self _ _) c hc
      · rw [List.mem_singleton.1 hc]; exact hP
    rcases keyAt_some hr with rfl | ⟨d, rest, rfl, rfl⟩
    · exact ht c hc
    · rcases List.mem_cons.1 hc with rfl | hc
      · exact hl _ (List.mem_cons_self _ _)
      · exact ht c hc

theorem replaceGeneric_forall {P : Char → Prop} (hP : P '=') (hS : P ' ') (found : List Str)
    (hfound : ∀ a ∈ found, ∀ c ∈ convertKebabToCamel a, P c) {line : Str}
    (h : ∀ c ∈ line, P c) : ∀ c ∈ replaceGeneric found line, P c := by
  unfold replaceGeneric
  induction found generalizing line with
  | nil => exact h
  | cons a found ih =>
    rw [List.foldl_cons]
    apply ih (fun a2 h2 => hfound a2 (List.mem_cons_of_mem _ h2))
    by_cases ha : alreadyHandled a = true
    · rw [if_pos ha]; exact h
    · rw [if_neg ha]
      apply replaceAllAux_forall _ true 0 line h
      intro st l n r _ hr c hc
      rw [litAt_some hr] at hc
      rcases List.mem_cons.1 hc with rfl | hc
      · exact hS
      · rcases List.mem_append.1 hc with hc | hc
        · exact hfound a (List.mem_cons_self _ _) c hc
        · rw [List.mem_singleton.1 hc]; exact hP

theorem isKebabTail_newline {c : Char} (h : isKebabTail c = true) : c ≠ '\n' := by
  intro hc
  rw [hc] at h
  revert h
  decide

theorem convertKebabToCamel_newline {a : Str} (ha : ∀ c ∈ a, isKebabTail c = true) :
    ∀ c ∈ convertKebabToCamel a, c ≠ '\n' := by
  intro c hc
  obtain ⟨d, hd, h⟩ := camelLoop_split_mem hc
  have hdn := isKebabTail_newline (ha d hd)
  rcases h with rfl | rfl
  · exact hdn
  · rcases upperByte_cases d with h | h
    · rw [h]; exact hdn
    · intro e
      rw [e] at h
      revert h
      decide

theorem bodyTable_targets_newline : ∀ kt ∈ bodyTable, ∀ c ∈ kt.2, c ≠ '\n' := by
  decide

/-- The body transformer never writes a newline into a line. -/
theorem convertAttributesInLine_newline {ord : Table} (hord : ∀ kt ∈ ord, kt ∈ bodyTable)
    {line : Str} (h : ∀ c ∈ line, c ≠ '\n') :
    ∀ c ∈ convertAttributesInLine ord line, c ≠ '\n' := by
  unfold convertAttributesInLine
  have h1 : ∀ c ∈ replaceKnown ord line, c ≠ '\n' :=
    replaceKnown_forall (by decide) ord
      (fun kt hkt => bodyTable_targets_newline kt (hord kt hkt)) h
  apply replaceGeneric_forall (by decide) (by decide) _ _ h1
  intro a ha
  apply convertKebabToCamel_newline
  exact findAllAux_forall (fun st l n a h => kebabAt_some h) true 0 _ a ha


/-! ## Lines of the cleaned body -/

theorem splitOn_append_sep {sep : Char} {l : Str} (h : ∀ c ∈ l, c ≠ sep) (x : Str) :
    splitOn sep (l ++ sep :: x) = l :: splitOn sep x := by
  induction l with
  | nil => simp [splitOn]
  | cons c l ih =>
    rw [List.cons_append, splitOn, if_neg (h c (List.mem_cons_self _ _)),
      ih (fun d hd => h d (List.mem_cons_of_mem _ hd))]

theorem splitOn_joinWith {sep : Char} {ls : List Str} (hne : ls ≠ [])
    (h : ∀ l ∈ ls, ∀ c ∈ l, c ≠ sep) : splitOn sep (joinWith [sep] ls) = ls := by
  induction ls with
  | nil => exact absurd rfl hne
  | cons l ls ih =>
    cases ls with
    | nil => exact splitOn_no_sep (h l (List.mem_cons_self _ _))
    | cons l2 rest =>
      have e : joinWith [sep] (l :: l2 :: rest) = l ++ sep :: joinWith [sep] (l2 :: rest) := by
        simp [joinWith]
      rw [e, splitOn_append_sep (h l (List.mem_cons_self _ _)),
        ih (by simp) (fun l3 h3 => h l3 (List.mem_cons_of_mem _ h3))]

theorem joinWith_ne_nil {sep : Str} {ls : List Str} (hne : ls ≠ []) (h : ∀ l ∈ ls, l ≠ []) :
    joinWith sep ls ≠ [] := by
  cases ls with
  | nil => exact absurd rfl hne
  | cons l ls =>
    have hl := h l (List.mem_cons_self _ _)
    cases ls with
    | nil => exact hl
    | cons l2 rest =>
      simp [joinWith, hl]

theorem trimSpace_subset {s : Str} {c : Char} (h : c ∈ trimSpace s) : c ∈ s := by
  unfold trimSpace at h
  have h1 := (List.dropWhile_sublist isSpace).subset (List.mem_reverse.1 h)
  exact (List.dropWhile_sublist isSpace).subset (List.mem_reverse.1 h1)

theorem cleanLines_length (ords : Nat → Table) (i : Nat) (ls : List Str) :
    (cleanLines ords i ls).length = (ls.filter fun l => trimSpace l ≠ []).length := by
  induction ls generalizing i with
  | nil => rfl
  | cons l ls ih =>
    by_cases hl : trimSpace l ≠ []
    · simp only [cleanLines, hl, if_true, List.length_cons, ih (i + 1), List.filter_cons,
        ne_eq, not_false_eq_true, decide_True]
    · simp only [cleanLines, hl, if_false, ih (i + 1), List.filter_cons, decide_False]
      simp

theorem cleanLines_mem {ords : Nat → Table} {i : Nat} {ls : List Str} {x : Str}
    (h : x ∈ cleanLines ords i ls) :
    ∃ j, ∃ l ∈ ls, trimSpace l ≠ [] ∧ x = convertAttributesInLine (ords j) (trimSpace l) := by
  induction ls generalizing i with
  | nil => cases h
  | cons l ls ih =>
    by_cases hl : trimSpace l ≠ []
    · rw [cleanLines, if_pos hl] at h
      rcases List.mem_cons.1 h with h | h
      · exact ⟨i, l, List.mem_cons_self _ _, hl, h⟩
      · obtain ⟨j, l2, h2, h3, h4⟩ := ih h
        exact ⟨j, l2, List.mem_cons_of_mem _ h2, h3, h4⟩
    · rw [cleanLines, if_neg hl] at h
      obtain ⟨j, l2, h2, h3, h4⟩ := ih h
      exact ⟨j, l2, List.mem_cons_of_mem _ h2, h3, h4⟩

/-- The lines of the cleaned body are the cleaned lines themselves. -/
theorem splitOn_cleanSvgBody {ords : Nat → Table} (hords : ∀ i, ∀ kt ∈ ords i, kt ∈ bodyTable)
    (body : Str) (hne : cleanLines ords 0 (splitOn '\n' body) ≠ []) :
    cleanSvgBody ords body ≠ []
    ∧ splitOn '\n' (cleanSvgBody ords body) = cleanLines ords 0 (splitOn '\n' body) := by
  have hall : ∀ x ∈ cleanLines ords 0 (splitOn '\n' body), x ≠ [] ∧ ∀ c ∈ x, c ≠ '\n' := by
    intro x hx
    obtain ⟨j, l, hl, hl2, rfl⟩ := cleanLines_mem hx
    refine ⟨convertAttributesInLine_ne_nil _ hl2, ?_⟩
    apply convertAttributesInLine_newline (hords j)
    intro c hc
    exact (splitOn_mem l hl c (trimSpace_subset hc)).2
  exact ⟨joinWith_ne_nil hne (fun x hx => (hall x hx).1),
    splitOn_joinWith hne (fun x hx => (hall x hx).2)⟩


/-! ## The attribute map of a tag -/

theorem findAllAux_attrAt_start (st : Bool) (x : Str) :
    findAllAux attrAt st 0 x = findAllAux attrAt false 0 x := by
  cases x with
  | nil => rfl
  | cons c cs => rfl

theorem findAllAux_attr_tail {tail : Str} (h : ∀ c ∈ tail, isNameChar c = false) (st : Bool) :
    findAllAux attrAt st 0 tail = [] := by
  induction tail generalizing st with
  | nil => rfl
  | cons c cs ih =>
    rw [findAllAux_miss (attrAt_not_name (h c (List.mem_cons_self _ _)) st cs)]
    exact ih (fun d hd => h d (List.mem_cons_of_mem _ hd)) false

/-- The attribute pattern finds exactly the attributes a tag carries, in
their order. -/
theorem findAllAux_attrsText (l : List Attr) (hl : ∀ a ∈ l, a.Valid) {tail : Str}
    (ht : ∀ c ∈ tail, isNameChar c = false) (st : Bool) :
    findAllAux attrAt st 0 (attrsText l ++ tail) = l.map fun a => (a.name, a.value) := by
  induction l generalizing st with
  | nil => exact findAllAux_attr_tail ht st
  | cons a l ih =>
    obtain ⟨hs, hn, hv⟩ := hl a (List.mem_cons_self _ _)
    have e : attrsText (a :: l) ++ tail
        = a.sep ++ ((a.name ++ '=' :: a.value) ++ (attrsText l ++ tail)) := by
      simp [attrsText, attrText]
    have hsep : findAllAux attrAt st 0 (a.sep ++ ((a.name ++ '=' :: a.value) ++ (attrsText l ++ tail)))
        = findAllAux attrAt false 0 ((a.name ++ '=' :: a.value) ++ (attrsText l ++ tail)) := by
      by_cases h0 : a.sep = []
      · rw [h0, List.nil_append, findAllAux_attrAt_start]
      · exact findAllAux_attr_sep hs h0 st _
    rw [e, hsep, findAllAux_attr hn hv, ih (fun b hb => hl b (List.mem_cons_of_mem _ hb)) false]
    rfl

theorem parseAttributes_attrsText (l : List Attr) (hl : ∀ a ∈ l, a.Valid) {tail : Str}
    (ht : ∀ c ∈ tail, isNameChar c = false) :
    parseAttributes (attrsText l ++ tail)
      = (l.map fun a => (a.name, a.value)).foldl parseStep [] := by
  rw [parseAttributes, findAll, findAllAux_attrsText l hl ht]
  rfl

theorem mapSet_lookup (k v : Str) (m : Table) (key : Str) :
    (mapSet k v m).lookup key = if key = k then some v else m.lookup key := by
  induction m with
  | nil =>
    by_cases h : key = k
    · simp [mapSet, List.lookup, h]
    · have h2 : (key == k) = false := by simpa using h
      simp [mapSet, List.lookup, h, h2]
  | cons p r ih =>
    obtain ⟨k0, v0⟩ := p
    by_cases h0 : k0 = k
    · subst h0
      by_cases h : key = k0
      · simp [mapSet, List.lookup, h]
      · have h2 : (key == k0) = false := by simpa using h
        simp [mapSet, List.lookup, h, h2]
    · by_cases h : key = k
      · subst h
        have h2 : (key == k0) = false := by
          simpa using fun e : key = k0 => h0 e.symm
        simp [mapSet, h0, List.lookup, h2, ih]
      · by_cases h3 : key = k0
        · simp [mapSet, h0, List.lookup, h3, h]
        · have h2 : (key == k0) = false := by simpa using h3
          simp [mapSet, h0, List.lookup, h2, ih, h]

theorem mapSet_mem {k v : Str} {m : Table} {kv : Str × Str} (h : kv ∈ mapSet k v m) :
    kv = (k, v) ∨ kv ∈ m := by
  induction m with
  | nil => simpa [mapSet] using h
  | cons p r ih =>
    obtain ⟨k0, v0⟩ := p
    by_cases h0 : k0 = k
    · rw [mapSet, if_pos h0] at h
      rcases List.mem_cons.1 h with h | h
      · exact Or.inl h
      · exact Or.inr (List.mem_cons_of_mem _ h)
    · rw [mapSet, if_neg h0] at h
      rcases List.mem_cons.1 h with h | h
      · exact Or.inr (h ▸ List.mem_cons_self _ _)
      · rcases ih h with h | h
        · exact Or.inl h
        · exact Or.inr (List.mem_cons_of_mem _ h)

theorem mapSet_nodup (k v : Str) {m : Table} (h : (m.map Prod.fst).Nodup) :
    ((mapSet k v m).map Prod.fst).Nodup := by
  induction m with
  | nil => simp [mapSet]
  | cons p r ih =>
    obtain ⟨k0, v0⟩ := p
    simp only [List.map_cons, List.nodup_cons] at h
    by_cases h0 : k0 = k
    · rw [mapSet, if_pos h0]
      simp only [List.map_cons, List.nodup_cons]
      exact ⟨h0 ▸ h.1, h.2⟩
    · rw [mapSet, if_neg h0]
      simp only [List.map_cons, List.nodup_cons]
      refine ⟨?_, ih h.2⟩
      intro hm
      obtain ⟨kv, hkv, hk⟩ := List.mem_map.1 hm
      rcases mapSet_mem hkv with e | e
      · rw [e] at hk
        exact h0 hk.symm
      · exact h.1 (hk ▸ List.mem_map_of_mem Prod.fst e)

theorem foldl_parseStep_nodup (l : List (Str × Str)) {m : Table}
    (h : (m.map Prod.fst).Nodup) : ((l.foldl parseStep m).map Prod.fst).Nodup := by
  induction l generalizing m with
  | nil => exact h
  | cons nv l ih => exact ih (mapSet_nodup _ _ h)

theorem foldl_parseStep_lookup_other (l : List (Str × Str)) (m : Table) (key : Str)
    (h : ∀ nv ∈ l, mapAttributeName nv.1 ≠ key) :
    (l.foldl parseStep m).lookup key = m.lookup key := by
  induction l generalizing m with
  | nil => rfl
  | cons nv l ih =>
    rw [List.foldl_cons, ih _ (fun x hx => h x (List.mem_cons_of_mem _ hx)), parseStep,
      mapSet_lookup, if_neg (fun e => h nv (List.mem_cons_self _ _) e.symm)]

/-- Last write wins: the value stored under a mapped name is the value of the
last attribute with that mapped name. -/
theorem foldl_parseStep_lookup_last (l1 l2 : List (Str × Str)) (nv : Str × Str) (m : Table)
    (h : ∀ x ∈ l2, mapAttributeName x.1 ≠ mapAttributeName nv.1) :
    ((l1 ++ nv :: l2).foldl parseStep m).lookup (mapAttributeName nv.1) = some nv.2 := by
  rw [List.foldl_append, List.foldl_cons, foldl_parseStep_lookup_other l2 _ _ h, parseStep,
    mapSet_lookup, if_pos rfl]

theorem foldl_parseStep_mem (l : List (Str × Str)) {m : Table} {kv : Str × Str}
    (h : kv ∈ l.foldl parseStep m) : kv ∈ m ∨ ∃ nv ∈ l, kv.1 = mapAttributeName nv.1 := by
  induction l generalizing m with
  | nil => exact Or.inl h
  | cons nv l ih =>
    rcases ih h with h1 | ⟨x, hx, hk⟩
    · rcases mapSet_mem h1 with e | e
      · exact Or.inr ⟨nv, List.mem_cons_self _ _, by rw [e]⟩
      · exact Or.inl e
    · exact Or.inr ⟨x, List.mem_cons_of_mem _ hx, hk⟩

theorem filter_key_of_nodup {l : Table} (hnd : (l.map Prod.fst).Nodup) {m v : Str}
    (h : (m, v) ∈ l) : l.filter (fun kv => decide (kv.1 = m)) = [(m, v)] := by
  induction l with
  | nil => cases h
  | cons p r ih =>
    obtain ⟨k0, v0⟩ := p
    simp only [List.map_cons, List.nodup_cons] at hnd
    rcases List.mem_cons.1 h with e | e
    · simp only [Prod.mk.injEq] at e
      obtain ⟨rfl, rfl⟩ := e
      have hr : r.filter (fun kv => decide (kv.1 = m)) = [] := by
        rw [List.filter_eq_nil_iff]
        intro kv hkv hdec
        have : kv.1 = m := by simpa using hdec
        exact hnd.1 (this ▸ List.mem_map_of_mem Prod.fst hkv)
      simp [List.filter_cons, hr]
    · have hne : k0 ≠ m := fun e2 => hnd.1 (e2 ▸ List.mem_map_of_mem Prod.fst e)
      simp only [List.filter_cons, hne, decide_False, Bool.false_eq_true, if_false]
      exact ih hnd.2 e

theorem rootTable_targets_eqSign : ∀ kt ∈ rootTable, ∀ c ∈ kt.2, c ≠ '=' := by
  decide

theorem isNameChar_ne_eqSign {c : Char} (h : isNameChar c = true) : c ≠ '=' := by
  intro e
  rw [e] at h
  revert h
  decide

/-- A mapped attribute name holds no `=`. -/
theorem mapAttributeName_eqSign {n : Str} (hn : IsName n) :
    ∀ c ∈ mapAttributeName n, c ≠ '=' := by
  intro c hc
  unfold mapAttributeName at hc
  cases hq : rootTable.lookup n with
  | some t =>
    rw [hq] at hc
    exact rootTable_targets_eqSign (n, t)
      ((lookup_iff_mem_of_nodup rootTable_nodup n t).1 hq) c hc
  | none =>
    rw [hq] at hc
    by_cases hg : n ≠ "viewBox".toList ∧ containsLit "-".toList n = true
    · simp only [hg, ne_eq, not_false_eq_true, and_self, if_true] at hc
      obtain ⟨d, hd, h⟩ := camelLoop_split_mem hc
      have hdn := isNameChar_ne_eqSign (hn.2 d hd)
      rcases h with rfl | rfl
      · exact hdn
      · rcases upperByte_cases d with h | h
        · rw [h]; exact hdn
        · intro e
          rw [e] at h
          revert h
          decide
    · simp only [hg, if_false] at hc
      exact isNameChar_ne_eqSign (hn.2 c hc)

theorem attrLine_prefix {k m : Str} (v : Str) (hk : ∀ c ∈ k, c ≠ '=') (hm : ∀ c ∈ m, c ≠ '=') :
    ("    ".toList ++ m ++ ['=']).isPrefixOf (attrLine (k, v)) = decide (k = m) := by
  have e1 : attrLine (k, v) = "    ".toList ++ ((k ++ ['=']) ++ (v ++ ['\n'])) := by
    simp [attrLine]
  have e2 : "    ".toList ++ m ++ ['='] = "    ".toList ++ (m ++ ['=']) := by simp
  by_cases h : k = m
  · subst h
    rw [e1, e2]
    simp only [decide_True, List.isPrefixOf_iff_prefix]
    exact (List.prefix_append_right_inj _).2 (List.prefix_append _ _)
  · simp only [h, decide_False]
    rw [Bool.eq_false_iff, Ne, List.isPrefixOf_iff_prefix, e1, e2,
      List.prefix_append_right_inj]
    intro hp
    exact h (key_prefix_unique hm hk hp (List.prefix_append _ _)).symm


/-! ## Texts without a match -/

theorem containsLit_cons (p : Str) (c : Char) (cs : Str) :
    containsLit p (c :: cs) = ((afterLit p (c :: cs)).isSome || containsLit p cs) := by
  unfold containsLit
  rw [splitAtLit]
  cases afterLit p (c :: cs) with
  | none => simp
  | some r => simp

theorem containsLit_of_occurs {p l : Str} (h : p <:+: l) : containsLit p l = true := by
  obtain ⟨s, t, rfl⟩ := h
  induction s with
  | nil =>
    cases hpt : [] ++ p ++ t with
    | nil =>
      have hp : p = [] := by
        cases p with
        | nil => rfl
        | cons a p => simp at hpt
      subst hp
      rfl
    | cons c cs =>
      rw [containsLit_cons, ← hpt]
      have : afterLit p ([] ++ p ++ t) = some t := by
        rw [List.nil_append]; exact afterLit_append p t
      rw [this]
      rfl
  | cons c s ih =>
    have e : c :: s ++ p ++ t = c :: (s ++ p ++ t) := rfl
    rw [e, containsLit_cons, ih, Bool.or_true]

theorem afterLit_none_of_absent {p l : Str} (h : ¬ p <:+: l) :
    ∀ suf, suf <:+ l → afterLit p suf = none := by
  intro suf hs
  rw [afterLit_eq_none]
  intro hp
  exact h (hp.isInfix.trans hs.isInfix)

theorem findFirst_none {α : Type} {m : Str → Option α} {l : Str}
    (h : ∀ suf, suf <:+ l → m suf = none) : findFirst m l = none := by
  induction l with
  | nil => exact h [] (List.suffix_refl _)
  | cons c cs ih =>
    rw [findFirst, h (c :: cs) (List.suffix_refl _)]
    exact ih (fun suf hs => h suf (hs.trans (List.suffix_cons c cs)))

theorem svgElementAt_none {l : Str} (h : afterLit "<svg".toList l = none) :
    svgElementAt l = none := by
  rw [svgElementAt, h]

theorem svgOpenTagAt_none {l : Str} (h : afterLit "<svg".toList l = none) :
    svgOpenTagAt l = none := by
  rw [svgOpenTagAt, h]

theorem findAllAux_none {α : Type} {m : Bool → Str → Option (Nat × α)} {l : Str}
    (h : ∀ st suf, suf <:+ l → m st suf = none) (st : Bool) : findAllAux m st 0 l = [] := by
  induction l generalizing st with
  | nil => rfl
  | cons c cs ih =>
    rw [findAllAux_miss (h st (c :: cs) (List.suffix_refl _))]
    exact ih (fun st suf hs => h st suf (hs.trans (List.suffix_cons c cs))) false

theorem cleanSvgBody_nil (ords : Nat → Table) : cleanSvgBody ords [] = [] := rfl

theorem emitBody_nil : emitBody [] = [] := by
  decide

theorem attrAt_some_name {st : Bool} {l : Str} {n : Nat} {name v : Str}
    (h : attrAt st l = some (n, (name, v))) : IsName name := by
  unfold attrAt at h
  by_cases h0 : l.takeWhile isNameChar = []
  · simp [h0] at h
  · simp only [h0, if_false] at h
    cases hr : (l.dropWhile isNameChar).dropWhile isReSpace with
    | nil => simp [hr] at h
    | cons e r3 =>
      simp only [hr] at h
      by_cases he : e = '='
      · simp only [he, if_true] at h
        cases hv : valueAt (r3.dropWhile isReSpace) with
        | none => simp [hv] at h
        | some w =>
          simp only [hv, Option.some.injEq, Prod.mk.injEq] at h
          rw [← h.2.1]
          exact ⟨h0, fun c hc => List.mem_takeWhile_imp hc⟩
      · simp [he] at h

/-- Every key of the parsed mapping is the mapped name of a name token. -/
theorem parseAttributes_key {s : Str} {kv : Str × Str} (h : kv ∈ parseAttributes s) :
    ∃ name, IsName name ∧ kv.1 = mapAttributeName name := by
  have h1 : kv ∈ (findAll attrAt s).foldl parseStep [] := h
  rcases foldl_parseStep_mem _ h1 with h2 | ⟨nv, hnv, hk⟩
  · cases h2
  · refine ⟨nv.1, ?_, hk⟩
    exact findAllAux_forall (Q := fun nv : Str × Str => IsName nv.1)
      (fun st l n a ha => attrAt_some_name (v := a.2) (by rw [ha])) true 0 s nv hnv

theorem parseAttributes_nodup (s : Str) : ((parseAttributes s).map Prod.fst).Nodup :=
  foldl_parseStep_nodup _ (by simp)

theorem exists_last_split {α : Type} (P : α → Prop) (l : List α) (h : ∃ x ∈ l, P x) :
    ∃ l1 x l2, l = l1 ++ x :: l2 ∧ P x ∧ ∀ y ∈ l2, ¬ P y := by
  induction l with
  | nil => obtain ⟨x, hx, _⟩ := h; cases hx
  | cons a l ih =>
    by_cases hl : ∃ x ∈ l, P x
    · obtain ⟨l1, x, l2, e, hx, h2⟩ := ih hl
      exact ⟨a :: l1, x, l2, by rw [e]; rfl, hx, h2⟩
    · obtain ⟨x, hx, hp⟩ := h
      rcases List.mem_cons.1 hx with rfl | hx
      · exact ⟨[], x, l, rfl, hp, fun y hy hpy => hl ⟨y, hy, hpy⟩⟩
      · exact absurd ⟨x, hx, hp⟩ hl


theorem not_infix_of_containsLit {p l : Str} (h : containsLit p l = false) : ¬ p <:+: l := by
  intro hp
  rw [containsLit_of_occurs hp] at h
  cases h

theorem svgAttrsOf_no_root {svgContent : Str} (h : ¬ "<svg".toList <:+: svgContent) :
    svgAttrsOf svgContent = [] := by
  rw [svgAttrsOf, findFirst_none
    (fun suf hs => svgOpenTagAt_none (afterLit_none_of_absent h suf hs))]
  rfl

theorem svgBodyOf_no_root {svgContent : Str} (h : ¬ "<svg".toList <:+: svgContent) :
    svgBodyOf svgContent = [] := by
  rw [svgBodyOf, findFirst_none
    (fun suf hs => svgElementAt_none (afterLit_none_of_absent h suf hs))]
  rfl

/-- The output when neither the attribute loop nor the scanner loop writes a
line. -/
theorem scaffold_eq (c : Str) :
    header c ++ [] ++ propsLines ++ [] ++ footer c
      = "import * as React from \"react\";\n\nconst ".toList ++ c
        ++ ": React.FC<React.SVGProps<SVGElement>> = (props) => (\n  <svg\n    xmlns=\"http://www.w3.org/2000/svg\"\n    \x7b...props\x7d\n  >\n  </svg>\n);\n\nexport default React.memo(".toList
        ++ c ++ ");\n".toList := by
  have hmid : ": React.FC<React.SVGProps<SVGElement>> = (props) => (\n".toList
      ++ ("  <svg\n".toList ++ ("    xmlns=\"http://www.w3.org/2000/svg\"\n".toList
      ++ ("    \x7b...props\x7d\n".toList ++ ("  >\n".toList ++ ("  </svg>\n".toList
      ++ (");\n\n".toList ++ "export default React.memo(".toList))))))
      = ": React.FC<React.SVGProps<SVGElement>> = (props) => (\n  <svg\n    xmlns=\"http://www.w3.org/2000/svg\"\n    \x7b...props\x7d\n  >\n  </svg>\n);\n\nexport default React.memo(".toList := by
    decide
  have hhead : "import * as React from \"react\";\n\n".toList ++ "const ".toList
      = "import * as React from \"react\";\n\nconst ".toList := by
    decide
  simp only [header, propsLines, footer, List.append_assoc, List.append_nil, List.nil_append]
  rw [← hmid, ← hhead]
  simp only [List.append_assoc]


/-! ## The frame of the output -/

theorem header_eq (c : Str) :
    header c = "import * as React from \"react\";\n\nconst ".toList ++ c
      ++ ": React.FC<React.SVGProps<SVGElement>> = (props) => (\n  <svg\n".toList
      ++ "    xmlns=\"http://www.w3.org/2000/svg\"\n".toList := by
  simp only [header, List.append_assoc]
  rfl

theorem footer_eq (c : Str) :
    footer c = "  </svg>\n);\n\nexport default React.memo(".toList ++ c ++ ");\n".toList := by
  simp only [footer, List.append_assoc]
  rfl

theorem convertSvgToTsx_eq (iter : Table → Table) (ords : Nat → Table) (svgContent c : Str) :
    convertSvgToTsx iter ords svgContent c
      = "import * as React from \"react\";\n\nconst ".toList ++ c
        ++ ": React.FC<React.SVGProps<SVGElement>> = (props) => (\n  <svg\n".toList
        ++ "    xmlns=\"http://www.w3.org/2000/svg\"\n".toList
        ++ (rootLines (iter (parseAttributes (svgAttrsOf svgContent)))).flatten
        ++ "    \x7b...props\x7d\n".toList ++ "  >\n".toList
        ++ emitBody (cleanSvgBody ords (svgBodyOf svgContent))
        ++ ("  </svg>\n);\n\nexport default React.memo(".toList ++ c ++ ");\n".toList) := by
  rw [convertSvgToTsx, header_eq, footer_eq, emitAttrs, propsLines]
  simp only [List.append_assoc]

theorem rootLines_mem {es : Table} {ln : Str} (h : ln ∈ rootLines es) :
    ∃ kv ∈ es, kv.1 ≠ "xmlns".toList ∧ ln = attrLine kv := by
  obtain ⟨kv, hkv, e⟩ := List.mem_map.1 h
  have h2 := List.mem_filter.1 hkv
  exact ⟨kv, h2.1, by simpa using h2.2, e.symm⟩

theorem mem_rootLines {es : Table} {kv : Str × Str} (h : kv ∈ es)
    (hx : kv.1 ≠ "xmlns".toList) : attrLine kv ∈ rootLines es := by
  apply List.mem_map_of_mem attrLine
  rw [List.mem_filter]
  exact ⟨h, by simpa using hx⟩


/-! ## Lines without `=` -/

theorem eqSign_mem_of_key {k l : Str} (h : (k ++ ['=']) <+: l) : '=' ∈ l :=
  h.subset (by simp)

theorem keyAt_none_of_no_eq (k t : Str) (st : Bool) {l : Str} (h : '=' ∉ l) :
    keyAt k t st l = none := by
  rw [keyAt_eq_none]
  refine ⟨fun _ hp => h (eqSign_mem_of_key hp), ?_⟩
  intro c r e _ hp
  apply h
  rw [e]
  exact List.mem_cons_of_mem _ (eqSign_mem_of_key hp)

theorem replaceKeyFrom_no_eq (k t : Str) (st : Bool) {l : Str} (h : '=' ∉ l) :
    replaceKeyFrom k t st l = l := by
  induction l generalizing st with
  | nil => rfl
  | cons c cs ih =>
    rw [replaceKeyFrom_miss (keyAt_none_of_no_eq k t st h),
      ih false (fun hc => h (List.mem_cons_of_mem _ hc))]

theorem replaceKnown_no_eq (ord : Table) {l : Str} (h : '=' ∉ l) : replaceKnown ord l = l := by
  unfold replaceKnown
  induction ord with
  | nil => rfl
  | cons kt ord ih =>
    rw [List.foldl_cons]
    have h1 : replaceAll (keyAt kt.1 kt.2) l = l := replaceKeyFrom_no_eq kt.1 kt.2 true h
    rw [h1]
    exact ih

/-- The shape of a match of the generic pattern. -/
theorem kebabAt_some_shape {st : Bool} {l : Str} {n : Nat} {y : Str}
    (h : kebabAt st l = some (n, y)) :
    ∃ c rest, l = c :: (y ++ '=' :: rest) ∧ n = y.length + 2 ∧ isReSpace c = true
      ∧ KebabShape y := by
  cases l with
  | nil => simp [kebabAt] at h
  | cons c r =>
    unfold kebabAt at h
    by_cases hc : isReSpace c = true
    · simp only [hc, if_true] at h
      by_cases ha : r.takeWhile isLower = []
      · simp [ha] at h
      · simp only [ha, if_false] at h
        cases hr : r.dropWhile isLower with
        | nil => simp [hr] at h
        | cons d r2 =>
          simp only [hr] at h
          by_cases hd : d = '-'
          · simp only [hd, if_true] at h
            by_cases hb : r2.takeWhile isKebabTail = []
            · simp [hb] at h
            · simp only [hb, if_false] at h
              cases hr2 : r2.dropWhile isKebabTail with
              | nil => simp [hr2] at h
              | cons e r3 =>
                simp only [hr2] at h
                by_cases he : e = '='
                · simp only [he, if_true, Option.some.injEq, Prod.mk.injEq] at h
                  obtain ⟨hn, hy⟩ := h
                  have e1 : r = r.takeWhile isLower ++ d :: r2 := by
                    rw [← hr, List.takeWhile_append_dropWhile]
                  have e2 : r2 = r2.takeWhile isKebabTail ++ e :: r3 := by
                    rw [← hr2, List.takeWhile_append_dropWhile]
                  refine ⟨c, r3, ?_, ?_, hc, ?_⟩
                  · rw [← hy]
                    conv_lhs => rw [e1, e2, hd, he]
                    simp
                  · rw [← hy, ← hn]
                    simp only [List.length_append, List.length_cons]
                    omega
                  · rw [← hy]
                    exact ⟨_, _, rfl, ha, fun x hx => List.mem_takeWhile_imp hx, hb,
                      fun x hx => List.mem_takeWhile_imp hx⟩
                · simp [he] at h
          · simp [hd] at h
    · simp [hc] at h

theorem kebabAt_none_of_no_eq (st : Bool) {l : Str} (h : '=' ∉ l) : kebabAt st l = none := by
  cases hq : kebabAt st l with
  | none => rfl
  | some x =>
    obtain ⟨c, rest, e, _⟩ := kebabAt_some_shape (n := x.1) (y := x.2) hq
    exact absurd (by rw [e]; simp) h

theorem convertAttributesInLine_no_eq (ord : Table) {l : Str} (h : '=' ∉ l) :
    convertAttributesInLine ord l = l := by
  unfold convertAttributesInLine findAll
  rw [replaceKnown_no_eq ord h]
  show replaceGeneric (findAllAux kebabAt true 0 l) l = l
  rw [findAllAux_none (fun st suf hs => kebabAt_none_of_no_eq st (fun hc => h (hs.subset hc)))]
  rfl

theorem cleanLines_append (ords : Nat → Table) (i : Nat) (pre post : List Str) :
    cleanLines ords i (pre ++ post)
      = cleanLines ords i pre ++ cleanLines ords (i + pre.length) post := by
  induction pre generalizing i with
  | nil => rfl
  | cons l pre ih =>
    have e : i + (l :: pre).length = i + 1 + pre.length := by
      simp only [List.length_cons]; omega
    by_cases hl : trimSpace l ≠ []
    · rw [List.cons_append, cleanLines, if_pos hl, cleanLines, if_pos hl, ih, e]
      rfl
    · rw [List.cons_append, cleanLines, if_neg hl, cleanLines, if_neg hl, ih, e]


/-! ## Occurrences of a key at a word boundary -/

theorem keyOccurs_pass (k : Str) {w : Str} (hw : ∀ c ∈ w, isReSpace c = false) (y : Str) :
    keyOccurs k false (w ++ y) = keyOccurs k false y := by
  induction w with
  | nil => rfl
  | cons d w ih =>
    rw [List.cons_append, keyOccurs, hw d (List.mem_cons_self _ _),
      ih (fun c hc => hw c (List.mem_cons_of_mem _ hc))]
    rfl

theorem keyOccurs_word (k : Str) {w : Str} (hne : w ≠ []) (hw : ∀ c ∈ w, isReSpace c = false)
    (y : Str) (b : Bool) :
    keyOccurs k b (w ++ y)
      = ((b && (afterLit (k ++ ['=']) (w ++ y)).isSome) || keyOccurs k false y) := by
  cases w with
  | nil => exact absurd rfl hne
  | cons d w =>
    rw [List.cons_append, keyOccurs, hw d (List.mem_cons_self _ _),
      keyOccurs_pass k (fun c hc => hw c (List.mem_cons_of_mem _ hc))]

theorem afterLit_isSome_iff {p l : Str} : (afterLit p l).isSome = true ↔ p <+: l := by
  constructor
  · intro h
    cases hq : afterLit p l with
    | none => rw [hq] at h; cases h
    | some r => exact ⟨r, (afterLit_eq_some.1 hq).symm⟩
  · rintro ⟨r, rfl⟩
    rw [afterLit_append]
    rfl

theorem afterLit_isSome_false {p l : Str} (h : ¬ p <+: l) : (afterLit p l).isSome = false := by
  cases hq : (afterLit p l).isSome with
  | false => rfl
  | true => exact absurd (afterLit_isSome_iff.1 hq) h

theorem keyOccurs_cons_false {k : Str} {b : Bool} {c : Char} {cs : Str}
    (h : keyOccurs k b (c :: cs) = false) :
    (b = true → ¬ (k ++ ['=']) <+: c :: cs) ∧ keyOccurs k (isReSpace c) cs = false := by
  rw [keyOccurs, Bool.or_eq_false_iff] at h
  refine ⟨?_, h.2⟩
  intro hb hp
  rw [hb, afterLit_isSome_iff.2 hp] at h
  cases h.1

theorem keyOccurs_head {k : Str} {l : Str} (h : (k ++ ['=']) <+: l) :
    keyOccurs k true l = true := by
  cases l with
  | nil =>
    have := List.prefix_nil.1 h
    simp at this
  | cons c cs =>
    rw [keyOccurs, afterLit_isSome_iff.2 h]
    rfl

/-- An occurrence in the sense of `BoundaryOcc` is seen by `keyOccurs`. -/
theorem keyOccurs_of_boundaryOcc {k line : Str} (h : BoundaryOcc k line) :
    keyOccurs k true line = true := by
  obtain ⟨pre, suf, rfl, hpre⟩ := h
  have general : ∀ (pre : Str) (b : Bool),
      ((pre = [] ∧ b = true) ∨ ∃ p c, pre = p ++ [c] ∧ isReSpace c = true) →
      keyOccurs k b (pre ++ (k ++ ['=']) ++ suf) = true := by
    intro pre
    induction pre with
    | nil =>
      intro b hb
      rcases hb with ⟨_, hb⟩ | ⟨p, c, hp, _⟩
      · rw [hb]
        exact keyOccurs_head ⟨suf, by simp⟩
      · simp at hp
    | cons d pre ih =>
      intro b hb
      rcases hb with ⟨hd, _⟩ | ⟨p, c, hp, hc⟩
      · cases hd
      · have e : d :: pre ++ (k ++ ['=']) ++ suf = d :: (pre ++ (k ++ ['=']) ++ suf) := rfl
        rw [e, keyOccurs]
        cases p with
        | nil =>
          simp only [List.nil_append, List.cons.injEq] at hp
          obtain ⟨rfl, rfl⟩ := hp
          rw [hc, ih true (Or.inl ⟨rfl, rfl⟩), Bool.or_true]
        | cons d2 p =>
          simp only [List.cons_append, List.cons.injEq] at hp
          rw [ih (isReSpace d) (Or.inr ⟨p, c, hp.2, hc⟩), Bool.or_true]
  rcases hpre with hp | hp
  · exact general pre true (Or.inl ⟨hp, rfl⟩)
  · exact general pre true (Or.inr hp)

/-- One replacement of the first loop leaves no occurrence of its key at a
word boundary. -/
theorem replaceKeyFrom_keyOccurs {k t : Str} (hk : k.all isPlainChar = true)
    (ht : t.all isPlainChar = true) (hkt : t ≠ k) (n : Nat) :
    ∀ (st b : Bool) (l : Str), l.length ≤ n →
      (b = true → st = true ∨ ¬ (k ++ ['=']) <+: l) →
      keyOccurs k b (replaceKeyFrom k t st l) = false := by
  have sk := plain_space hk
  have st' := plain_space ht
  have ek := plain_ne_eq hk
  have et := plain_ne_eq ht
  have hword : ∀ (b : Bool) (y : Str), keyOccurs k false y = false →
      keyOccurs k b ((t ++ ['=']) ++ y) = false := by
    intro b y hy
    rw [keyOccurs_word k (by simp) (keyText_space st'), hy,
      afterLit_isSome_false (fun hp => hkt (key_prefix_unique ek et hp ⟨y, rfl⟩).symm)]
    simp
  induction n with
  | zero =>
    intro st b l hl _
    have : l = [] := List.length_eq_zero.1 (Nat.le_zero.1 hl)
    subst this
    rfl
  | succ n ih =>
    intro st b l hl hb
    cases l with
    | nil => rfl
    | cons c cs =>
      by_cases hmiss : keyAt k t st (c :: cs) = none
      · rw [replaceKeyFrom_miss hmiss, keyOccurs, Bool.or_eq_false_iff]
        have hm := keyAt_eq_none.1 hmiss
        constructor
        · cases b with
          | false => rfl
          | true =>
            have hnp : ¬ (k ++ ['=']) <+: c :: cs := by
              rcases hb rfl with h | h
              · exact hm.1 h
              · exact h
            have hnp2 : ¬ (k ++ ['=']) <+: c :: replaceKeyFrom k t false cs := by
              intro hp
              apply hnp
              cases hkk : k ++ ['='] with
              | nil => simp at hkk
              | cons d K =>
                have hK := keyText_space sk
                rw [hkk] at hp hK
                rw [List.cons_prefix_cons] at hp ⊢
                exact ⟨hp.1, (replaceKeyFrom_prefix_iff k t
                  (fun c hc => hK c (List.mem_cons_of_mem _ hc)) cs).1 hp.2⟩
            rw [afterLit_isSome_false hnp2]
            rfl
        · apply ih false (isReSpace c) cs (by simpa using hl)
          intro hc
          exact Or.inr (hm.2 c cs rfl hc)
      · rw [← Ne, Ne, keyAt_eq_none, not_and_or] at hmiss
        rcases hmiss with hhit | hhit
        · have hst : st = true := by
            by_contra hne
            exact hhit (fun h => absurd h hne)
          subst hst
          have hp : (k ++ ['=']) <+: c :: cs := by
            by_contra hne
            exact hhit (fun _ => hne)
          obtain ⟨r, hr⟩ := hp
          have hlen : r.length ≤ n := by
            have : (c :: cs).length = (k ++ ['=']).length + r.length := by
              rw [← hr, List.length_append]
            simp only [List.length_cons, List.length_append, List.length_nil] at this hl
            omega
          rw [← hr, replaceKeyFrom_start]
          exact hword b _ (ih false false r hlen (fun h => by cases h))
        · have hp : ∃ r, cs = (k ++ ['=']) ++ r ∧ isReSpace c = true := by
            by_contra hne
            apply hhit
            intro c2 r2 h1 h2 h3
            simp only [List.cons.injEq] at h1
            obtain ⟨rfl, rfl⟩ := h1
            obtain ⟨r, hr⟩ := h3
            exact hne ⟨r, hr.symm, h2⟩
          obtain ⟨r, rfl, hc⟩ := hp
          have hlen : r.length ≤ n := by
            simp only [List.length_cons, List.length_append, List.length_nil] at hl
            omega
          rw [replaceKeyFrom_space st r sk hc, keyOccurs, hc,
            hword true _ (ih false false r hlen (fun h => by cases h)),
            afterLit_isSome_false (not_key_prefix_of_space sk hc)]
          simp

/-- A replacement of the first loop returns a line without an occurrence of
its key as it is. -/
theorem replaceKeyFrom_of_not_keyOccurs (k t : Str) :
    ∀ (st b : Bool) (l : Str), keyOccurs k b l = false → (st = true → b = true) →
      replaceKeyFrom k t st l = l := by
  intro st b l
  induction l generalizing st b with
  | nil => intro _ _; rfl
  | cons c cs ih =>
    intro h hsb
    obtain ⟨h1, h2⟩ := keyOccurs_cons_false h
    have hmiss : keyAt k t st (c :: cs) = none := by
      rw [keyAt_eq_none]
      refine ⟨fun hst => h1 (hsb hst), ?_⟩
      intro c2 r2 e hc hp
      simp only [List.cons.injEq] at e
      obtain ⟨rfl, rfl⟩ := e
      rw [hc, keyOccurs_head hp] at h2
      cases h2
    rw [replaceKeyFrom_miss hmiss, ih false (isReSpace c) h2 (fun h => by cases h)]


theorem replaceKnown_append (ord1 ord2 : Table) (line : Str) :
    replaceKnown (ord1 ++ ord2) line = replaceKnown ord2 (replaceKnown ord1 line) := by
  unfold replaceKnown
  rw [List.foldl_append]

theorem bodyTable_target_ne_key : ∀ kt ∈ bodyTable, kt.2 ≠ kt.1 := by
  decide

/-- Behind the first loop no key of the body table stands at a word boundary
in front of `=`, whatever the table order. -/
theorem replaceKnown_keyOccurs {ord : Table} (hord : ord.Perm bodyTable) {kt : Str × Str}
    (hkt : kt ∈ bodyTable) (line : Str) :
    keyOccurs kt.1 true (replaceKnown ord line) = false := by
  obtain ⟨s, t, hst⟩ := List.append_of_mem hkt
  have hp : ((s ++ t) ++ [kt]).Perm bodyTable := by
    rw [hst]
    exact (List.perm_append_singleton kt (s ++ t)).trans List.perm_middle.symm
  rw [replaceKnown_perm hord, ← replaceKnown_perm hp, replaceKnown_append]
  have hpl := bodyTable_plain kt hkt
  exact replaceKeyFrom_keyOccurs hpl.1 hpl.2 (bodyTable_target_ne_key kt hkt) _ true true
    (replaceKnown (s ++ t) line) (Nat.le_refl _) (fun _ => Or.inl rfl)

theorem replaceKnown_of_not_keyOccurs {ord : Table} {l : Str}
    (h : ∀ kt ∈ ord, keyOccurs kt.1 true l = false) : replaceKnown ord l = l := by
  unfold replaceKnown
  induction ord with
  | nil => rfl
  | cons kt ord ih =>
    rw [List.foldl_cons]
    have h1 : replaceAll (keyAt kt.1 kt.2) l = l :=
      replaceKeyFrom_of_not_keyOccurs kt.1 kt.2 true true l (h kt (List.mem_cons_self _ _))
        (fun _ => rfl)
    rw [h1]
    exact ih (fun kt2 h2 => h kt2 (List.mem_cons_of_mem _ h2))

/-! ## The literal replacement of the generic branch -/

theorem containsLit_iff_occurs {p l : Str} : containsLit p l = true ↔ p <:+: l := by
  refine ⟨?_, containsLit_of_occurs⟩
  induction l with
  | nil =>
    intro h
    have h2 : (afterLit p []).isSome = true := by
      simpa [containsLit, splitAtLit] using h
    exact (afterLit_isSome_iff.1 h2).isInfix
  | cons c cs ih =>
    intro h
    rw [containsLit_cons, Bool.or_eq_true] at h
    rcases h with h | h
    · exact (afterLit_isSome_iff.1 h).isInfix
    · exact (ih h).trans (List.suffix_cons c cs).isInfix

theorem isPlainChar_ne_blank {c : Char} (h : isPlainChar c = true) : c ≠ ' ' := by
  intro e
  rw [e] at h
  revert h
  decide

theorem plain_ne_blank {w : Str} (h : w.all isPlainChar = true) : ∀ c ∈ w, c ≠ ' ' :=
  fun c hc => isPlainChar_ne_blank (List.all_eq_true.1 h c hc)

theorem keyText_ne_blank {w : Str} (h : ∀ c ∈ w, c ≠ ' ') : ∀ c ∈ w ++ ['='], c ≠ ' ' := by
  intro c hc
  rcases List.mem_append.1 hc with hc | hc
  · exact h c hc
  · rw [List.mem_singleton.1 hc]; decide

theorem afterLit_spaced_none (z : Str) {d : Char} (hd : d ≠ ' ') (r : Str) :
    afterLit (spaced z) (d :: r) = none := by
  rw [spaced, afterLit, if_neg (fun e => hd e.symm)]

theorem containsLit_spaced_pass (z : Str) {w : Str} (hw : ∀ c ∈ w, c ≠ ' ') (y : Str) :
    containsLit (spaced z) (w ++ y) = containsLit (spaced z) y := by
  induction w with
  | nil => rfl
  | cons d w ih =>
    rw [List.cons_append, containsLit_cons,
      afterLit_spaced_none z (hw d (List.mem_cons_self _ _)),
      ih (fun c hc => hw c (List.mem_cons_of_mem _ hc))]
    rfl

theorem spaced_prefix_cons {z : Str} {c : Char} {r : Str} :
    spaced z <+: c :: r ↔ c = ' ' ∧ (z ++ ['=']) <+: r := by
  rw [spaced, List.cons_prefix_cons]
  constructor
  · intro h; exact ⟨h.1.symm, h.2⟩
  · intro h; exact ⟨h.1.symm, h.2⟩

theorem litAt_eq_none {old new : Str} {st : Bool} {l : Str} :
    litAt old new st l = none ↔ ¬ old <+: l := by
  unfold litAt
  cases hq : afterLit old l with
  | none => simp only [true_iff]; exact afterLit_eq_none.1 hq
  | some r =>
    simp only [false_iff, not_not]
    constructor
    · intro h; cases h
    · intro h; exact absurd ⟨r, (afterLit_eq_some.1 hq).symm⟩ h

theorem replaceSpacedFrom_nil (u v : Str) (st : Bool) : replaceSpacedFrom u v st [] = [] := rfl

theorem replaceSpacedFrom_hit (u v : Str) (st : Bool) (r : Str) :
    replaceSpacedFrom u v st (spaced u ++ r) = spaced v ++ replaceSpacedFrom u v false r := by
  apply replaceAllAux_hit_append (by simp [spaced])
  rw [litAt, afterLit_append]

theorem replaceSpacedFrom_miss {u v : Str} {st : Bool} {c : Char} {cs : Str}
    (h : ¬ spaced u <+: c :: cs) :
    replaceSpacedFrom u v st (c :: cs) = c :: replaceSpacedFrom u v false cs :=
  replaceAllAux_miss (litAt_eq_none.2 h)

theorem replaceSpacedFrom_prefix_iff (u v : Str) {w : Str} (hw : ∀ c ∈ w, c ≠ ' ')
    (st : Bool) (y : Str) : w <+: replaceSpacedFrom u v st y ↔ w <+: y := by
  induction w generalizing y st with
  | nil => simp
  | cons d w ih =>
    have hd : d ≠ ' ' := hw d (List.mem_cons_self _ _)
    cases y with
    | nil => simp [replaceSpacedFrom_nil]
    | cons e y =>
      by_cases hhit : spaced u <+: e :: y
      · obtain ⟨r, hr⟩ := hhit
        have he : e = ' ' := by
          rw [spaced, List.cons_append] at hr
          simp only [List.cons.injEq] at hr
          exact hr.1.symm
        rw [← hr, replaceSpacedFrom_hit]
        have e1 : spaced v ++ replaceSpacedFrom u v false r
            = ' ' :: ((v ++ ['=']) ++ replaceSpacedFrom u v false r) := rfl
        have e2 : spaced u ++ r = ' ' :: ((u ++ ['=']) ++ r) := rfl
        rw [e1, e2, List.cons_prefix_cons, List.cons_prefix_cons]
        constructor
        · intro h; exact absurd h.1 hd
        · intro h; exact absurd h.1 hd
      · rw [replaceSpacedFrom_miss hhit, List.cons_prefix_cons, List.cons_prefix_cons,
          ih (fun c hc => hw c (List.mem_cons_of_mem _ hc))]

/-- A literal replacement of the generic branch returns a line without the
searched text as it is. -/
theorem replaceSpacedFrom_of_not_contains (u v : Str) (st : Bool) {l : Str}
    (h : containsLit (spaced u) l = false) : replaceSpacedFrom u v st l = l := by
  induction l generalizing st with
  | nil => rfl
  | cons c cs ih =>
    rw [containsLit_cons, Bool.or_eq_false_iff] at h
    have hmiss : ¬ spaced u <+: c :: cs := by
      intro hp
      rw [afterLit_isSome_iff.2 hp] at h
      cases h.1
    rw [replaceSpacedFrom_miss hmiss, ih false h.2]


theorem ne_blank_of_not_space {c : Char} (h : isReSpace c = false) : c ≠ ' ' := by
  intro e
  rw [e] at h
  revert h
  decide

theorem isReSpace_blank : isReSpace ' ' = true := by decide

theorem containsLit_append_left {p y : Str} (w : Str) (h : containsLit p y = true) :
    containsLit p (w ++ y) = true :=
  containsLit_iff_occurs.2 ((containsLit_iff_occurs.1 h).trans (List.suffix_append w y).isInfix)

/-- A literal replacement of the generic branch creates no occurrence of a
table key at a word boundary. -/
theorem replaceSpacedFrom_keyOccurs {k u v : Str} (hk : k.all isPlainChar = true)
    (hv : v.all isPlainChar = true) (hu : u.all isPlainChar = true) (hvk : v ≠ k) (n : Nat) :
    ∀ (st b : Bool) (l : Str), l.length ≤ n → keyOccurs k b l = false →
      keyOccurs k b (replaceSpacedFrom u v st l) = false := by
  have sk := plain_space hk
  have ek := plain_ne_eq hk
  have sv := plain_space hv
  have ev := plain_ne_eq hv
  have su := plain_space hu
  induction n with
  | zero =>
    intro st b l hl h
    have : l = [] := List.length_eq_zero.1 (Nat.le_zero.1 hl)
    subst this
    rfl
  | succ n ih =>
    intro st b l hl h
    cases l with
    | nil => rfl
    | cons c cs =>
      by_cases hhit : spaced u <+: c :: cs
      · obtain ⟨r, hr⟩ := hhit
        have e2 : spaced u ++ r = ' ' :: ((u ++ ['=']) ++ r) := rfl
        have hlen : r.length ≤ n := by
          have : (c :: cs).length = (spaced u).length + r.length := by
            rw [← hr, List.length_append]
          simp only [List.length_cons, spaced] at this hl
          omega
        rw [← hr, e2] at h
        have h2 := (keyOccurs_cons_false h).2
        rw [isReSpace_blank, keyOccurs_word k (by simp) (keyText_space su),
          Bool.or_eq_false_iff] at h2
        have h3 := ih false false r hlen h2.2
        rw [← hr, replaceSpacedFrom_hit]
        have e1 : spaced v ++ replaceSpacedFrom u v false r
            = ' ' :: ((v ++ ['=']) ++ replaceSpacedFrom u v false r) := rfl
        rw [e1, keyOccurs, isReSpace_blank,
          afterLit_isSome_false (not_key_prefix_of_space sk isReSpace_blank),
          keyOccurs_word k (by simp) (keyText_space sv), h3,
          afterLit_isSome_false (fun hp => hvk (key_prefix_unique ek ev hp ⟨_, rfl⟩).symm)]
        simp
      · obtain ⟨h1, h2⟩ := keyOccurs_cons_false h
        rw [replaceSpacedFrom_miss hhit, keyOccurs, Bool.or_eq_false_iff]
        constructor
        · cases b with
          | false => rfl
          | true =>
            have hnp : ¬ (k ++ ['=']) <+: c :: replaceSpacedFrom u v false cs := by
              intro hp
              apply h1 rfl
              cases hkk : k ++ ['='] with
              | nil => simp at hkk
              | cons d K =>
                have hK := keyText_space sk
                rw [hkk] at hp hK
                rw [List.cons_prefix_cons] at hp ⊢
                exact ⟨hp.1, (replaceSpacedFrom_prefix_iff u v
                  (fun c hc => ne_blank_of_not_space (hK c (List.mem_cons_of_mem _ hc)))
                  false cs).1 hp.2⟩
            rw [afterLit_isSome_false hnp]
            rfl
        · exact ih false (isReSpace c) cs (by simpa using hl) h2

/-- A literal replacement of the generic branch creates no occurrence of
` z=` for a name `z` other than the one it writes. -/
theorem replaceSpacedFrom_contains {z u v : Str} (hz : z.all isPlainChar = true)
    (hv : v.all isPlainChar = true) (hzv : z ≠ v) (n : Nat) :
    ∀ (st : Bool) (l : Str), l.length ≤ n →
      containsLit (spaced z) (replaceSpacedFrom u v st l) = true →
      containsLit (spaced z) l = true := by
  have ez := plain_ne_eq hz
  have ev := plain_ne_eq hv
  have bz := plain_ne_blank hz
  have bv := plain_ne_blank hv
  induction n with
  | zero =>
    intro st l hl h
    have : l = [] := List.length_eq_zero.1 (Nat.le_zero.1 hl)
    subst this
    exact h
  | succ n ih =>
    intro st l hl h
    cases l with
    | nil => exact h
    | cons c cs =>
      by_cases hhit : spaced u <+: c :: cs
      · obtain ⟨r, hr⟩ := hhit
        have hlen : r.length ≤ n := by
          have : (c :: cs).length = (spaced u).length + r.length := by
            rw [← hr, List.length_append]
          simp only [List.length_cons, spaced] at this hl
          omega
        rw [← hr, replaceSpacedFrom_hit] at h
        have e1 : spaced v ++ replaceSpacedFrom u v false r
            = ' ' :: ((v ++ ['=']) ++ replaceSpacedFrom u v false r) := rfl
        rw [e1, containsLit_cons, Bool.or_eq_true] at h
        rcases h with h | h
        · have hp := spaced_prefix_cons.1 (afterLit_isSome_iff.1 h)
          exact absurd (key_prefix_unique ez ev hp.2 ⟨_, rfl⟩) hzv
        · rw [containsLit_spaced_pass z (keyText_ne_blank bv)] at h
          rw [← hr]
          exact containsLit_append_left _ (ih false r hlen h)
      · rw [replaceSpacedFrom_miss hhit, containsLit_cons, Bool.or_eq_true] at h
        rw [containsLit_cons, Bool.or_eq_true]
        rcases h with h | h
        · left
          have hp := spaced_prefix_cons.1 (afterLit_isSome_iff.1 h)
          exact afterLit_isSome_iff.2 (spaced_prefix_cons.2 ⟨hp.1,
            (replaceSpacedFrom_prefix_iff u v (keyText_ne_blank bz) false cs).1 hp.2⟩)
        · right
          exact ih false cs (by simpa using hl) h

/-- A literal replacement of the generic branch leaves no occurrence of the
text it searches. -/
theorem replaceSpacedFrom_removes {u v : Str} (hu : u.all isPlainChar = true)
    (hv : v.all isPlainChar = true) (huv : u ≠ v) (n : Nat) :
    ∀ (st : Bool) (l : Str), l.length ≤ n →
      containsLit (spaced u) (replaceSpacedFrom u v st l) = false := by
  have eu := plain_ne_eq hu
  have ev := plain_ne_eq hv
  have bu := plain_ne_blank hu
  have bv := plain_ne_blank hv
  induction n with
  | zero =>
    intro st l hl
    have : l = [] := List.length_eq_zero.1 (Nat.le_zero.1 hl)
    subst this
    rfl
  | succ n ih =>
    intro st l hl
    cases l with
    | nil => rfl
    | cons c cs =>
      by_cases hhit : spaced u <+: c :: cs
      · obtain ⟨r, hr⟩ := hhit
        have hlen : r.length ≤ n := by
          have : (c :: cs).length = (spaced u).length + r.length := by
            rw [← hr, List.length_append]
          simp only [List.length_cons, spaced] at this hl
          omega
        rw [← hr, replaceSpacedFrom_hit]
        have e1 : spaced v ++ replaceSpacedFrom u v false r
            = ' ' :: ((v ++ ['=']) ++ replaceSpacedFrom u v false r) := rfl
        rw [e1, containsLit_cons, containsLit_spaced_pass u (keyText_ne_blank bv),
          ih false r hlen, Bool.or_false]
        apply afterLit_isSome_false
        intro hp
        exact huv (key_prefix_unique eu ev (spaced_prefix_cons.1 hp).2 ⟨_, rfl⟩)
      · rw [replaceSpacedFrom_miss hhit, containsLit_cons, ih false cs (by simpa using hl),
          Bool.or_false]
        apply afterLit_isSome_false
        intro hp
        have hp2 := spaced_prefix_cons.1 hp
        exact hhit (spaced_prefix_cons.2 ⟨hp2.1,
          (replaceSpacedFrom_prefix_iff u v (keyText_ne_blank bu) false cs).1 hp2.2⟩)

/-! ## The matches of the generic pattern -/

theorem isKebabTail_plain {c : Char} (h : isKebabTail c = true) : isPlainChar c = true := by
  simp only [isKebabTail, isLower, Bool.or_eq_true, Bool.and_eq_true, decide_eq_true_eq,
    beq_iff_eq] at h
  have h1 : isReSpace c = false := by
    simp only [isReSpace, Bool.or_eq_false_iff, beq_eq_false_iff_ne, ne_eq]
    omega
  have h2 : c ≠ '=' := by
    intro e
    rw [e] at h
    revert h
    decide
  simp [isPlainChar, h1, h2]

theorem isLower_kebabTail {c : Char} (h : isLower c = true) : isKebabTail c = true := by
  simp [isKebabTail, h]

theorem kebabShape_chars {z : Str} (h : KebabShape z) : ∀ c ∈ z, isKebabTail c = true := by
  obtain ⟨a, b, rfl, _, ha, _, hb⟩ := h
  intro c hc
  rcases List.mem_append.1 hc with hc | hc
  · exact isLower_kebabTail (ha c hc)
  · rcases List.mem_cons.1 hc with rfl | hc
    · decide
    · exact hb c hc

theorem kebabShape_plain {z : Str} (h : KebabShape z) : z.all isPlainChar = true :=
  List.all_eq_true.2 (fun c hc => isKebabTail_plain (kebabShape_chars h c hc))

theorem kebabShape_hyphen {z : Str} (h : KebabShape z) : '-' ∈ z := by
  obtain ⟨a, b, rfl, _⟩ := h
  simp

/-- The generic pattern matches a token of the kebab shape that stands
behind a white-space character and in front of `=`. -/
theorem kebabAt_of_shape {z : Str} (h : KebabShape z) {c : Char} (hc : isReSpace c = true)
    (st : Bool) (r : Str) :
    kebabAt st (c :: ((z ++ ['=']) ++ r)) = some (z.length + 2, z) := by
  obtain ⟨a, b, rfl, ha, hla, hb, hlb⟩ := h
  have e : c :: ((a ++ '-' :: b ++ ['=']) ++ r) = c :: (a ++ '-' :: (b ++ '=' :: r)) := by
    simp
  have h1 : isLower '-' = false := by decide
  have h2 : isKebabTail '=' = false := by decide
  rw [e]
  unfold kebabAt
  simp only [hc, if_true, takeWhile_stop _ hla h1, dropWhile_stop _ hla h1, ha, if_false,
    takeWhile_stop _ hlb h2, dropWhile_stop _ hlb h2, hb]
  simp only [List.length_append, List.length_cons]
  congr 2

/-- Every token of the kebab shape that stands behind a space and in front
of `=` is among the matches of the generic pattern. -/
theorem mem_findAllAux_kebab {z : Str} (hz : KebabShape z) (n : Nat) :
    ∀ (st : Bool) (l : Str), l.length ≤ n → containsLit (spaced z) l = true →
      z ∈ findAllAux kebabAt st 0 l := by
  have ez := plain_ne_eq (kebabShape_plain hz)
  induction n with
  | zero =>
    intro st l hl h
    have : l = [] := List.length_eq_zero.1 (Nat.le_zero.1 hl)
    subst this
    have : containsLit (spaced z) [] = false := rfl
    rw [this] at h
    cases h
  | succ n ih =>
    intro st l hl h
    cases l with
    | nil =>
      have : containsLit (spaced z) [] = false := rfl
      rw [this] at h
      cases h
    | cons c cs =>
      rw [containsLit_cons, Bool.or_eq_true] at h
      cases hq : kebabAt st (c :: cs) with
      | none =>
        rw [findAllAux_miss hq]
        rcases h with h | h
        · obtain ⟨hc, r, hr⟩ := spaced_prefix_cons.1 (afterLit_isSome_iff.1 h)
          rw [← hr, hc, kebabAt_of_shape hz isReSpace_blank] at hq
          cases hq
        · exact ih false cs (by simpa using hl) h
      | some x =>
        obtain ⟨m, y⟩ := x
        obtain ⟨c2, rest, e, hm, hc2, hy⟩ := kebabAt_some_shape hq
        simp only [List.cons.injEq] at e
        obtain ⟨rfl, rfl⟩ := e
        have ey := plain_ne_eq (kebabShape_plain hy)
        have by' := plain_ne_blank (kebabShape_plain hy)
        have hdrop : (y ++ '=' :: rest).drop (m - 1) = rest := by
          have : m - 1 = (y ++ ['=']).length := by
            rw [hm, List.length_append, List.length_singleton]; omega
          rw [this]
          have e3 : y ++ '=' :: rest = (y ++ ['=']) ++ rest := by simp
          rw [e3, List.drop_left]
        rw [findAllAux_hit hq, hdrop]
        have e3 : y ++ '=' :: rest = (y ++ ['=']) ++ rest := by simp
        rcases h with h | h
        · have hp := (spaced_prefix_cons.1 (afterLit_isSome_iff.1 h)).2
          rw [e3] at hp
          rw [key_prefix_unique ez ey hp ⟨rest, rfl⟩]
          exact List.mem_cons_self _ _
        · rw [e3, containsLit_spaced_pass z (keyText_ne_blank by')] at h
          apply List.mem_cons_of_mem
          apply ih false rest _ h
          simp only [List.length_cons, List.length_append] at hl
          omega


/-! ## The second loop -/

theorem replaceGeneric_eq_foldl (found : List Str) (line : Str) :
    replaceGeneric found line = found.foldl genericStep line := rfl

theorem genericStep_handled {ln x : Str} (h : alreadyHandled x = true) :
    genericStep ln x = ln := by
  rw [genericStep, if_pos h]

theorem genericStep_replace {ln x : Str} (h : alreadyHandled x = false) :
    genericStep ln x = replaceSpacedFrom x (convertKebabToCamel x) true ln := by
  rw [genericStep, if_neg (by rw [h]; simp)]
  rfl

theorem upper_range_plain {c : Char} (h : 65 ≤ c.toNat ∧ c.toNat ≤ 90) :
    isPlainChar c = true := by
  have h1 : isReSpace c = false := by
    simp only [isReSpace, Bool.or_eq_false_iff, beq_eq_false_iff_ne, ne_eq]
    omega
  have h2 : c ≠ '=' := by
    intro e
    rw [e] at h
    revert h
    decide
  simp [isPlainChar, h1, h2]

theorem upper_range_ne_hyphen {c : Char} (h : 65 ≤ c.toNat ∧ c.toNat ≤ 90) : c ≠ '-' := by
  intro e
  rw [e] at h
  revert h
  decide

/-- The conversion of a name holds no hyphen. -/
theorem convertKebabToCamel_no_hyphen (s : Str) : '-' ∉ convertKebabToCamel s := by
  intro hc
  unfold convertKebabToCamel at hc
  cases hs : splitOn '-' s with
  | nil => rw [hs] at hc; cases hc
  | cons p ps =>
    rw [hs, camelLoop] at hc
    rcases camelLoop_foldl_mem ps p hc with h1 | ⟨q, hq, d, hd, h⟩
    · exact (splitOn_mem p (by rw [hs]; exact List.mem_cons_self _ _) _ h1).2 rfl
    · have hdne := (splitOn_mem q (by rw [hs]; exact List.mem_cons_of_mem _ hq) d hd).2
      rcases h with h | h
      · exact hdne h.symm
      · rcases upperByte_cases d with h2 | h2
        · rw [h2] at h; exact hdne h.symm
        · rw [← h] at h2
          exact upper_range_ne_hyphen h2 rfl

/-- The conversion of a token of the kebab shape holds neither white space
nor `=`. -/
theorem convertKebabToCamel_plain {x : Str} (hx : KebabShape x) :
    (convertKebabToCamel x).all isPlainChar = true := by
  rw [List.all_eq_true]
  intro c hc
  obtain ⟨d, hd, h⟩ := camelLoop_split_mem hc
  have hdp := isKebabTail_plain (kebabShape_chars hx d hd)
  rcases h with rfl | rfl
  · exact hdp
  · rcases upperByte_cases d with h2 | h2
    · rw [h2]; exact hdp
    · exact upper_range_plain h2

theorem kebabShape_ne_camel {z : Str} (hz : KebabShape z) (x : Str) :
    z ≠ convertKebabToCamel x := by
  intro e
  exact convertKebabToCamel_no_hyphen x (e ▸ kebabShape_hyphen hz)

theorem findAll_kebab_shape (line : Str) : ∀ x ∈ findAll kebabAt line, KebabShape x :=
  findAllAux_forall
    (fun _ _ _ _ h => by
      obtain ⟨_, _, _, _, _, hs⟩ := kebabAt_some_shape h
      exact hs)
    true 0 line

/-- The second loop creates no occurrence of ` z=` for a token `z` of the
kebab shape. -/
theorem foldl_genericStep_contains {z : Str} (hz : KebabShape z) (found : List Str)
    (hf : ∀ x ∈ found, KebabShape x) (s : Str)
    (h : containsLit (spaced z) (found.foldl genericStep s) = true) :
    containsLit (spaced z) s = true := by
  induction found generalizing s with
  | nil => exact h
  | cons x found ih =>
    rw [List.foldl_cons] at h
    have h1 := ih (fun y hy => hf y (List.mem_cons_of_mem _ hy)) _ h
    have hx := hf x (List.mem_cons_self _ _)
    cases ha : alreadyHandled x with
    | true => rw [genericStep_handled ha] at h1; exact h1
    | false =>
      rw [genericStep_replace ha] at h1
      exact replaceSpacedFrom_contains (kebabShape_plain hz) (convertKebabToCamel_plain hx)
        (kebabShape_ne_camel hz x) _ true s (Nat.le_refl _) h1

/-- Behind the second loop no ` z=` is left for a match `z` that is not a
table key. -/
theorem foldl_genericStep_removes {z : Str} (found : List Str)
    (hf : ∀ x ∈ found, KebabShape x) (hz : z ∈ found) (hh : alreadyHandled z = false)
    (s : Str) : containsLit (spaced z) (found.foldl genericStep s) = false := by
  induction found generalizing s with
  | nil => cases hz
  | cons x found ih =>
    rw [List.foldl_cons]
    have hfx := hf x (List.mem_cons_self _ _)
    have hf2 : ∀ y ∈ found, KebabShape y := fun y hy => hf y (List.mem_cons_of_mem _ hy)
    by_cases hzx : z = x
    · subst hzx
      cases hq : containsLit (spaced z) (found.foldl genericStep (genericStep s z)) with
      | false => rfl
      | true =>
        have h1 := foldl_genericStep_contains hfx found hf2 _ hq
        rw [genericStep_replace hh, replaceSpacedFrom_removes (kebabShape_plain hfx)
          (convertKebabToCamel_plain hfx) (kebabShape_ne_camel hfx z) _ true s
          (Nat.le_refl _)] at h1
        cases h1
    · rcases List.mem_cons.1 hz with h | h
      · exact absurd h hzx
      · exact ih hf2 h _

/-- In the line `convertAttributesInLine` returns, no token of the kebab
shape that is not a table key stands behind a space and in front of `=`. -/
theorem replaceGeneric_no_spaced {z : Str} (hz : KebabShape z) (hh : alreadyHandled z = false)
    (line : Str) :
    containsLit (spaced z) (replaceGeneric (findAll kebabAt line) line) = false := by
  cases hq : containsLit (spaced z) (replaceGeneric (findAll kebabAt line) line) with
  | false => rfl
  | true =>
    rw [replaceGeneric_eq_foldl] at hq
    have h1 := foldl_genericStep_contains hz _ (findAll_kebab_shape line) line hq
    have h2 : z ∈ findAll kebabAt line :=
      mem_findAllAux_kebab hz _ true line (Nat.le_refl _) h1
    rw [foldl_genericStep_removes _ (findAll_kebab_shape line) h2 hh] at hq
    cases hq

theorem foldl_genericStep_id (found : List Str) (s : Str)
    (h : ∀ y ∈ found, genericStep s y = s) : found.foldl genericStep s = s := by
  induction found with
  | nil => rfl
  | cons y found ih =>
    rw [List.foldl_cons, h y (List.mem_cons_self _ _)]
    exact ih (fun y2 h2 => h y2 (List.mem_cons_of_mem _ h2))

/-- The second loop changes nothing in a line it has produced. -/
theorem replaceGeneric_fixed (line : Str) :
    replaceGeneric (findAll kebabAt (replaceGeneric (findAll kebabAt line) line))
        (replaceGeneric (findAll kebabAt line) line)
      = replaceGeneric (findAll kebabAt line) line := by
  rw [replaceGeneric_eq_foldl (findAll kebabAt (replaceGeneric (findAll kebabAt line) line))]
  apply foldl_genericStep_id
  intro y hy
  have hys := findAll_kebab_shape _ y hy
  cases ha : alreadyHandled y with
  | true => exact genericStep_handled ha
  | false =>
    rw [genericStep_replace ha]
    exact replaceSpacedFrom_of_not_contains _ _ true (replaceGeneric_no_spaced hys ha line)

/-- The second loop creates no occurrence of a key at a word boundary, as
long as no match is converted to that key. -/
theorem foldl_genericStep_keyOccurs {k : Str} (hk : k.all isPlainChar = true)
    (found : List Str) (hf : ∀ x ∈ found, KebabShape x)
    (hne : ∀ x ∈ found, convertKebabToCamel x ≠ k) (b : Bool) (s : Str)
    (h : keyOccurs k b s = false) : keyOccurs k b (found.foldl genericStep s) = false := by
  induction found generalizing s with
  | nil => exact h
  | cons x found ih =>
    rw [List.foldl_cons]
    apply ih (fun y hy => hf y (List.mem_cons_of_mem _ hy))
      (fun y hy => hne y (List.mem_cons_of_mem _ hy))
    have hx := hf x (List.mem_cons_self _ _)
    cases ha : alreadyHandled x with
    | true => rw [genericStep_handled ha]; exact h
    | false =>
      rw [genericStep_replace ha]
      exact replaceSpacedFrom_keyOccurs hk (convertKebabToCamel_plain hx) (kebabShape_plain hx)
        (hne x (List.mem_cons_self _ _)) _ true b s (Nat.le_refl _) h

theorem bodyTable_hyphen_or_class : ∀ kt ∈ bodyTable, '-' ∈ kt.1 ∨ kt.1 = "class".toList := by
  decide

/-- In the line `convertAttributesInLine` returns, a key of the body table
stands at no word boundary in front of `=`, provided the key holds a hyphen
or no match of the generic pattern is converted to `class`. -/
theorem convertAttributesInLine_keyOccurs {ord : Table} (hord : ord.Perm bodyTable)
    {kt : Str × Str} (hkt : kt ∈ bodyTable) (line : Str)
    (h : '-' ∈ kt.1 ∨ NoClassToken ord line) :
    keyOccurs kt.1 true (convertAttributesInLine ord line) = false := by
  unfold convertAttributesInLine
  show keyOccurs kt.1 true
    (replaceGeneric (findAll kebabAt (replaceKnown ord line)) (replaceKnown ord line)) = false
  rw [replaceGeneric_eq_foldl]
  apply foldl_genericStep_keyOccurs (bodyTable_plain kt hkt).1 _ (findAll_kebab_shape _) _ true
    _ (replaceKnown_keyOccurs hord hkt line)
  intro x hx e
  rcases h with h | h
  · exact convertKebabToCamel_no_hyphen x (e ▸ h)
  · rcases bodyTable_hyphen_or_class kt hkt with h2 | h2
    · exact convertKebabToCamel_no_hyphen x (e ▸ h2)
    · exact h x hx (e.trans h2)

/-- Applied to a line it has returned, `convertAttributesInLine` changes
nothing, provided no match of the generic pattern was converted to `class`. -/
theorem convertAttributesInLine_fixed {ord1 ord2 : Table} (h1 : ord1.Perm bodyTable)
    (h2 : ord2.Perm bodyTable) (line : Str) (hc : NoClassToken ord1 line) :
    convertAttributesInLine ord2 (convertAttributesInLine ord1 line)
      = convertAttributesInLine ord1 line := by
  have hk : replaceKnown ord2 (convertAttributesInLine ord1 line)
      = convertAttributesInLine ord1 line := by
    apply replaceKnown_of_not_keyOccurs
    intro kt hkt
    exact convertAttributesInLine_keyOccurs h1 (h2.subset hkt) line (Or.inr hc)
  have e : convertAttributesInLine ord2 (convertAttributesInLine ord1 line)
      = replaceGeneric (findAll kebabAt (replaceKnown ord2 (convertAttributesInLine ord1 line)))
          (replaceKnown ord2 (convertAttributesInLine ord1 line)) := rfl
  rw [e, hk]
  exact replaceGeneric_fixed (replaceKnown ord1 line)


/-! ## Trimmed lines stay trimmed -/

theorem lastSat_cons_ne (Q : Char → Bool) (c : Char) {cs : Str} (h : cs ≠ []) :
    lastSat Q (c :: cs) = lastSat Q cs := by
  cases cs with
  | nil => exact absurd rfl h
  | cons d ds => rfl

theorem lastSat_append_ne (Q : Char → Bool) (w : Str) {y : Str} (h : y ≠ []) :
    lastSat Q (w ++ y) = lastSat Q y := by
  induction w with
  | nil => rfl
  | cons d w ih =>
    rw [List.cons_append, lastSat_cons_ne Q d (by simp [h]), ih]

theorem lastSat_tail {Q : Char → Bool} {c : Char} {cs : Str} (h : lastSat Q (c :: cs) = true) :
    lastSat Q cs = true := by
  cases cs with
  | nil => rfl
  | cons d ds => exact h

theorem headSat_append_ne (Q : Char → Bool) {w : Str} (h : w ≠ []) (y : Str) :
    headSat Q (w ++ y) = headSat Q w := by
  cases w with
  | nil => exact absurd rfl h
  | cons d w => rfl

theorem headSat_reverse {Q : Char → Bool} {s : Str} (h : lastSat Q s = true) :
    headSat Q s.reverse = true := by
  induction s with
  | nil => rfl
  | cons c cs ih =>
    rw [List.reverse_cons]
    cases cs with
    | nil => exact h
    | cons d ds =>
      rw [headSat_append_ne Q (by simp)]
      exact ih h

theorem lastSat_reverse {Q : Char → Bool} {s : Str} (h : headSat Q s = true) :
    lastSat Q s.reverse = true := by
  cases s with
  | nil => rfl
  | cons c cs =>
    rw [List.reverse_cons, lastSat_append_ne Q _ (by simp)]
    exact h

theorem headSat_dropWhile (s : Str) : headSat notSpace (s.dropWhile isSpace) = true := by
  induction s with
  | nil => rfl
  | cons c cs ih =>
    by_cases hc : isSpace c = true
    · rw [List.dropWhile_cons_of_pos hc]
      exact ih
    · rw [List.dropWhile_cons_of_neg hc]
      simpa [headSat, notSpace] using hc

theorem lastSat_dropWhile {Q : Char → Bool} (p : Char → Bool) {s : Str}
    (h : lastSat Q s = true) : lastSat Q (s.dropWhile p) = true := by
  by_cases hd : s.dropWhile p = []
  · rw [hd]; rfl
  · rw [← List.takeWhile_append_dropWhile p s, lastSat_append_ne Q _ hd] at h
    exact h

theorem dropWhile_of_headSat {s : Str} (h : headSat notSpace s = true) :
    s.dropWhile isSpace = s := by
  cases s with
  | nil => rfl
  | cons c cs =>
    have hc : ¬ isSpace c = true := by simpa [headSat, notSpace] using h
    rw [List.dropWhile_cons_of_neg hc]

/-- A text without white space at its ends is a fixed point of
`strings.TrimSpace`. -/
theorem trimSpace_fixed {s : Str} (h1 : headSat notSpace s = true)
    (h2 : lastSat notSpace s = true) : trimSpace s = s := by
  rw [trimSpace, dropWhile_of_headSat h1, dropWhile_of_headSat (headSat_reverse h2),
    List.reverse_reverse]

/-- The result of `strings.TrimSpace` has no white space at its ends. -/
theorem trimSpace_ends (l : Str) :
    headSat notSpace (trimSpace l) = true ∧ lastSat notSpace (trimSpace l) = true := by
  unfold trimSpace
  constructor
  · apply headSat_reverse
    apply lastSat_dropWhile
    exact lastSat_reverse (headSat_dropWhile l)
  · exact lastSat_reverse (headSat_dropWhile _)

/-- A replacement whose expansions are non-empty and end well keeps the end
of the text well. -/
theorem replaceAllAux_lastSat {m : Bool → Str → Option (Nat × Str)} {Q : Char → Bool}
    (hm : ∀ st l n r, m st l = some (n, r) → r ≠ [] ∧ lastSat Q r = true)
    (st : Bool) (n : Nat) (l : Str) (hl : lastSat Q l = true) :
    lastSat Q (replaceAllAux m st n l) = true := by
  induction l generalizing st n with
  | nil => rw [replaceAllAux_nil]; rfl
  | cons c cs ih =>
    have hcs : lastSat Q cs = true := lastSat_tail hl
    cases n with
    | succ k => exact ih false k hcs
    | zero =>
      cases hq : m st (c :: cs) with
      | none =>
        rw [replaceAllAux_miss hq]
        cases cs with
        | nil => exact hl
        | cons d ds =>
          rw [lastSat_cons_ne Q c
            (replaceAllAux_ne_nil (fun st l n r h => (hm st l n r h).1) false (by simp))]
          exact ih false 0 hcs
      | some x =>
        obtain ⟨k, r⟩ := x
        have e : replaceAllAux m st 0 (c :: cs) = r ++ replaceAllAux m false (k - 1) cs := by
          simp [replaceAllAux, hq]
        rw [e]
        by_cases hr : replaceAllAux m false (k - 1) cs = []
        · rw [hr, List.append_nil]
          exact (hm st _ k r hq).2
        · rw [lastSat_append_ne Q r hr]
          exact ih false (k - 1) hcs

theorem notSpace_eqSign : notSpace '=' = true := by decide

theorem lastSat_keyText (w : Str) : lastSat notSpace (w ++ ['=']) = true := by
  rw [lastSat_append_ne notSpace w (by simp)]
  exact notSpace_eqSign

theorem keyAt_expansion {k t : Str} {st : Bool} {l : Str} {n : Nat} {r : Str}
    (h : keyAt k t st l = some (n, r)) : r ≠ [] ∧ lastSat notSpace r = true := by
  rcases keyAt_some h with rfl | ⟨c, rest, _, rfl⟩
  · exact ⟨by simp, lastSat_keyText t⟩
  · refine ⟨by simp, ?_⟩
    rw [lastSat_cons_ne notSpace c (by simp)]
    exact lastSat_keyText t

theorem litAt_spaced_expansion {u v : Str} {st : Bool} {l : Str} {n : Nat} {r : Str}
    (h : litAt (spaced u) (spaced v) st l = some (n, r)) :
    r ≠ [] ∧ lastSat notSpace r = true := by
  rw [litAt_some h]
  refine ⟨by simp [spaced], ?_⟩
  rw [spaced, lastSat_cons_ne notSpace _ (by simp)]
  exact lastSat_keyText v

theorem replaceKeyFrom_headSat (k : Str) {t : Str} (ht : ∀ d ∈ t, notSpace d = true)
    (st : Bool) {l : Str} (h : headSat notSpace l = true) :
    headSat notSpace (replaceKeyFrom k t st l) = true := by
  cases l with
  | nil => rfl
  | cons c cs =>
    cases hq : keyAt k t st (c :: cs) with
    | none => rw [replaceKeyFrom_miss hq]; exact h
    | some x =>
      obtain ⟨n, r⟩ := x
      rw [replaceKeyFrom, replaceAllAux_hit hq]
      rcases keyAt_some hq with rfl | ⟨d, rest, e, rfl⟩
      · rw [headSat_append_ne notSpace (by simp)]
        cases t with
        | nil => exact notSpace_eqSign
        | cons d t => exact ht d (List.mem_cons_self _ _)
      · simp only [List.cons.injEq] at e
        rw [← e.1]
        exact h

theorem notSpace_ne_blank {c : Char} (h : notSpace c = true) : c ≠ ' ' := by
  intro e
  rw [e] at h
  revert h
  decide

theorem replaceSpacedFrom_headSat (u v : Str) (st : Bool) {l : Str}
    (h : headSat notSpace l = true) : headSat notSpace (replaceSpacedFrom u v st l) = true := by
  cases l with
  | nil => rfl
  | cons c cs =>
    have hmiss : ¬ spaced u <+: c :: cs := fun hp =>
      notSpace_ne_blank h (spaced_prefix_cons.1 hp).1
    rw [replaceSpacedFrom_miss hmiss]
    exact h

theorem bodyTable_targets_notSpace : ∀ kt ∈ bodyTable, ∀ d ∈ kt.2, notSpace d = true := by
  decide

/-- `convertAttributesInLine` puts no white space at the ends of a line that
has none there. -/
theorem convertAttributesInLine_ends {ord : Table} (hord : ∀ kt ∈ ord, kt ∈ bodyTable)
    {line : Str} (h1 : headSat notSpace line = true) (h2 : lastSat notSpace line = true) :
    headSat notSpace (convertAttributesInLine ord line) = true
    ∧ lastSat notSpace (convertAttributesInLine ord line) = true := by
  have hk : headSat notSpace (replaceKnown ord line) = true
      ∧ lastSat notSpace (replaceKnown ord line) = true := by
    unfold replaceKnown
    induction ord generalizing line with
    | nil => exact ⟨h1, h2⟩
    | cons kt ord ih =>
      rw [List.foldl_cons]
      apply ih (fun kt2 hk2 => hord kt2 (List.mem_cons_of_mem _ hk2))
      · exact replaceKeyFrom_headSat kt.1
          (bodyTable_targets_notSpace kt (hord kt (List.mem_cons_self _ _))) true h1
      · exact replaceAllAux_lastSat (fun _ _ _ _ h => keyAt_expansion h) true 0 line h2
  have hg : ∀ (found : List Str) (s : Str), headSat notSpace s = true →
      lastSat notSpace s = true →
      headSat notSpace (found.foldl genericStep s) = true
      ∧ lastSat notSpace (found.foldl genericStep s) = true := by
    intro found
    induction found with
    | nil => intro s a b; exact ⟨a, b⟩
    | cons x found ih =>
      intro s a b
      rw [List.foldl_cons]
      cases ha : alreadyHandled x with
      | true => rw [genericStep_handled ha]; exact ih s a b
      | false =>
        rw [genericStep_replace ha]
        exact ih _ (replaceSpacedFrom_headSat _ _ true a)
          (replaceAllAux_lastSat (fun _ _ _ _ h => litAt_spaced_expansion h) true 0 s b)
  exact hg _ _ hk.1 hk.2

theorem cleanLines_fixed (ords : Nat → Table) (i : Nat) (ls : List Str)
    (h : ∀ x ∈ ls, trimSpace x = x ∧ x ≠ [] ∧ ∀ j, convertAttributesInLine (ords j) x = x) :
    cleanLines ords i ls = ls := by
  induction ls generalizing i with
  | nil => rfl
  | cons x ls ih =>
    obtain ⟨hx1, hx2, hx3⟩ := h x (List.mem_cons_self _ _)
    rw [cleanLines, hx1, if_pos hx2, hx3 i,
      ih (i + 1) (fun y hy => h y (List.mem_cons_of_mem _ hy))]


/-! ## The scenario of the specification -/

theorem icon_attrs : parseAttributes (svgAttrsOf iconInput)
    = [("viewBox".toList, "\"0 0 24 24\"".toList)] := by
  decide

theorem icon_body : cleanSvgBody (fun _ => bodyTable) (svgBodyOf iconInput)
    = "<path strokeWidth=\"2\" fillRule=\"evenodd\"/>".toList := by
  decide

/-- C1: on the input `<svg viewBox="0 0 24 24"><path stroke-width="2"
fill-rule="evenodd"/></svg>` with the component name `Icon`, whatever the
orders in which the maps are visited, the output is the expected text: it
begins with the import line, declares the component `Icon`, its root block is
the single line `viewBox="0 0 24 24"`, its only body line holds
`strokeWidth="2"` and `fillRule="evenodd"`, neither `stroke-width` nor
`fill-rule` occurs anywhere, and the last line is
`export default React.memo(Icon);`. -/
theorem convertSvgToTsx_icon (iter : Table → Table) (ords : Nat → Table)
    (hiter : ∀ m, (iter m).Perm m) (hords : ∀ i, (ords i).Perm bodyTable) :
    convertSvgToTsx iter ords iconInput "Icon".toList = iconOutput
    ∧ "import * as React from \"react\";\n".toList <+: iconOutput
    ∧ "const Icon: React.FC<React.SVGProps<SVGElement>> = (props) => (\n".toList <:+: iconOutput
    ∧ rootLines (iter (parseAttributes (svgAttrsOf iconInput)))
        = ["    viewBox=\"0 0 24 24\"\n".toList]
    ∧ bodyLines (cleanSvgBody ords (svgBodyOf iconInput))
        = ["    <path strokeWidth=\"2\" fillRule=\"evenodd\"/>\n".toList]
    ∧ containsLit "strokeWidth=\"2\"".toList "    <path strokeWidth=\"2\" fillRule=\"evenodd\"/>\n".toList = true
    ∧ containsLit "fillRule=\"evenodd\"".toList "    <path strokeWidth=\"2\" fillRule=\"evenodd\"/>\n".toList = true
    ∧ containsLit "stroke-width".toList iconOutput = false
    ∧ containsLit "fill-rule".toList iconOutput = false
    ∧ "export default React.memo(Icon);\n".toList <:+ iconOutput := by
  have hroot : rootLines (iter (parseAttributes (svgAttrsOf iconInput)))
      = ["    viewBox=\"0 0 24 24\"\n".toList] := by
    rw [icon_attrs, iter_singleton hiter]
    decide
  have hbody : bodyLines (cleanSvgBody ords (svgBodyOf iconInput))
      = ["    <path strokeWidth=\"2\" fillRule=\"evenodd\"/>\n".toList] := by
    rw [cleanSvgBody_perm hords, icon_body]
    decide
  refine ⟨?_, by decide, by decide, hroot, hbody, by decide, by decide, by decide, by decide,
    by decide⟩
  unfold convertSvgToTsx emitAttrs emitBody
  rw [hroot, hbody]
  decide

theorem convertSvgToTsx_icon_witness :
    (∀ m : Table, (id m).Perm m)
    ∧ (∀ i : Nat, ((fun _ => bodyTable) i : Table).Perm bodyTable)
    ∧ convertSvgToTsx id (fun _ => bodyTable) iconInput "Icon".toList = iconOutput :=
  ⟨fun _ => List.Perm.refl _, fun _ => List.Perm.refl _,
    (convertSvgToTsx_icon id (fun _ => bodyTable) (fun _ => List.Perm.refl _)
      (fun _ => List.Perm.refl _)).1⟩


/-- C2: for every entry `k -> t` of the root table (27 entries) and every
quoted value `v`, `parseAttributes` applied to the text `k=v` returns the
mapping with the single entry `t -> v`.  The lookup is exact: a name is
mapped through the table to `t` only when the pair is literally an entry, and
a name that differs from a key in case alone is not looked up
(`STROKE-WIDTH` goes through the generic conversion instead).  The targets of
`stroke-width`, `xlink:href`, `class`, `xml:space` and `vector-effect` are
`strokeWidth`, `xlinkHref`, `className`, `xmlSpace` and `vectorEffect`. -/
theorem parseAttributes_table_key (k t v : Str) (hk : (k, t) ∈ rootTable) (hv : IsQuoted v) :
    parseAttributes (k ++ '=' :: v) = [(t, v)]
    ∧ rootTable.length = 27
    ∧ (∀ n m, rootTable.lookup n = some m ↔ (n, m) ∈ rootTable)
    ∧ parseAttributes ("STROKE-WIDTH".toList ++ '=' :: v) = [("STROKEWIDTH".toList, v)]
    ∧ rootTable.lookup "stroke-width".toList = some "strokeWidth".toList
    ∧ rootTable.lookup "xlink:href".toList = some "xlinkHref".toList
    ∧ rootTable.lookup "class".toList = some "className".toList
    ∧ rootTable.lookup "xml:space".toList = some "xmlSpace".toList
    ∧ rootTable.lookup "vector-effect".toList = some "vectorEffect".toList := by
  refine ⟨?_, rfl, ?_, ?_, by decide, by decide, by decide, by decide, by decide⟩
  · rw [parseAttributes_single (key_isName hk) hv, mapAttributeName_key hk]
  · exact lookup_iff_mem_of_nodup rootTable_nodup
  · rw [parseAttributes_single ⟨by decide, by decide⟩ hv]
    have : mapAttributeName "STROKE-WIDTH".toList = "STROKEWIDTH".toList := by decide
    rw [this]


theorem parseAttributes_table_key_witness :
    ("stroke-width".toList, "strokeWidth".toList) ∈ rootTable
    ∧ IsQuoted "\"2\"".toList
    ∧ parseAttributes ("stroke-width".toList ++ '=' :: "\"2\"".toList)
        = [("strokeWidth".toList, "\"2\"".toList)] :=
  ⟨by decide, isQuoted_example,
    (parseAttributes_table_key "stroke-width".toList "strokeWidth".toList "\"2\"".toList
      (by decide) isQuoted_example).1⟩


/-- C3: for every attribute name that contains a hyphen and is not a key of
the root table, the name rewriting of `parseAttributes` and
`convertKebabToCamel` both return the conversion the specification words
(split on `-`, first segment kept, later non-empty segments capitalised,
empty segments dropped, concatenation), and `parseAttributes` stores the
value under that name; `data-foo-bar` gives `dataFooBar` and
`data-custom-value` gives `dataCustomValue`. -/
theorem generic_conversion (name : Str) (hname : IsName name) (hh : '-' ∈ name)
    (hkey : ∀ t, (name, t) ∉ rootTable) :
    mapAttributeName name = kebabToCamelSpec name
    ∧ convertKebabToCamel name = kebabToCamelSpec name
    ∧ (∀ v, IsQuoted v → parseAttributes (name ++ '=' :: v) = [(kebabToCamelSpec name, v)])
    ∧ mapAttributeName "data-foo-bar".toList = "dataFooBar".toList
    ∧ convertKebabToCamel "data-foo-bar".toList = "dataFooBar".toList
    ∧ mapAttributeName "data-custom-value".toList = "dataCustomValue".toList
    ∧ convertKebabToCamel "data-custom-value".toList = "dataCustomValue".toList := by
  refine ⟨mapAttributeName_generic hh hkey, convertKebabToCamel_eq_spec name, ?_,
    by decide, by decide, by decide, by decide⟩
  intro v hv
  rw [parseAttributes_single hname hv, mapAttributeName_generic hh hkey]

theorem dataFooBar_not_key : ∀ t, ("data-foo-bar".toList, t) ∉ rootTable := by
  intro t h
  have h2 : "data-foo-bar".toList ∈ rootTable.map Prod.fst := List.mem_map_of_mem Prod.fst h
  revert h2
  decide

theorem generic_conversion_witness :
    IsName "data-foo-bar".toList
    ∧ '-' ∈ "data-foo-bar".toList
    ∧ (∀ t, ("data-foo-bar".toList, t) ∉ rootTable)
    ∧ mapAttributeName "data-foo-bar".toList = kebabToCamelSpec "data-foo-bar".toList
    ∧ kebabToCamelSpec "data-foo-bar".toList = "dataFooBar".toList :=
  ⟨⟨by decide, by decide⟩, by decide, dataFooBar_not_key,
    (generic_conversion "data-foo-bar".toList ⟨by decide, by decide⟩ (by decide)
      dataFooBar_not_key).1,
    by decide⟩


/-- C4, refuted as stated: on the root tag `<svg stroke-width="1"
strokeWidth="2">` both attributes are mapped to `strokeWidth`, and for no
visiting order does the root block hold the line `strokeWidth="1"` of the
first one; on the root tag `<svg xmlns-="a">` the attribute `xmlns-` is not
named `xmlns`, but it is mapped to `xmlns`, and the root block has no line at
all for it. -/
theorem root_round_trip_counterexample :
    svgAttrsOf "<svg stroke-width=\"1\" strokeWidth=\"2\"></svg>".toList
      = " stroke-width=\"1\" strokeWidth=\"2\"".toList
    ∧ mapAttributeName "stroke-width".toList = "strokeWidth".toList
    ∧ parseAttributes (svgAttrsOf "<svg stroke-width=\"1\" strokeWidth=\"2\"></svg>".toList)
        = [("strokeWidth".toList, "\"2\"".toList)]
    ∧ (¬ ∃ iter : Table → Table, (∀ m, (iter m).Perm m) ∧
          "    strokeWidth=\"1\"\n".toList ∈ rootLines (iter (parseAttributes
            (svgAttrsOf "<svg stroke-width=\"1\" strokeWidth=\"2\"></svg>".toList))))
    ∧ svgAttrsOf "<svg xmlns-=\"a\"></svg>".toList = " xmlns-=\"a\"".toList
    ∧ "xmlns-".toList ≠ "xmlns".toList
    ∧ mapAttributeName "xmlns-".toList = "xmlns".toList
    ∧ parseAttributes (svgAttrsOf "<svg xmlns-=\"a\"></svg>".toList)
        = [("xmlns".toList, "\"a\"".toList)]
    ∧ (¬ ∃ iter : Table → Table, (∀ m, (iter m).Perm m) ∧
          rootLines (iter (parseAttributes (svgAttrsOf "<svg xmlns-=\"a\"></svg>".toList)))
            ≠ []) := by
  have p1 : parseAttributes (svgAttrsOf "<svg stroke-width=\"1\" strokeWidth=\"2\"></svg>".toList)
      = [("strokeWidth".toList, "\"2\"".toList)] := by decide
  have p2 : parseAttributes (svgAttrsOf "<svg xmlns-=\"a\"></svg>".toList)
      = [("xmlns".toList, "\"a\"".toList)] := by decide
  refine ⟨by decide, by decide, p1, ?_, by decide, by decide, by decide, p2, ?_⟩
  · rintro ⟨iter, hiter, hmem⟩
    rw [p1, iter_singleton hiter] at hmem
    revert hmem
    decide
  · rintro ⟨iter, hiter, hne⟩
    rw [p2, iter_singleton hiter] at hne
    revert hne
    decide

/-- C4, amended: when the attribute text of the root tag is a sequence of
attributes (each a name token, `=` and a quoted value, behind text without
name characters), then for every attribute `a` of the sequence whose mapped
name is not `xmlns` and is not the mapped name of a later attribute, and for
every visiting order of the map, exactly one line of the root block starts
with the mapped name and `=`, and this line is the mapped name, `=` and the
value of `a` with its quotes, unchanged; the root block is the part of the
output between the namespace line and the props-spread line. -/
theorem root_round_trip (iter : Table → Table) (hiter : ∀ m, (iter m).Perm m)
    (l1 l2 : List Attr) (a : Attr) (tail : Str)
    (hvalid : ∀ b ∈ l1 ++ a :: l2, b.Valid) (htail : ∀ c ∈ tail, isNameChar c = false)
    (svgContent : Str) (hsvg : svgAttrsOf svgContent = attrsText (l1 ++ a :: l2) ++ tail)
    (hxmlns : mapAttributeName a.name ≠ "xmlns".toList)
    (hlast : ∀ b ∈ l2, mapAttributeName b.name ≠ mapAttributeName a.name) :
    (rootLines (iter (parseAttributes (svgAttrsOf svgContent)))).filter
        (fun ln => ("    ".toList ++ mapAttributeName a.name ++ ['=']).isPrefixOf ln)
      = ["    ".toList ++ mapAttributeName a.name ++ ['='] ++ a.value ++ ['\n']]
    ∧ ∀ (ords : Nat → Table) (c : Str), convertSvgToTsx iter ords svgContent c
        = header c ++ (rootLines (iter (parseAttributes (svgAttrsOf svgContent)))).flatten
          ++ propsLines ++ emitBody (cleanSvgBody ords (svgBodyOf svgContent)) ++ footer c := by
  refine ⟨?_, fun _ _ => rfl⟩
  have hpairs : (l1 ++ a :: l2).map (fun b => (b.name, b.value))
      = l1.map (fun b => (b.name, b.value)) ++ (a.name, a.value)
          :: l2.map (fun b => (b.name, b.value)) := by
    simp
  have hparse := parseAttributes_attrsText (l1 ++ a :: l2) hvalid htail
  rw [← hsvg, hpairs] at hparse
  have hnd : ((parseAttributes (svgAttrsOf svgContent)).map Prod.fst).Nodup := by
    rw [hparse]
    exact foldl_parseStep_nodup _ (by simp)
  have hlook : (parseAttributes (svgAttrsOf svgContent)).lookup (mapAttributeName a.name)
      = some a.value := by
    rw [hparse]
    apply foldl_parseStep_lookup_last _ _ (a.name, a.value)
    intro x hx
    obtain ⟨b, hb, rfl⟩ := List.mem_map.1 hx
    exact hlast b hb
  have hmem : (mapAttributeName a.name, a.value) ∈ parseAttributes (svgAttrsOf svgContent) :=
    (lookup_iff_mem_of_nodup hnd _ _).1 hlook
  have hperm := hiter (parseAttributes (svgAttrsOf svgContent))
  have hnd2 : (((iter (parseAttributes (svgAttrsOf svgContent))).filter
      fun kv => kv.1 ≠ "xmlns".toList).map Prod.fst).Nodup :=
    ((hperm.map Prod.fst).nodup_iff.2 hnd).sublist ((List.filter_sublist _).map Prod.fst)
  have hmem2 : (mapAttributeName a.name, a.value) ∈
      (iter (parseAttributes (svgAttrsOf svgContent))).filter fun kv => kv.1 ≠ "xmlns".toList := by
    rw [List.mem_filter]
    exact ⟨hperm.mem_iff.2 hmem, by simpa using hxmlns⟩
  have hkeys : ∀ kv ∈ (iter (parseAttributes (svgAttrsOf svgContent))).filter
      (fun kv => kv.1 ≠ "xmlns".toList), ∀ c ∈ kv.1, c ≠ '=' := by
    intro kv hkv
    have h1 : kv ∈ parseAttributes (svgAttrsOf svgContent) :=
      hperm.mem_iff.1 (List.mem_filter.1 hkv).1
    rw [hparse] at h1
    rcases foldl_parseStep_mem _ h1 with h2 | ⟨nv, hnv, hk⟩
    · cases h2
    · rw [hk, ← hpairs] at *
      obtain ⟨b, hb, rfl⟩ := List.mem_map.1 hnv
      exact mapAttributeName_eqSign (hvalid b hb).2.1
  have hname : ∀ c ∈ mapAttributeName a.name, c ≠ '=' :=
    mapAttributeName_eqSign (hvalid a (by simp)).2.1
  rw [rootLines, List.filter_map]
  have hcongr : ((iter (parseAttributes (svgAttrsOf svgContent))).filter
        fun kv => kv.1 ≠ "xmlns".toList).filter
        ((fun ln => ("    ".toList ++ mapAttributeName a.name ++ ['=']).isPrefixOf ln) ∘ attrLine)
      = ((iter (parseAttributes (svgAttrsOf svgContent))).filter
        fun kv => kv.1 ≠ "xmlns".toList).filter
        (fun kv => decide (kv.1 = mapAttributeName a.name)) := by
    apply List.filter_congr
    intro kv hkv
    exact attrLine_prefix kv.2 (hkeys kv hkv) hname
  rw [hcongr, filter_key_of_nodup hnd2 hmem2]
  rfl

theorem root_round_trip_example_valid :
    ∀ b ∈ [Attr.mk " ".toList "stroke-width".toList "\"1\"".toList]
        ++ Attr.mk "\n  ".toList "viewBox".toList "\"0 0 24 24\"".toList
          :: [Attr.mk " ".toList "class".toList "\x27c\x27".toList],
      b.Valid := by
  intro b hb
  simp only [List.singleton_append, List.mem_cons, List.mem_singleton, List.not_mem_nil,
    or_false] at hb
  rcases hb with rfl | rfl | rfl
  · exact ⟨by decide, ⟨by decide, by decide⟩, dquote, ['1'], Or.inl rfl, by decide, by decide⟩
  · exact ⟨by decide, ⟨by decide, by decide⟩, dquote, "0 0 24 24".toList, Or.inl rfl,
      by decide, by decide⟩
  · exact ⟨by decide, ⟨by decide, by decide⟩, squote, ['c'], Or.inr rfl, by decide, by decide⟩

theorem root_round_trip_witness :
    (∀ m : Table, (id m).Perm m)
    ∧ (∀ b ∈ [Attr.mk " ".toList "stroke-width".toList "\"1\"".toList]
          ++ Attr.mk "\n  ".toList "viewBox".toList "\"0 0 24 24\"".toList
            :: [Attr.mk " ".toList "class".toList "\x27c\x27".toList], b.Valid)
    ∧ (∀ c ∈ " /".toList, isNameChar c = false)
    ∧ svgAttrsOf "<svg stroke-width=\"1\"\n  viewBox=\"0 0 24 24\" class=\x27c\x27 /><g/></svg>".toList
        = attrsText ([Attr.mk " ".toList "stroke-width".toList "\"1\"".toList]
            ++ Attr.mk "\n  ".toList "viewBox".toList "\"0 0 24 24\"".toList
              :: [Attr.mk " ".toList "class".toList "\x27c\x27".toList]) ++ " /".toList
    ∧ mapAttributeName "viewBox".toList ≠ "xmlns".toList
    ∧ (∀ b ∈ [Attr.mk " ".toList "class".toList "\x27c\x27".toList],
        mapAttributeName b.name ≠ mapAttributeName "viewBox".toList)
    ∧ (rootLines (id (parseAttributes (svgAttrsOf
          "<svg stroke-width=\"1\"\n  viewBox=\"0 0 24 24\" class=\x27c\x27 /><g/></svg>".toList)))).filter
        (fun ln => ("    ".toList ++ mapAttributeName "viewBox".toList ++ ['=']).isPrefixOf ln)
      = ["    ".toList ++ mapAttributeName "viewBox".toList ++ ['=']
          ++ "\"0 0 24 24\"".toList ++ ['\n']] :=
  ⟨fun _ => List.Perm.refl _, root_round_trip_example_valid, by decide, by decide, by decide,
    by decide,
    (root_round_trip id (fun _ => List.Perm.refl _)
      [Attr.mk " ".toList "stroke-width".toList "\"1\"".toList]
      [Attr.mk " ".toList "class".toList "\x27c\x27".toList]
      (Attr.mk "\n  ".toList "viewBox".toList "\"0 0 24 24\"".toList) " /".toList
      root_round_trip_example_valid (by decide)
      "<svg stroke-width=\"1\"\n  viewBox=\"0 0 24 24\" class=\x27c\x27 /><g/></svg>".toList
      (by decide) (by decide) (by decide)).1⟩


/-- C5 (behaviour of the code on `xlink:href`): on the root tag
`parseAttributes` renames the attribute `xlink:href` to `xlinkHref`, while
`cleanSvgBody` returns the body line `<path xlink:href="#a"/>` unchanged,
whatever the table order: the body table lacks the entry and the generic
pattern needs a hyphen. -/
theorem xlink_href_root_and_body (ords : Nat → Table) (hords : ∀ i, (ords i).Perm bodyTable) :
    parseAttributes "xlink:href=\"#a\"".toList = [("xlinkHref".toList, "\"#a\"".toList)]
    ∧ cleanSvgBody ords "<path xlink:href=\"#a\"/>".toList = "<path xlink:href=\"#a\"/>".toList
    ∧ cleanSvgBody ords "<path xlink:href=\"#a\"/>".toList ≠ "<path xlinkHref=\"#a\"/>".toList := by
  have h : cleanSvgBody ords "<path xlink:href=\"#a\"/>".toList
      = "<path xlink:href=\"#a\"/>".toList := by
    rw [cleanSvgBody_perm hords]
    decide
  refine ⟨by decide, h, ?_⟩
  rw [h]
  decide

theorem xlink_href_root_and_body_witness :
    (∀ i : Nat, ((fun _ => bodyTable) i : Table).Perm bodyTable)
    ∧ cleanSvgBody (fun _ => bodyTable) "<path xlink:href=\"#a\"/>".toList
        = "<path xlink:href=\"#a\"/>".toList :=
  ⟨fun _ => List.Perm.refl _,
    (xlink_href_root_and_body (fun _ => bodyTable) (fun _ => List.Perm.refl _)).2.1⟩


/-- C6 (behaviour of the code on a token at the start of a line): whatever
the table order, `cleanSvgBody` returns `not-stroke-width="x"` for the line
`  not-stroke-width="x"`, not `notStrokeWidth="x"`: the generic pattern
demands a white-space character in front of the token, which a trimmed line
never has at its start.  A token behind a tab is found by the pattern but not
replaced, since the replacement looks for a space; a token behind a space is
rewritten. -/
theorem generic_rewrite_needs_space (ords : Nat → Table)
    (hords : ∀ i, (ords i).Perm bodyTable) :
    cleanSvgBody ords "  not-stroke-width=\"x\"".toList = "not-stroke-width=\"x\"".toList
    ∧ cleanSvgBody ords "  not-stroke-width=\"x\"".toList ≠ "notStrokeWidth=\"x\"".toList
    ∧ cleanSvgBody ords "<g\tdata-foo=\"1\">".toList = "<g\tdata-foo=\"1\">".toList
    ∧ cleanSvgBody ords "<g data-foo=\"1\">".toList = "<g dataFoo=\"1\">".toList := by
  rw [cleanSvgBody_perm hords, cleanSvgBody_perm hords, cleanSvgBody_perm hords]
  decide

theorem generic_rewrite_needs_space_witness :
    (∀ i : Nat, ((fun _ => bodyTable) i : Table).Perm bodyTable)
    ∧ cleanSvgBody (fun _ => bodyTable) "  not-stroke-width=\"x\"".toList
        = "not-stroke-width=\"x\"".toList :=
  ⟨fun _ => List.Perm.refl _,
    (generic_rewrite_needs_space (fun _ => bodyTable) (fun _ => List.Perm.refl _)).1⟩


/-- C7: for every entry `k -> t` of the body table and every non-empty prefix
`c` made of characters that are neither white space nor `=`,
`convertAttributesInLine` leaves the line `c` followed by `k="x"` as it is,
whatever the table order; so the embedded `k` is not rewritten to `t`, and
the result for `not-stroke-width="x"` does not contain `strokeWidth`. -/
theorem embedded_key_untouched (ord : Table) (hord : ord.Perm bodyTable) (k t : Str)
    (hk : (k, t) ∈ bodyTable) (c : Str) (hne : c ≠ [])
    (hc : ∀ ch ∈ c, isReSpace ch = false ∧ ch ≠ '=') :
    convertAttributesInLine ord (c ++ k ++ "=\"x\"".toList) = c ++ k ++ "=\"x\"".toList
    ∧ convertAttributesInLine ord (c ++ k ++ "=\"x\"".toList) ≠ c ++ t ++ "=\"x\"".toList
    ∧ containsLit "strokeWidth".toList
        (convertAttributesInLine ord "not-stroke-width=\"x\"".toList) = false := by
  have hkp := bodyTable_plain (k, t) hk
  have main : ∀ (c : Str), c ≠ [] → (∀ ch ∈ c, isReSpace ch = false ∧ ch ≠ '=') →
      ∀ k t, (k, t) ∈ bodyTable →
      convertAttributesInLine ord (c ++ k ++ "=\"x\"".toList) = c ++ k ++ "=\"x\"".toList := by
    intro c hne hc k t hk
    have hkp := bodyTable_plain (k, t) hk
    apply convertAttributesInLine_noSpace
    · intro ch hch
      rcases List.mem_append.1 hch with h | h
      · rcases List.mem_append.1 h with h | h
        · exact (hc ch h).1
        · exact plain_space hkp.1 ch h
      · have hx : ∀ d ∈ "=\"x\"".toList, isReSpace d = false := by decide
        exact hx ch h
    · intro kt hkt hp
      have hkt2 := hord.subset hkt
      have hktp := bodyTable_plain kt hkt2
      have hck : ∀ ch ∈ c ++ k, ch ≠ '=' := by
        intro ch hch
        rcases List.mem_append.1 hch with h | h
        · exact (hc ch h).2
        · exact plain_ne_eq hkp.1 ch h
      have e : c ++ k ++ "=\"x\"".toList = ((c ++ k) ++ ['=']) ++ "\"x\"".toList := by
        simp
      have hu : kt.1 = c ++ k :=
        key_prefix_unique (plain_ne_eq hktp.1) hck hp ⟨"\"x\"".toList, e.symm⟩
      have hlen : k.length < kt.1.length := by
        rw [hu, List.length_append]
        have : 0 < c.length := List.length_pos.2 hne
        omega
      apply bodyTable_no_suffix (k, t) hk kt hkt2 hlen
      rw [hu]
      simp
  refine ⟨main c hne hc k t hk, ?_, ?_⟩
  · rw [main c hne hc k t hk]
    intro h
    have h2 : k = t := by
      have := List.append_cancel_left (List.append_cancel_right h)
      exact this
    exact bodyTable_key_ne_target (k, t) hk h2
  · have h := main "not-".toList (by decide) (by decide) "stroke-width".toList
      "strokeWidth".toList (by decide)
    have e : "not-".toList ++ "stroke-width".toList ++ "=\"x\"".toList
        = "not-stroke-width=\"x\"".toList := by decide
    rw [e] at h
    rw [h]
    decide

theorem embedded_key_untouched_witness :
    bodyTable.Perm bodyTable
    ∧ ("stroke-width".toList, "strokeWidth".toList) ∈ bodyTable
    ∧ "not-".toList ≠ []
    ∧ (∀ ch ∈ "not-".toList, isReSpace ch = false ∧ ch ≠ '=')
    ∧ convertAttributesInLine bodyTable ("not-".toList ++ "stroke-width".toList ++ "=\"x\"".toList)
        = "not-".toList ++ "stroke-width".toList ++ "=\"x\"".toList :=
  ⟨List.Perm.refl _, by decide, by decide, by decide,
    (embedded_key_untouched bodyTable (List.Perm.refl _) "stroke-width".toList
      "strokeWidth".toList (by decide) "not-".toList (by decide) (by decide)).1⟩


/-- C8: for every body text, whatever the table orders, the number of lines
of `cleanSvgBody body` (the empty result counted as zero lines) is the number
of lines of `body`, split on newline, whose trimmed content is not empty; the
blank lines account for the rest of the lines of `body`. -/
theorem cleanSvgBody_lineCount (ords : Nat → Table) (hords : ∀ i, (ords i).Perm bodyTable)
    (body : Str) :
    lineCount (cleanSvgBody ords body)
      = ((splitOn '\n' body).filter fun l => trimSpace l ≠ []).length
    ∧ lineCount (cleanSvgBody ords body)
        + ((splitOn '\n' body).filter fun l => trimSpace l = []).length
      = (splitOn '\n' body).length := by
  have main : lineCount (cleanSvgBody ords body)
      = ((splitOn '\n' body).filter fun l => trimSpace l ≠ []).length := by
    rw [← cleanLines_length ords 0]
    by_cases hne : cleanLines ords 0 (splitOn '\n' body) = []
    · have : cleanSvgBody ords body = [] := by
        rw [cleanSvgBody, hne]; rfl
      rw [lineCount, if_pos this, hne]
      rfl
    · obtain ⟨h1, h2⟩ := splitOn_cleanSvgBody (fun i kt h => (hords i).subset h) body hne
      rw [lineCount, if_neg h1, h2]
  refine ⟨main, ?_⟩
  rw [main]
  have h := @List.length_eq_length_filter_add Str (splitOn '\n' body)
    (fun l => decide (trimSpace l ≠ []))
  have e : (fun l : Str => !decide (trimSpace l ≠ [])) = fun l => decide (trimSpace l = []) := by
    funext l
    by_cases hl : trimSpace l = [] <;> simp [hl]
  rw [e] at h
  exact h.symm

theorem cleanSvgBody_lineCount_witness :
    (∀ i : Nat, ((fun _ => bodyTable) i : Table).Perm bodyTable)
    ∧ lineCount (cleanSvgBody (fun _ => bodyTable) "<g>\n\n  <path/>\n \n</g>\n".toList) = 3 :=
  ⟨fun _ => List.Perm.refl _,
    (cleanSvgBody_lineCount (fun _ => bodyTable) (fun _ => List.Perm.refl _)
      "<g>\n\n  <path/>\n \n</g>\n".toList).1.trans (by decide)⟩


/-- C9 (behaviour of the code on a long line): for the document whose body is
one line of 100000 letters, `cleanSvgBody` keeps the line, but the scanner
loop of `convertSvgToTsx` writes no body line at all: the output is the
scaffold without a body, because `bufio.Scanner` stops at a line that does
not fit into its buffer and the source never looks at `scanner.Err()`. -/
theorem long_line_dropped (iter : Table → Table) (ords : Nat → Table)
    (hiter : ∀ m, (iter m).Perm m) :
    cleanSvgBody ords (svgBodyOf longInput) = longLine
    ∧ longLine.length = 100000
    ∧ bodyLines (cleanSvgBody ords (svgBodyOf longInput)) = []
    ∧ convertSvgToTsx iter ords longInput "Icon".toList
        = ("import * as React from \"react\";\n"
            ++ "\n"
            ++ "const Icon: React.FC<React.SVGProps<SVGElement>> = (props) => (\n"
            ++ "  <svg\n"
            ++ "    xmlns=\"http://www.w3.org/2000/svg\"\n"
            ++ "    \x7b...props\x7d\n"
            ++ "  >\n"
            ++ "  </svg>\n"
            ++ ");\n"
            ++ "\n"
            ++ "export default React.memo(Icon);\n").toList := by
  have hb : cleanSvgBody ords (svgBodyOf longInput) = longLine := by
    rw [longInput, longLine, svgBodyOf_replicate]
    exact cleanSvgBody_replicate ords 99999
  have hl : bodyLines longLine = [] := bodyLines_replicate 99999 (by decide)
  have ha : svgAttrsOf longInput = [] := by
    rw [longInput, longLine, svgAttrsOf_replicate]
  refine ⟨hb, List.length_replicate _ _, by rw [hb, hl], ?_⟩
  unfold convertSvgToTsx emitAttrs emitBody
  rw [hb, hl, ha]
  have hp : parseAttributes [] = [] := rfl
  rw [hp, iter_nil hiter]
  decide

theorem long_line_dropped_witness :
    (∀ m : Table, (id m).Perm m)
    ∧ bodyLines (cleanSvgBody (fun _ => bodyTable) (svgBodyOf longInput)) = [] :=
  ⟨fun _ => List.Perm.refl _,
    (long_line_dropped id (fun _ => bodyTable) (fun _ => List.Perm.refl _)).2.2.1⟩


/-- C10: for every input text and every component name `c`, whatever the
orders in which the maps are visited, the output of `convertSvgToTsx` is the
fixed import line, the declaration naming `c`, the open tag and the namespace
line, then the attribute lines, then the props-spread and tag-close lines,
then the body lines, then the close tag and the default export naming `c`;
so it begins with the fixed head and ends with the fixed tail. -/
theorem convertSvgToTsx_frame (iter : Table → Table) (ords : Nat → Table)
    (svgContent c : Str) :
    convertSvgToTsx iter ords svgContent c
      = ("import * as React from \"react\";\n\nconst ".toList ++ c
          ++ ": React.FC<React.SVGProps<SVGElement>> = (props) => (\n  <svg\n    xmlns=\"http://www.w3.org/2000/svg\"\n".toList)
        ++ emitAttrs (iter (parseAttributes (svgAttrsOf svgContent)))
        ++ "    \x7b...props\x7d\n  >\n".toList
        ++ emitBody (cleanSvgBody ords (svgBodyOf svgContent))
        ++ ("  </svg>\n);\n\nexport default React.memo(".toList ++ c ++ ");\n".toList)
    ∧ ("import * as React from \"react\";\n\nconst ".toList ++ c
          ++ ": React.FC<React.SVGProps<SVGElement>> = (props) => (\n  <svg\n    xmlns=\"http://www.w3.org/2000/svg\"\n".toList)
        <+: convertSvgToTsx iter ords svgContent c
    ∧ ("  </svg>\n);\n\nexport default React.memo(".toList ++ c ++ ");\n".toList)
        <:+ convertSvgToTsx iter ords svgContent c := by
  have hh : header c = "import * as React from \"react\";\n\nconst ".toList ++ c
      ++ ": React.FC<React.SVGProps<SVGElement>> = (props) => (\n  <svg\n    xmlns=\"http://www.w3.org/2000/svg\"\n".toList := by
    simp only [header, List.append_assoc]
    rfl
  have hp : propsLines = "    \x7b...props\x7d\n  >\n".toList := rfl
  have hf : footer c = "  </svg>\n);\n\nexport default React.memo(".toList ++ c ++ ");\n".toList := by
    simp only [footer, List.append_assoc]
    rfl
  have e : convertSvgToTsx iter ords svgContent c
      = ("import * as React from \"react\";\n\nconst ".toList ++ c
          ++ ": React.FC<React.SVGProps<SVGElement>> = (props) => (\n  <svg\n    xmlns=\"http://www.w3.org/2000/svg\"\n".toList)
        ++ emitAttrs (iter (parseAttributes (svgAttrsOf svgContent)))
        ++ "    \x7b...props\x7d\n  >\n".toList
        ++ emitBody (cleanSvgBody ords (svgBodyOf svgContent))
        ++ ("  </svg>\n);\n\nexport default React.memo(".toList ++ c ++ ");\n".toList) := by
    rw [convertSvgToTsx, hh, hp, hf]
  refine ⟨e, ?_, ?_⟩
  · rw [e]
    exact (((List.prefix_append _ _).trans (List.prefix_append _ _)).trans
      (List.prefix_append _ _)).trans (List.prefix_append _ _)
  · rw [e]
    exact List.suffix_append _ _


/-- C11: for every input text in which `<svg` does not occur and every
component name `c`, whatever the orders in which the maps are visited,
`convertSvgToTsx` returns exactly the empty scaffold naming `c`: the
attribute text and the body text both default to the empty text. -/
theorem convertSvgToTsx_no_root (iter : Table → Table) (hiter : ∀ m, (iter m).Perm m)
    (ords : Nat → Table) (svgContent c : Str) (h : ¬ "<svg".toList <:+: svgContent) :
    convertSvgToTsx iter ords svgContent c
      = "import * as React from \"react\";\n\nconst ".toList ++ c
        ++ ": React.FC<React.SVGProps<SVGElement>> = (props) => (\n  <svg\n    xmlns=\"http://www.w3.org/2000/svg\"\n    \x7b...props\x7d\n  >\n  </svg>\n);\n\nexport default React.memo(".toList
        ++ c ++ ");\n".toList
    ∧ svgAttrsOf svgContent = []
    ∧ svgBodyOf svgContent = [] := by
  refine ⟨?_, svgAttrsOf_no_root h, svgBodyOf_no_root h⟩
  have hp : parseAttributes [] = [] := rfl
  have he : emitAttrs [] = [] := rfl
  rw [convertSvgToTsx, svgAttrsOf_no_root h, svgBodyOf_no_root h, hp, iter_nil hiter, he,
    cleanSvgBody_nil, emitBody_nil]
  exact scaffold_eq c

theorem convertSvgToTsx_no_root_witness :
    (∀ m : Table, (id m).Perm m)
    ∧ ¬ "<svg".toList <:+: "<p>not an image</p>".toList
    ∧ convertSvgToTsx id (fun _ => bodyTable) "<p>not an image</p>".toList "Icon".toList
      = "import * as React from \"react\";\n\nconst ".toList ++ "Icon".toList
        ++ ": React.FC<React.SVGProps<SVGElement>> = (props) => (\n  <svg\n    xmlns=\"http://www.w3.org/2000/svg\"\n    \x7b...props\x7d\n  >\n  </svg>\n);\n\nexport default React.memo(".toList
        ++ "Icon".toList ++ ");\n".toList :=
  ⟨fun _ => List.Perm.refl _, not_infix_of_containsLit (by decide),
    (convertSvgToTsx_no_root id (fun _ => List.Perm.refl _) (fun _ => bodyTable)
      "<p>not an image</p>".toList "Icon".toList (not_infix_of_containsLit (by decide))).1⟩


/-- C12: last write wins.  For every attribute text the keys of the mapping
returned by `parseAttributes` are pairwise different, and a key `m` is bound
to the value `v` exactly when the last match, in scan order, whose name is
mapped to `m` carries the value `v`; for `stroke-width="1" strokeWidth="2"`
the result is the single entry `strokeWidth -> "2"`. -/
theorem parseAttributes_last_write (attrsStr m v : Str) :
    ((parseAttributes attrsStr).map Prod.fst).Nodup
    ∧ ((m, v) ∈ parseAttributes attrsStr ↔
        ∃ l1 nv l2, findAll attrAt attrsStr = l1 ++ nv :: l2
          ∧ mapAttributeName nv.1 = m ∧ nv.2 = v
          ∧ ∀ x ∈ l2, mapAttributeName x.1 ≠ m)
    ∧ parseAttributes "stroke-width=\"1\" strokeWidth=\"2\"".toList
        = [("strokeWidth".toList, "\"2\"".toList)] := by
  have hnd := parseAttributes_nodup attrsStr
  have hback : ∀ l1 nv l2, findAll attrAt attrsStr = l1 ++ nv :: l2 →
      (∀ x ∈ l2, mapAttributeName x.1 ≠ mapAttributeName nv.1) →
      (mapAttributeName nv.1, nv.2) ∈ parseAttributes attrsStr := by
    intro l1 nv l2 e hl
    apply (lookup_iff_mem_of_nodup hnd _ _).1
    have hp : parseAttributes attrsStr = (l1 ++ nv :: l2).foldl parseStep [] := by
      rw [← e]; rfl
    rw [hp]
    exact foldl_parseStep_lookup_last l1 l2 nv [] hl
  refine ⟨hnd, ⟨?_, ?_⟩, by decide⟩
  · intro hmem
    obtain ⟨name, _, hk⟩ := parseAttributes_key hmem
    have h1 : (m, v) ∈ (findAll attrAt attrsStr).foldl parseStep [] := hmem
    have hex : ∃ x ∈ findAll attrAt attrsStr, mapAttributeName x.1 = m := by
      rcases foldl_parseStep_mem _ h1 with h2 | ⟨nv, hnv, hk2⟩
      · cases h2
      · exact ⟨nv, hnv, hk2.symm⟩
    obtain ⟨l1, nv, l2, e, hnv, hl2⟩ :=
      exists_last_split (fun x : Str × Str => mapAttributeName x.1 = m) _ hex
    refine ⟨l1, nv, l2, e, hnv, ?_, hl2⟩
    have hm2 := hback l1 nv l2 e (by rw [hnv]; exact hl2)
    rw [hnv] at hm2
    have a1 := (lookup_iff_mem_of_nodup hnd _ _).2 hm2
    have a2 := (lookup_iff_mem_of_nodup hnd _ _).2 hmem
    rw [a1] at a2
    exact Option.some.inj a2
  · rintro ⟨l1, nv, l2, e, rfl, rfl, hl2⟩
    exact hback l1 nv l2 e hl2


/-- C13: for every input, whatever the orders in which the maps are visited,
the root block of the output starts with the fixed line
`xmlns="http://www.w3.org/2000/svg"`; none of the lines the attribute loop
writes behind it starts with `xmlns=`; every entry of the parsed mapping
whose key is not `xmlns` is written, and nothing else is.  When the source
root tag declares `xmlns` with a value of its own, that value is not written. -/
theorem root_block_xmlns (iter : Table → Table) (hiter : ∀ m, (iter m).Perm m)
    (ords : Nat → Table) (svgContent c : Str) :
    convertSvgToTsx iter ords svgContent c
      = "import * as React from \"react\";\n\nconst ".toList ++ c
        ++ ": React.FC<React.SVGProps<SVGElement>> = (props) => (\n  <svg\n".toList
        ++ "    xmlns=\"http://www.w3.org/2000/svg\"\n".toList
        ++ (rootLines (iter (parseAttributes (svgAttrsOf svgContent)))).flatten
        ++ "    \x7b...props\x7d\n".toList ++ "  >\n".toList
        ++ emitBody (cleanSvgBody ords (svgBodyOf svgContent))
        ++ ("  </svg>\n);\n\nexport default React.memo(".toList ++ c ++ ");\n".toList)
    ∧ (∀ ln ∈ rootLines (iter (parseAttributes (svgAttrsOf svgContent))),
        ¬ "    xmlns=".toList <+: ln)
    ∧ (∀ kv ∈ parseAttributes (svgAttrsOf svgContent), kv.1 ≠ "xmlns".toList →
        "    ".toList ++ kv.1 ++ ['='] ++ kv.2 ++ ['\n']
          ∈ rootLines (iter (parseAttributes (svgAttrsOf svgContent))))
    ∧ (∀ ln ∈ rootLines (iter (parseAttributes (svgAttrsOf svgContent))),
        ∃ kv ∈ parseAttributes (svgAttrsOf svgContent), kv.1 ≠ "xmlns".toList
          ∧ ln = "    ".toList ++ kv.1 ++ ['='] ++ kv.2 ++ ['\n'])
    ∧ parseAttributes (svgAttrsOf "<svg xmlns=\"urn:other\" width=\"1\"></svg>".toList)
        = [("xmlns".toList, "\"urn:other\"".toList), ("width".toList, "\"1\"".toList)]
    ∧ rootLines (iter (parseAttributes
          (svgAttrsOf "<svg xmlns=\"urn:other\" width=\"1\"></svg>".toList)))
        = ["    width=\"1\"\n".toList] := by
  refine ⟨convertSvgToTsx_eq iter ords svgContent c, ?_, ?_, ?_, by decide, ?_⟩
  · intro ln hln
    obtain ⟨kv, hkv, hx, rfl⟩ := rootLines_mem hln
    have hmem := (hiter _).mem_iff.1 hkv
    obtain ⟨name, hname, hk⟩ := parseAttributes_key hmem
    have hkeys : ∀ ch ∈ kv.1, ch ≠ '=' := by
      rw [hk]; exact mapAttributeName_eqSign hname
    have hp := attrLine_prefix (k := kv.1) (m := "xmlns".toList) kv.2 hkeys (by decide)
    have hne : decide (kv.1 = "xmlns".toList) = false := by simpa using hx
    rw [hne] at hp
    intro hpre
    have e : "    xmlns=".toList = "    ".toList ++ "xmlns".toList ++ ['='] := by decide
    rw [e, ← List.isPrefixOf_iff_prefix, hp] at hpre
    cases hpre
  · intro kv hkv hx
    exact mem_rootLines ((hiter _).mem_iff.2 hkv) hx
  · intro ln hln
    obtain ⟨kv, hkv, hx, rfl⟩ := rootLines_mem hln
    exact ⟨kv, (hiter _).mem_iff.1 hkv, hx, rfl⟩
  · have hp : parseAttributes (svgAttrsOf "<svg xmlns=\"urn:other\" width=\"1\"></svg>".toList)
        = [("xmlns".toList, "\"urn:other\"".toList), ("width".toList, "\"1\"".toList)] := by
      decide
    rw [hp, rootLines]
    have hf := (hiter [("xmlns".toList, "\"urn:other\"".toList),
      ("width".toList, "\"1\"".toList)]).filter (fun kv => decide (kv.1 ≠ "xmlns".toList))
    have hr : List.filter (fun kv : Str × Str => decide (kv.1 ≠ "xmlns".toList))
        [("xmlns".toList, "\"urn:other\"".toList), ("width".toList, "\"1\"".toList)]
        = [("width".toList, "\"1\"".toList)] := by decide
    rw [hr] at hf
    rw [List.perm_singleton.1 hf]
    decide

theorem root_block_xmlns_witness :
    (∀ m : Table, (id m).Perm m)
    ∧ rootLines (id (parseAttributes
          (svgAttrsOf "<svg xmlns=\"urn:other\" width=\"1\"></svg>".toList)))
        = ["    width=\"1\"\n".toList] :=
  ⟨fun _ => List.Perm.refl _,
    (root_block_xmlns id (fun _ => List.Perm.refl _) (fun _ => bodyTable)
      "<svg xmlns=\"urn:other\" width=\"1\"></svg>".toList "Icon".toList).2.2.2.2.2⟩


/-- C14: for every attribute text in which the attribute pattern matches at
no position (in particular the empty text) `parseAttributes` returns the
empty mapping; and for every input whose root tag has such an attribute text
(for instance `<svg><g/></svg>`), whatever the orders in which the maps are
visited, the attribute loop writes no line, so the root block is the fixed
namespace line followed by the props-spread line. -/
theorem parseAttributes_no_match (attrsStr : Str)
    (h : ∀ suf, suf <:+ attrsStr → attrAt false suf = none) :
    parseAttributes attrsStr = []
    ∧ parseAttributes [] = []
    ∧ (∀ (iter : Table → Table) (ords : Nat → Table) (svgContent c : Str),
        (∀ m, (iter m).Perm m) → svgAttrsOf svgContent = attrsStr →
        rootLines (iter (parseAttributes (svgAttrsOf svgContent))) = []
        ∧ convertSvgToTsx iter ords svgContent c
          = "import * as React from \"react\";\n\nconst ".toList ++ c
            ++ ": React.FC<React.SVGProps<SVGElement>> = (props) => (\n  <svg\n".toList
            ++ "    xmlns=\"http://www.w3.org/2000/svg\"\n".toList
            ++ "    \x7b...props\x7d\n".toList ++ "  >\n".toList
            ++ emitBody (cleanSvgBody ords (svgBodyOf svgContent))
            ++ ("  </svg>\n);\n\nexport default React.memo(".toList ++ c ++ ");\n".toList))
    ∧ svgAttrsOf "<svg><g/></svg>".toList = [] := by
  have hp : parseAttributes attrsStr = [] := by
    have hf : findAll attrAt attrsStr = [] := findAllAux_none (fun _ suf hs => h suf hs) true
    rw [parseAttributes, hf]
    rfl
  refine ⟨hp, rfl, ?_, by decide⟩
  intro iter ords svgContent c hiter hsvg
  have hr : rootLines (iter (parseAttributes (svgAttrsOf svgContent))) = [] := by
    rw [hsvg, hp, iter_nil hiter]
    rfl
  refine ⟨hr, ?_⟩
  rw [convertSvgToTsx_eq, hr]
  simp only [List.flatten_nil, List.append_nil]

theorem no_match_example :
    ∀ suf, suf <:+ " width=10 disabled".toList → attrAt false suf = none := by
  intro suf hs
  have h : ∀ x ∈ " width=10 disabled".toList.tails, attrAt false x = none := by decide
  exact h suf ((List.mem_tails _ _).2 hs)

theorem parseAttributes_no_match_witness :
    (∀ suf, suf <:+ " width=10 disabled".toList → attrAt false suf = none)
    ∧ parseAttributes " width=10 disabled".toList = [] :=
  ⟨no_match_example, (parseAttributes_no_match " width=10 disabled".toList no_match_example).1⟩


/-- C15: for every attribute name that is not a key of the root table and
contains no hyphen, the name rewriting of `parseAttributes` returns the name
unchanged, and `parseAttributes` applied to `n=v` returns the single entry
`n -> v`; this holds in particular for `viewBox`. -/
theorem name_without_hyphen (name : Str) (hname : IsName name) (hh : '-' ∉ name)
    (hkey : ∀ t, (name, t) ∉ rootTable) :
    mapAttributeName name = name
    ∧ (∀ v, IsQuoted v → parseAttributes (name ++ '=' :: v) = [(name, v)])
    ∧ mapAttributeName "viewBox".toList = "viewBox".toList
    ∧ parseAttributes "viewBox=\"0 0 24 24\"".toList
        = [("viewBox".toList, "\"0 0 24 24\"".toList)] := by
  have h1 : rootTable.lookup name = none := by
    cases hq : rootTable.lookup name with
    | none => rfl
    | some t => exact absurd ((lookup_iff_mem_of_nodup rootTable_nodup name t).1 hq) (hkey t)
  have h3 : ¬ containsLit "-".toList name = true := fun hc =>
    hh ((containsLit_singleton '-' name).1 hc)
  have hm : mapAttributeName name = name := by
    simp only [mapAttributeName, h1]
    rw [if_neg (fun hc => h3 hc.2)]
  refine ⟨hm, ?_, by decide, by decide⟩
  intro v hv
  rw [parseAttributes_single hname hv, hm]

theorem viewBox_not_key : ∀ t, ("viewBox".toList, t) ∉ rootTable := by
  intro t h
  have h2 : "viewBox".toList ∈ rootTable.map Prod.fst := List.mem_map_of_mem Prod.fst h
  revert h2
  decide

theorem name_without_hyphen_witness :
    IsName "viewBox".toList
    ∧ '-' ∉ "viewBox".toList
    ∧ (∀ t, ("viewBox".toList, t) ∉ rootTable)
    ∧ mapAttributeName "viewBox".toList = "viewBox".toList :=
  ⟨⟨by decide, by decide⟩, by decide, viewBox_not_key,
    (name_without_hyphen "viewBox".toList ⟨by decide, by decide⟩ (by decide)
      viewBox_not_key).1⟩


/-- C16, refuted as stated: the line `<g class--="x">` holds no table key,
the generic branch converts the token `class--` to `class`, and the returned
line `<g class="x">` holds the key `class` behind a space and in front of
`=`, for every table order. -/
theorem key_at_boundary_counterexample :
    convertAttributesInLine bodyTable "<g class--=\"x\">".toList = "<g class=\"x\">".toList
    ∧ ("class".toList, "className".toList) ∈ bodyTable
    ∧ BoundaryOcc "class".toList "<g class=\"x\">".toList
    ∧ ¬ ∃ ord : Table, ord.Perm bodyTable
        ∧ ¬ BoundaryOcc "class".toList
            (convertAttributesInLine ord "<g class--=\"x\">".toList) := by
  have h1 : convertAttributesInLine bodyTable "<g class--=\"x\">".toList
      = "<g class=\"x\">".toList := by decide
  have h2 : BoundaryOcc "class".toList "<g class=\"x\">".toList :=
    ⟨"<g ".toList, "\"x\">".toList, by decide, Or.inr ⟨"<g".toList, ' ', by decide, by decide⟩⟩
  refine ⟨h1, by decide, h2, ?_⟩
  rintro ⟨ord, hord, hno⟩
  rw [convertAttributesInLine_perm hord, h1] at hno
  exact hno h2

/-- C16, amended: for every line, every table order and every key `k` of the
body table, the line as it stands behind the explicit loop holds no
occurrence of `k=` at the start of the line or immediately behind a
white-space character; the line `convertAttributesInLine` returns holds none
either when `k` is not `class`, and none for `class` as well when the generic
branch finds on the line no token whose conversion is `class`. -/
theorem no_key_at_boundary (ord : Table) (hord : ord.Perm bodyTable) (line k t : Str)
    (hk : (k, t) ∈ bodyTable) :
    ¬ BoundaryOcc k (replaceKnown ord line)
    ∧ (k ≠ "class".toList → ¬ BoundaryOcc k (convertAttributesInLine ord line))
    ∧ (NoClassToken ord line → ¬ BoundaryOcc k (convertAttributesInLine ord line)) := by
  refine ⟨?_, ?_, ?_⟩
  · intro h
    have h1 := keyOccurs_of_boundaryOcc h
    rw [replaceKnown_keyOccurs hord hk line] at h1
    cases h1
  · intro hne h
    have hh : '-' ∈ k := by
      rcases bodyTable_hyphen_or_class (k, t) hk with h2 | h2
      · exact h2
      · exact absurd h2 hne
    have h1 := keyOccurs_of_boundaryOcc h
    rw [convertAttributesInLine_keyOccurs hord hk line (Or.inl hh)] at h1
    cases h1
  · intro hc h
    have h1 := keyOccurs_of_boundaryOcc h
    rw [convertAttributesInLine_keyOccurs hord hk line (Or.inr hc)] at h1
    cases h1

theorem no_key_at_boundary_witness :
    bodyTable.Perm bodyTable
    ∧ ("class".toList, "className".toList) ∈ bodyTable
    ∧ NoClassToken bodyTable "<path stroke-width=\"2\" data-a=\"1\" class=\"a\"/>".toList
    ∧ ¬ BoundaryOcc "class".toList
        (convertAttributesInLine bodyTable
          "<path stroke-width=\"2\" data-a=\"1\" class=\"a\"/>".toList) :=
  ⟨List.Perm.refl _, by decide, by decide,
    (no_key_at_boundary bodyTable (List.Perm.refl _)
      "<path stroke-width=\"2\" data-a=\"1\" class=\"a\"/>".toList "class".toList
      "className".toList (by decide)).2.2 (by decide)⟩


/-- C17: for every line that contains no `=`, `convertAttributesInLine`
returns its argument, whatever the table order; so wherever a body has a
non-blank line without `=`, `cleanSvgBody` emits for it the line with only
its leading and trailing white space removed, and a body that is one such
line is returned trimmed. -/
theorem line_without_eq (ords : Nat → Table) (ord : Table) (line : Str)
    (hne : trimSpace line ≠ []) (heq : '=' ∉ line) :
    convertAttributesInLine ord line = line
    ∧ convertAttributesInLine ord (trimSpace line) = trimSpace line
    ∧ (∀ body pre post, splitOn '\n' body = pre ++ line :: post →
        cleanSvgBody ords body
          = joinWith ['\n'] (cleanLines ords 0 pre
              ++ trimSpace line :: cleanLines ords (pre.length + 1) post))
    ∧ ((∀ c ∈ line, c ≠ '\n') → cleanSvgBody ords line = trimSpace line) := by
  have ht : '=' ∉ trimSpace line := fun hc => heq (trimSpace_subset hc)
  have hline : ∀ i post, cleanLines ords i (line :: post)
      = trimSpace line :: cleanLines ords (i + 1) post := by
    intro i post
    rw [cleanLines, if_pos hne, convertAttributesInLine_no_eq _ ht]
  refine ⟨convertAttributesInLine_no_eq ord heq, convertAttributesInLine_no_eq ord ht, ?_, ?_⟩
  · intro body pre post hsplit
    rw [cleanSvgBody, hsplit, cleanLines_append, hline, Nat.zero_add]
  · intro hnl
    rw [cleanSvgBody, splitOn_no_sep hnl, hline]
    rfl

theorem line_without_eq_witness :
    trimSpace "  <g>\t".toList ≠ []
    ∧ '=' ∉ "  <g>\t".toList
    ∧ cleanSvgBody (fun _ => bodyTable) "  <g>\t".toList = "<g>".toList :=
  ⟨by decide, by decide,
    ((line_without_eq (fun _ => bodyTable) bodyTable "  <g>\t".toList (by decide)
      (by decide)).2.2.2 (by decide)).trans (by decide)⟩


/-- C18: `convertAttributesInLine` is deterministic.  Any two replacements of
the explicit loop commute on every line, so for every line and every two
orders in which the 19 entries of the body table are visited, the line
behind the explicit loop is the same, and so is the returned line. -/
theorem order_independent (ord1 ord2 : Table) (h1 : ord1.Perm bodyTable)
    (h2 : ord2.Perm bodyTable) (line : Str) :
    replaceKnown ord1 line = replaceKnown ord2 line
    ∧ convertAttributesInLine ord1 line = convertAttributesInLine ord2 line
    ∧ bodyTable.length = 19
    ∧ (∀ a ∈ bodyTable, ∀ b ∈ bodyTable, ∀ l : Str,
        replaceAll (keyAt a.1 a.2) (replaceAll (keyAt b.1 b.2) l)
          = replaceAll (keyAt b.1 b.2) (replaceAll (keyAt a.1 a.2) l)) := by
  refine ⟨?_, ?_, rfl, ?_⟩
  · rw [replaceKnown_perm h1, replaceKnown_perm h2]
  · rw [convertAttributesInLine_perm h1, convertAttributesInLine_perm h2]
  · intro a ha b hb l
    rcases bodyTable_apart a ha b hb with hab | hab
    · rw [hab]
    · exact replaceKeyFrom_comm hab l.length true l (Nat.le_refl _)

theorem order_independent_witness :
    bodyTable.reverse.Perm bodyTable
    ∧ bodyTable.Perm bodyTable
    ∧ convertAttributesInLine bodyTable.reverse
        "<path stroke-width=\"2\" fill-rule=\"evenodd\" class=\"a\"/>".toList
      = convertAttributesInLine bodyTable
        "<path stroke-width=\"2\" fill-rule=\"evenodd\" class=\"a\"/>".toList :=
  ⟨List.reverse_perm _, List.Perm.refl _,
    (order_independent bodyTable.reverse bodyTable (List.reverse_perm _) (List.Perm.refl _)
      "<path stroke-width=\"2\" fill-rule=\"evenodd\" class=\"a\"/>".toList).2.1⟩


/-- C19: the explicit table agrees with the generic rule.  For each of the 24
entries of the root table whose key contains a hyphen (out of 27),
`convertKebabToCamel` of the key is the target of the entry.  Six of them are
missing from the body table (`color-interpolation`, `color-rendering`,
`dominant-baseline`, `shape-rendering`, `text-decoration`, `vector-effect`);
on a body line `<path k="x"/>` the generic branch gives each of these keys
the target of the root table, whatever the table order. -/
theorem table_agrees_with_generic (ords : Nat → Table)
    (hords : ∀ i, (ords i).Perm bodyTable) :
    (∀ kt ∈ rootTable, '-' ∈ kt.1 → convertKebabToCamel kt.1 = kt.2)
    ∧ (rootTable.filter fun kt => decide ('-' ∈ kt.1)).length = 24
    ∧ rootTable.length = 27
    ∧ (rootTable.filter fun kt => decide ('-' ∈ kt.1 ∧ kt ∉ bodyTable)).map Prod.fst
        = ["color-interpolation".toList, "color-rendering".toList,
            "dominant-baseline".toList, "shape-rendering".toList,
            "text-decoration".toList, "vector-effect".toList]
    ∧ (∀ kt ∈ rootTable, '-' ∈ kt.1 → kt ∉ bodyTable →
        cleanSvgBody ords ("<path ".toList ++ kt.1 ++ "=\"x\"/>".toList)
          = "<path ".toList ++ kt.2 ++ "=\"x\"/>".toList) := by
  refine ⟨by decide, by decide, rfl, by decide, ?_⟩
  intro kt hkt hh hb
  rw [cleanSvgBody_perm hords]
  revert kt
  decide

theorem table_agrees_with_generic_witness :
    (∀ i : Nat, ((fun _ => bodyTable) i : Table).Perm bodyTable)
    ∧ cleanSvgBody (fun _ => bodyTable)
        ("<path ".toList ++ "vector-effect".toList ++ "=\"x\"/>".toList)
      = "<path ".toList ++ "vectorEffect".toList ++ "=\"x\"/>".toList :=
  ⟨fun _ => List.Perm.refl _,
    (table_agrees_with_generic (fun _ => bodyTable) (fun _ => List.Perm.refl _)).2.2.2.2
      ("vector-effect".toList, "vectorEffect".toList) (by decide) (by decide) (by decide)⟩


/-- C20, refuted as stated: the body `<g class--="x"/>` is cleaned to
`<g class="x"/>`, and cleaning that gives `<g className="x"/>`, for all table
orders. -/
theorem cleanSvgBody_not_idempotent :
    cleanSvgBody (fun _ => bodyTable) "<g class--=\"x\"/>".toList = "<g class=\"x\"/>".toList
    ∧ cleanSvgBody (fun _ => bodyTable) "<g class=\"x\"/>".toList
        = "<g className=\"x\"/>".toList
    ∧ ¬ ∃ ords1 ords2 : Nat → Table,
        (∀ i, (ords1 i).Perm bodyTable) ∧ (∀ i, (ords2 i).Perm bodyTable)
        ∧ cleanSvgBody ords2 (cleanSvgBody ords1 "<g class--=\"x\"/>".toList)
            = cleanSvgBody ords1 "<g class--=\"x\"/>".toList := by
  have h1 : cleanSvgBody (fun _ => bodyTable) "<g class--=\"x\"/>".toList
      = "<g class=\"x\"/>".toList := by decide
  have h2 : cleanSvgBody (fun _ => bodyTable) "<g class=\"x\"/>".toList
      = "<g className=\"x\"/>".toList := by decide
  refine ⟨h1, h2, ?_⟩
  rintro ⟨ords1, ords2, ho1, ho2, h⟩
  rw [cleanSvgBody_perm ho1, h1, cleanSvgBody_perm ho2, h2] at h
  revert h
  decide

/-- C20, amended: for every body text on whose lines the generic branch
finds no token whose conversion is `class`, and for all table orders,
cleaning the cleaned body changes nothing:
`cleanSvgBody (cleanSvgBody b) = cleanSvgBody b`. -/
theorem cleanSvgBody_idempotent (ords1 ords2 : Nat → Table)
    (h1 : ∀ i, (ords1 i).Perm bodyTable) (h2 : ∀ i, (ords2 i).Perm bodyTable) (body : Str)
    (hc : ∀ l ∈ splitOn '\n' body, NoClassToken bodyTable (trimSpace l)) :
    cleanSvgBody ords2 (cleanSvgBody ords1 body) = cleanSvgBody ords1 body := by
  by_cases hne : cleanLines ords1 0 (splitOn '\n' body) = []
  · have e : cleanSvgBody ords1 body = [] := by
      rw [cleanSvgBody, hne]; rfl
    rw [e]
    rfl
  · obtain ⟨_, hs⟩ := splitOn_cleanSvgBody (fun i kt h => (h1 i).subset h) body hne
    have hfix : cleanLines ords2 0 (cleanLines ords1 0 (splitOn '\n' body))
        = cleanLines ords1 0 (splitOn '\n' body) := by
      apply cleanLines_fixed
      intro x hx
      obtain ⟨j, l, hl, hl2, rfl⟩ := cleanLines_mem hx
      have hends := convertAttributesInLine_ends (fun kt h => (h1 j).subset h)
        (trimSpace_ends l).1 (trimSpace_ends l).2
      refine ⟨trimSpace_fixed hends.1 hends.2, convertAttributesInLine_ne_nil _ hl2, ?_⟩
      intro i
      apply convertAttributesInLine_fixed (h1 j) (h2 i)
      have hcl := hc l hl
      unfold NoClassToken at hcl ⊢
      rw [replaceKnown_perm (h1 j)]
      exact hcl
    conv_lhs => rw [cleanSvgBody, hs, hfix]
    rfl

theorem cleanSvgBody_idempotent_witness :
    (∀ i : Nat, ((fun _ => bodyTable) i : Table).Perm bodyTable)
    ∧ (∀ l ∈ splitOn '\n' "<g>\n  <path stroke-width=\"2\" data-a-b=\"1\" class=\"k\"/>\n\n</g>".toList,
        NoClassToken bodyTable (trimSpace l))
    ∧ cleanSvgBody (fun _ => bodyTable) (cleanSvgBody (fun _ => bodyTable)
          "<g>\n  <path stroke-width=\"2\" data-a-b=\"1\" class=\"k\"/>\n\n</g>".toList)
        = cleanSvgBody (fun _ => bodyTable)
          "<g>\n  <path stroke-width=\"2\" data-a-b=\"1\" class=\"k\"/>\n\n</g>".toList :=
  ⟨fun _ => List.Perm.refl _, by decide,
    cleanSvgBody_idempotent (fun _ => bodyTable) (fun _ => bodyTable)
      (fun _ => List.Perm.refl _) (fun _ => List.Perm.refl _)
      "<g>\n  <path stroke-width=\"2\" data-a-b=\"1\" class=\"k\"/>\n\n</g>".toList (by decide)⟩


end SvgToJsx
